import Mathlib

/-!
Verification of the pathfinding engine of the `pathfinder` repository.

The definitions below are a shallow embedding of the TypeScript sources
(`src/types.ts`, `src/gridFunctions.ts`, `src/utils.ts`, `src/algorithms.ts`).
JavaScript `Map`s keyed by `cellToString(cell)` are modelled as association
lists keyed by the cell itself (`cellToString` is injective, so the keying is
the same).  The `{row: NaN, col: NaN}` sentinel stored as the start cell's
predecessor is modelled as `none`.  Generator functions are modelled as
fuel-indexed loops returning the list of yielded steps together with an
outcome; `Outcome.stuck` models a JavaScript crash or fuel exhaustion and is
proved unreachable for well-formed inputs.
-/

namespace Pathfinder

/-- Cell states of the grid (`CellType` in `src/types.ts`). -/
inductive CellType where
  | Unexplored
  | Frontier
  | Explored
  | Wall
  | Start
  | Goal
  | Path
deriving DecidableEq, Repr

/-- A grid coordinate (`CellCoordinates` in `src/types.ts`).  Coordinates are
integers because neighbour generation may step outside the grid before the
bounds check. -/
structure CellCoordinates where
  row : Int
  col : Int
deriving DecidableEq, Repr

/-- A grid is a matrix of cell states (`CellType[][]`). -/
abbrev Grid := List (List CellType)

/-- The four compass directions (`Direction` in `src/types.ts`). -/
inductive Direction where
  | Up
  | Left
  | Down
  | Right
deriving DecidableEq, Repr

/-- `DIRECTION_TO_OFFSET` of `src/types.ts`. -/
def DIRECTION_TO_OFFSET (d : Direction) : Int × Int :=
  match d with
  | .Up => (-1, 0)
  | .Left => (0, -1)
  | .Down => (1, 0)
  | .Right => (0, 1)

/-- The order in which `Object.values(DIRECTION_TO_OFFSET)` enumerates the
directions: declaration order Up, Left, Down, Right. -/
def directionList : List Direction := [.Up, .Left, .Down, .Right]

/-- The offsets in enumeration order. -/
def offsetList : List (Int × Int) := directionList.map DIRECTION_TO_OFFSET

def numRows (g : Grid) : Nat := g.length

/-- `grid[0].length` — the length of the first row. -/
def numCols (g : Grid) : Nat := (g.headD []).length

/-- Reading `grid[row][col]`.  A JavaScript out-of-range read yields
`undefined`; we return `Unexplored`, which, like `undefined`, is distinct
from `Wall`, `Start` and `Goal` in every comparison the code performs on a
possibly missing cell. -/
def cellAt (g : Grid) (c : CellCoordinates) : CellType :=
  if 0 ≤ c.row ∧ 0 ≤ c.col then
    (g.getD c.row.toNat []).getD c.col.toNat CellType.Unexplored
  else CellType.Unexplored

/-- `isInsideGrid` of `src/gridFunctions.ts`. -/
def isInsideGrid (cell : CellCoordinates) (g : Grid) : Bool :=
  decide (0 ≤ cell.row ∧ cell.row < (numRows g : Int) ∧
    0 ≤ cell.col ∧ cell.col < (numCols g : Int))

/-- All coordinates scanned by the row-major `for` loops of
`findStartAndGoals`, paired with the cell read there. -/
def gridCellsIdx (g : Grid) : List (CellCoordinates × CellType) :=
  (List.range (numRows g)).flatMap fun (r : ℕ) =>
    (List.range (numCols g)).map fun (c : ℕ) =>
      (⟨(r : Int), (c : Int)⟩, cellAt g ⟨(r : Int), (c : Int)⟩)

/-- `findStartAndGoals` of `src/gridFunctions.ts`: row-major scan; the start
variable is overwritten by each `Start` cell found, goals are collected in
scan order; an error is raised if no start or no goal was seen. -/
def findStartAndGoals (g : Grid) :
    Except String (CellCoordinates × List CellCoordinates) :=
  let scan := (gridCellsIdx g).foldl
    (fun acc ct =>
      if ct.2 = CellType.Start then (some ct.1, acc.2)
      else if ct.2 = CellType.Goal then (acc.1, acc.2 ++ [ct.1])
      else acc)
    ((none : Option CellCoordinates), ([] : List CellCoordinates))
  match scan.1 with
  | none => .error "Could not find the starting cell"
  | some s =>
    if scan.2 = [] then .error "Could not find any goals" else .ok (s, scan.2)

/-- `countSurroundingWalls` of `src/gridFunctions.ts`. -/
def countSurroundingWalls (cell : CellCoordinates) (g : Grid) : Nat :=
  offsetList.foldl
    (fun count off =>
      let c : CellCoordinates := ⟨cell.row + off.1, cell.col + off.2⟩
      if isInsideGrid c g ∧ cellAt g c = CellType.Wall then count + 1
      else count)
    0

/-- The cell types preserved by `resetVisualization`. -/
def preservedTypes : List CellType := [.Start, .Goal, .Wall]

/-- `resetVisualization` of `src/gridFunctions.ts`: a fresh grid in which all
transient cells are reset to `Unexplored`. -/
def resetVisualization (g : Grid) : Grid :=
  g.map fun row =>
    row.map fun cell =>
      if cell ∈ preservedTypes then cell else CellType.Unexplored

/-- `manhattanDistance` of `src/utils.ts`. -/
def manhattanDistance (a b : CellCoordinates) : Nat :=
  (a.row - b.row).natAbs + (a.col - b.col).natAbs

/-- `nearestGoal` of `src/utils.ts`.  The fold starts from
`{goal: NaN, distance: Infinity}`; any first goal beats `Infinity`, so the
result is `none` exactly when `goals` is empty (in which case the source
returns the NaN sentinel, never used by the engine). -/
def nearestGoal (cell : CellCoordinates) (goals : List CellCoordinates) :
    Option (CellCoordinates × Nat) :=
  goals.foldl
    (fun acc goal =>
      match acc with
      | none => some (goal, manhattanDistance cell goal)
      | some (bg, bd) =>
        if manhattanDistance cell goal < bd then
          some (goal, manhattanDistance cell goal)
        else some (bg, bd))
    none

/-- `calculateAngle` of `src/utils.ts` (idealising float `Math.atan` as the
real arctangent). -/
noncomputable def calculateAngle (cell goal : CellCoordinates) : ℝ :=
  if cell.row = goal.row ∨ cell.col = goal.col then 0
  else
    let dRow : ℝ := ((goal.row - cell.row).natAbs : ℝ)
    let dCol : ℝ := ((goal.col - cell.col).natAbs : ℝ)
    min (Real.arctan (dCol / dRow)) (Real.arctan (dRow / dCol))

/-- A frontier entry (`Move` in `src/types.ts`), polymorphic in the priority
type (the informed strategies use numeric priorities; straight-line A* uses a
real-valued one).  `source := none` models the `{row: NaN, col: NaN}`
sentinel of the initial entry; `priority`/`index` are `none` when the source
leaves the optional fields unset. -/
structure Move (π : Type) where
  source : Option CellCoordinates
  destination : CellCoordinates
  priority : Option π := none
  index : Option Nat := none
deriving DecidableEq, Repr

/-- Association-list lookup, modelling `Map.get` with `cellToString` keys. -/
def alistGet {α : Type} :
    List (CellCoordinates × α) → CellCoordinates → Option α
  | [], _ => none
  | (k, v) :: rest, key => if key = k then some v else alistGet rest key

/-- `Map.has`. -/
def alistHas {α : Type} (l : List (CellCoordinates × α))
    (key : CellCoordinates) : Bool :=
  (alistGet l key).isSome

/-- `Map.set`: overwrite an existing key, otherwise add the binding. -/
def alistSet {α : Type} :
    List (CellCoordinates × α) → CellCoordinates → α →
      List (CellCoordinates × α)
  | [], key, v => [(key, v)]
  | (k, v') :: rest, key, v =>
    if key = k then (k, v) :: rest else (k, v') :: alistSet rest key v

/-- The predecessor map `cameFrom`: visited cell ↦ the cell it was reached
from (`none` for the start's NaN sentinel). -/
abbrev CameFrom := List (CellCoordinates × Option CellCoordinates)

/-- The body of `getValidMoves` for one direction offset: the candidate move
if the neighbour is in-bounds, not a wall and not yet visited. -/
def validMoveFor (π : Type) (source : CellCoordinates) (g : Grid)
    (cameFrom : CameFrom) (off : Int × Int) : Option (Move π) :=
  let destination : CellCoordinates :=
    ⟨source.row + off.1, source.col + off.2⟩
  if isInsideGrid destination g ∧ cellAt g destination ≠ CellType.Wall ∧
      ¬ alistHas cameFrom destination then
    some { source := some source, destination := destination }
  else none

/-- `getValidMoves` of `src/algorithms.ts`: the in-bounds, non-wall, not yet
visited neighbours in Up, Left, Down, Right order. -/
def getValidMoves (π : Type) (source : CellCoordinates) (g : Grid)
    (cameFrom : CameFrom) : List (Move π) :=
  offsetList.filterMap (validMoveFor π source g cameFrom)

/-- The backward walk of `reconstructPath` (`src/utils.ts`), fuelled.  The
source pushes the cells walked from the goal, appends the start and reverses;
accumulating with `cons` and finally consing the start yields the same list.
`none` models the crash that a broken predecessor chain would cause (proved
unreachable for chains produced by the searches). -/
def reconstructPathGo (start : CellCoordinates) (cameFrom : CameFrom) :
    Nat → CellCoordinates → List CellCoordinates →
      Option (List CellCoordinates)
  | 0, _, _ => none
  | fuel + 1, current, path =>
    if current = start then some (start :: path)
    else
      match alistGet cameFrom current with
      | some (some previous) => reconstructPathGo start cameFrom fuel previous (current :: path)
      | some none => none
      | none => none

/-- `reconstructPath` of `src/utils.ts`. -/
def reconstructPath (start goal : CellCoordinates) (cameFrom : CameFrom) :
    Option (List CellCoordinates) :=
  reconstructPathGo start cameFrom (cameFrom.length + 1) goal []

/-- One observable search step (the `SearchStep` union used by
`src/algorithms.ts`): `explore`, `frontier`, the terminal `path`, and the
orchestrator's `grid` snapshot. -/
inductive SearchStep where
  | explore (cell : CellCoordinates)
  | frontier (cells : List CellCoordinates)
  | path (cells : List CellCoordinates)
  | grid (g : Grid)
deriving DecidableEq, Repr

/-- How a single algorithm run ends: a reconstructed path, the
"Could not find any path to a goal" error (frontier exhausted), the
validation error of `findStartAndGoals`, or `stuck` (fuel exhaustion /
a modelled crash, proved unreachable). -/
inductive Outcome where
  | path (cells : List CellCoordinates)
  | failure
  | invalid
  | stuck
deriving DecidableEq, Repr

/-- Auxiliary per-run state: the `numSteps` map of the A* variants and the
insertion `index` counter of the heap-based strategies. -/
structure Aux where
  numSteps : List (CellCoordinates × Nat)
  index : Nat
deriving Repr

/-- What distinguishes the six search loops: how the frontier container pops
(`pop`), the order in which fresh moves are processed and emitted (`reorder`:
`List.reverse` for depth-first, identity otherwise), and how fresh moves are
annotated/filtered before being enqueued (`gate`). -/
structure SearchAlg (π : Type) where
  pop : List (Move π) → Option (Move π × List (Move π))
  reorder : List (Move π) → List (Move π)
  gate : CellCoordinates → List (Move π) → Aux → List (Move π) × Aux

/-- Queue `shift` (pop at the front). -/
def popHead {π : Type} : List (Move π) → Option (Move π × List (Move π))
  | [] => none
  | m :: ms => some (m, ms)

/-- Stack `pop` (pop at the back of the array). -/
def popLast {π : Type} (l : List (Move π)) :
    Option (Move π × List (Move π)) :=
  match l.getLast? with
  | none => none
  | some m => some (m, l.dropLast)

/-- `compareMoves` of `src/utils.ts` as a strict order: ascending priority,
ties by ascending insertion index.  Unset fields give `false` (the source
comparator would compute `NaN`; it is never consulted on such entries). -/
def moveLt {π : Type} [LinearOrder π] (a b : Move π) : Bool :=
  match a.priority, b.priority with
  | some pa, some pb =>
    if pa < pb then true
    else if pb < pa then false
    else
      match a.index, b.index with
      | some ia, some ib => decide (ia < ib)
      | _, _ => false
  | _, _ => false

/-- `MinPriorityQueue.poll`: remove the least entry under `compareMoves`
(leftmost among equals; entries are totally ordered by the distinct insertion
indexes whenever the heap holds more than one entry). -/
def heapPoll {π : Type} [LinearOrder π] :
    List (Move π) → Option (Move π × List (Move π))
  | [] => none
  | m :: ms =>
    match heapPoll ms with
    | none => some (m, [])
    | some (m', rest') =>
      if moveLt m' m then some (m', m :: rest') else some (m, ms)

/-- The shared exploration loop of the six algorithms in `src/algorithms.ts`
(fuelled).  Pop a move; skip it if its destination is already visited (lazy
deletion); else record the predecessor, yield `explore`, test the goal (on
success reconstruct and finish), else compute the valid moves, yield
`frontier` with their destinations and enqueue the gated moves at the back of
the container. -/
def runLoop (π : Type) [LinearOrder π] (g : Grid) (A : SearchAlg π)
    (start : CellCoordinates) :
    Nat → List (Move π) → CameFrom → Aux → List SearchStep × Outcome
  | 0, _, _, _ => ([], .stuck)
  | fuel + 1, container, cameFrom, aux =>
    match A.pop container with
    | none => ([], .failure)
    | some (m, rest) =>
      if alistHas cameFrom m.destination then
        runLoop π g A start fuel rest cameFrom aux
      else
        let cameFrom' : CameFrom := (m.destination, m.source) :: cameFrom
        if cellAt g m.destination = CellType.Goal then
          match reconstructPath start m.destination cameFrom' with
          | some p => ([.explore m.destination], .path p)
          | none => ([.explore m.destination], .stuck)
        else
          let newMoves := A.reorder (getValidMoves π m.destination g cameFrom')
          let pushed := A.gate m.destination newMoves aux
          let res :=
            runLoop π g A start fuel (rest ++ pushed.1) cameFrom' pushed.2
          (.explore m.destination ::
            .frontier (newMoves.map (·.destination)) :: res.1, res.2)

/-- Fuel sufficient for any run: the container receives at most `1 + 4·cells`
entries, so the loop iterates at most that often, plus the final test. -/
def searchFuel (g : Grid) : Nat := 4 * (numRows g * numCols g) + 3

/-- The initial frontier entry, with the NaN sentinel source. -/
def initMove (π : Type) (start : CellCoordinates) : Move π :=
  { source := none, destination := start }

/-- Run one algorithm from its start cell. -/
def runSearch (π : Type) [LinearOrder π] (A : SearchAlg π) (g : Grid)
    (start : CellCoordinates) (aux0 : Aux) : List SearchStep × Outcome :=
  runLoop π g A start (searchFuel g) [initMove π start] [] aux0

/-- The enqueue loop of the heap strategies without relaxation
(greedy-best-first, open search): annotate every move with its priority and
the running insertion index. -/
def assignPrio (π : Type) (f : CellCoordinates → π) :
    List (Move π) → Aux → List (Move π) × Aux
  | [], aux => ([], aux)
  | m :: ms, aux =>
    let m' := { m with priority := some (f m.destination),
                       index := some aux.index }
    let res := assignPrio π f ms { aux with index := aux.index + 1 }
    (m' :: res.1, res.2)

/-- One relaxation step of the A* variants, for a single candidate move with
new step count `numStepsToNeighbor`: the move is skipped (`none`) when the
destination already has a recorded best step count that the new count does
not beat; otherwise the record is updated and the annotated move returned. -/
def relaxMove (π : Type) (prio : Nat → CellCoordinates → π)
    (numStepsToNeighbor : Nat) (m : Move π) (aux : Aux) :
    Option (Move π) × Aux :=
  match alistGet aux.numSteps m.destination with
  | some old =>
    if old ≤ numStepsToNeighbor then (none, aux)
    else
      (some { m with priority := some (prio numStepsToNeighbor m.destination),
                     index := some aux.index },
        ⟨alistSet aux.numSteps m.destination numStepsToNeighbor,
          aux.index + 1⟩)
  | none =>
    (some { m with priority := some (prio numStepsToNeighbor m.destination),
                   index := some aux.index },
      ⟨alistSet aux.numSteps m.destination numStepsToNeighbor,
        aux.index + 1⟩)

/-- The enqueue loop of the A* variants: relax each candidate move in turn
(`numStepsToNeighbor` is re-read from the map on every iteration, as the
source does). -/
def gatedGo (π : Type) (prio : Nat → CellCoordinates → π)
    (current : CellCoordinates) :
    List (Move π) → Aux → List (Move π) × Aux
  | [], aux => ([], aux)
  | m :: ms, aux =>
    let numStepsToNeighbor := (alistGet aux.numSteps current).getD 0 + 1
    match relaxMove π prio numStepsToNeighbor m aux with
    | (none, aux') => gatedGo π prio current ms aux'
    | (some m', aux') =>
      let res := gatedGo π prio current ms aux'
      (m' :: res.1, res.2)

/-- `nearestGoal(c, goals).distance`, with the source's `Infinity` default
for an empty goal list collapsed to `0` (never used by the engine: the goal
list of a run is nonempty). -/
def nearestGoalDistance (goals : List CellCoordinates)
    (c : CellCoordinates) : Nat :=
  ((nearestGoal c goals).map Prod.snd).getD 0

/-- The depth-first strategy: stack frontier, fresh moves reversed before
pushing, no priorities. -/
def dfsStrategy : SearchAlg ℕ :=
  ⟨popLast, List.reverse, fun _ ms aux => (ms, aux)⟩

/-- The breadth-first strategy: first-in-first-out queue, no priorities. -/
def bfsStrategy : SearchAlg ℕ :=
  ⟨popHead, id, fun _ ms aux => (ms, aux)⟩

/-- The greedy-best-first strategy: heap ordered by Manhattan distance to
the nearest goal. -/
def greedyStrategy (goals : List CellCoordinates) : SearchAlg ℕ :=
  ⟨heapPoll, id, fun _ ms aux => assignPrio ℕ (nearestGoalDistance goals) ms aux⟩

/-- The A* strategy: heap ordered by steps taken plus Manhattan distance to
the nearest goal, with the `numSteps` relaxation. -/
def aStarStrategy (goals : List CellCoordinates) : SearchAlg ℕ :=
  ⟨heapPoll, id, gatedGo ℕ (fun gn c => gn + nearestGoalDistance goals c)⟩

/-- The open-search strategy: heap ordered by the number of walls around the
destination. -/
def openStrategy (g : Grid) : SearchAlg ℕ :=
  ⟨heapPoll, id,
    fun _ ms aux => assignPrio ℕ (fun c => countSurroundingWalls c g) ms aux⟩

/-- The priority of `straightLineAStar`: steps, plus Manhattan distance to
the nearest goal, plus the angular deviation towards that goal. -/
noncomputable def straightLinePriority (goals : List CellCoordinates)
    (gn : Nat) (c : CellCoordinates) : ℝ :=
  match nearestGoal c goals with
  | some (goal, distance) => (gn : ℝ) + (distance : ℝ) + calculateAngle c goal
  | none => (gn : ℝ)

/-- The straight-line A* strategy. -/
noncomputable def straightStrategy (goals : List CellCoordinates) :
    SearchAlg ℝ :=
  ⟨heapPoll, id, gatedGo ℝ (straightLinePriority goals)⟩

/-- `depthFirstSearch` of `src/algorithms.ts`. -/
def depthFirstSearch (g : Grid) : List SearchStep × Outcome :=
  match findStartAndGoals g with
  | .error _ => ([], .invalid)
  | .ok (start, _) => runSearch ℕ dfsStrategy g start ⟨[], 0⟩

/-- `breadthFirstSearch` of `src/algorithms.ts`. -/
def breadthFirstSearch (g : Grid) : List SearchStep × Outcome :=
  match findStartAndGoals g with
  | .error _ => ([], .invalid)
  | .ok (start, _) => runSearch ℕ bfsStrategy g start ⟨[], 0⟩

/-- `greedyBestFirstSearch` of `src/algorithms.ts`. -/
def greedyBestFirstSearch (g : Grid) : List SearchStep × Outcome :=
  match findStartAndGoals g with
  | .error _ => ([], .invalid)
  | .ok (start, goals) =>
    runSearch ℕ (greedyStrategy goals) g start ⟨[], 0⟩

/-- `aStar` of `src/algorithms.ts` (`numSteps.set(start, 0)` before the
loop). -/
def aStar (g : Grid) : List SearchStep × Outcome :=
  match findStartAndGoals g with
  | .error _ => ([], .invalid)
  | .ok (start, goals) =>
    runSearch ℕ (aStarStrategy goals) g start ⟨[(start, 0)], 0⟩

/-- `openSearch` of `src/algorithms.ts`. -/
def openSearch (g : Grid) : List SearchStep × Outcome :=
  match findStartAndGoals g with
  | .error _ => ([], .invalid)
  | .ok (start, _) => runSearch ℕ (openStrategy g) g start ⟨[], 0⟩

/-- `straightLineAStar` of `src/algorithms.ts`. -/
noncomputable def straightLineAStar (g : Grid) : List SearchStep × Outcome :=
  match findStartAndGoals g with
  | .error _ => ([], .invalid)
  | .ok (start, goals) =>
    runSearch ℝ (straightStrategy goals) g start ⟨[(start, 0)], 0⟩

/-- The closed set of algorithm identifiers (`Algorithm` in
`src/types.ts`). -/
inductive Algorithm where
  | DepthFirstSearch
  | BreadthFirstSearch
  | GreedyBestFirstSearch
  | AStar
  | OpenSearch
  | StraightLineAStar
deriving DecidableEq, Repr

/-- The `ALGORITHMS` dispatch table of `src/algorithms.ts`. -/
noncomputable def ALGORITHMS : Algorithm → Grid → List SearchStep × Outcome
  | .DepthFirstSearch => depthFirstSearch
  | .BreadthFirstSearch => breadthFirstSearch
  | .GreedyBestFirstSearch => greedyBestFirstSearch
  | .AStar => aStar
  | .OpenSearch => openSearch
  | .StraightLineAStar => straightLineAStar

/-- The in-place write `grid[c.row][c.col] = t` of the orchestrator, applied
to the fresh grid `resetVisualization` returned. -/
def setCell (g : Grid) (c : CellCoordinates) (t : CellType) : Grid :=
  g.set c.row.toNat ((g.getD c.row.toNat []).set c.col.toNat t)

/-- The per-goal loop of `findPath` (`src/algorithms.ts`): for each leg,
reset the transient state; from the second leg on, erase the previous start,
promote the previous goal to `Start` and yield the rewritten grid; run the
search and yield its steps and, on success, its `path` step.  A leg that does
not produce a path (including the modelled crash on an empty path) ends the
loop — the `catch` swallows the error, keeping the steps already yielded. -/
def findPathLoop (search : Grid → List SearchStep × Outcome) :
    Nat → Grid → Option (CellCoordinates × CellCoordinates) →
      List SearchStep
  | 0, _, _ => []
  | legs + 1, grid0, previous =>
    let grid1 := resetVisualization grid0
    let rewritten : Grid × List SearchStep :=
      match previous with
      | some (previousStart, previousGoal) =>
        let g2 := setCell (setCell grid1 previousStart CellType.Unexplored)
          previousGoal CellType.Start
        (g2, [SearchStep.grid g2])
      | none => (grid1, [])
    let res := search rewritten.1
    match res.2 with
    | .path p =>
      match p.head?, p.getLast? with
      | some a, some b =>
        rewritten.2 ++ res.1 ++ [SearchStep.path p] ++
          findPathLoop search legs rewritten.1 (some (a, b))
      | _, _ => rewritten.2 ++ res.1 ++ [SearchStep.path p]
    | _ => rewritten.2 ++ res.1

/-- `findPath` of `src/algorithms.ts`, the multi-goal orchestrator: locate
the goals (propagating the validation error), then run one leg per goal. -/
noncomputable def findPath (g : Grid) (algorithm : Algorithm) :
    Except String (List SearchStep) :=
  match findStartAndGoals g with
  | .error e => .error e
  | .ok (_, goals) =>
    .ok (findPathLoop (ALGORITHMS algorithm) goals.length g none)

/-- `getDirection` of `src/utils.ts`: the first direction whose offset
matches (`none` models the "Invalid offset" throw). -/
def getDirection (off : Int × Int) : Option Direction :=
  directionList.find? fun d => decide (DIRECTION_TO_OFFSET d = off)

/-- `getDirections` of `src/utils.ts`: map each non-final path cell to the
direction towards its successor. -/
def getDirections (path : List CellCoordinates) :
    Option (List (CellCoordinates × Direction)) :=
  (path.zip path.tail).foldlM
    (fun acc pair =>
      (getDirection (pair.2.row - pair.1.row, pair.2.col - pair.1.col)).map
        (fun d => alistSet acc pair.1 d))
    []

/-- Move a cell by an offset. -/
def applyOffset (c : CellCoordinates) (off : Int × Int) : CellCoordinates :=
  ⟨c.row + off.1, c.col + off.2⟩

/-- The walking procedure of the reconstruction round-trip property: starting
from a cell, repeatedly look up the current cell's direction and step along
it, producing `n` cells (stopping early if a cell has no direction). -/
def walkByDirections (dirs : List (CellCoordinates × Direction)) :
    CellCoordinates → Nat → List CellCoordinates
  | _, 0 => []
  | c, n + 1 =>
    c ::
      (match alistGet dirs c with
      | none => []
      | some d => walkByDirections dirs (applyOffset c (DIRECTION_TO_OFFSET d)) n)

/-- The cells of the `explore` steps of a run, in emission order. -/
def exploreCells (steps : List SearchStep) : List CellCoordinates :=
  steps.filterMap fun s =>
    match s with
    | .explore c => some c
    | _ => none

/-- The grids carried by the `grid` snapshot steps of a run. -/
def snapshotGrids (steps : List SearchStep) : List Grid :=
  steps.filterMap fun s =>
    match s with
    | .grid g => some g
    | _ => none

instance {ε α : Type} [DecidableEq ε] [DecidableEq α] :
    DecidableEq (Except ε α) := fun x y =>
  match x, y with
  | .error a, .error b =>
    if h : a = b then .isTrue (by rw [h])
    else .isFalse (by intro hc; cases hc; exact h rfl)
  | .error _, .ok _ => .isFalse (by intro hc; cases hc)
  | .ok _, .error _ => .isFalse (by intro hc; cases hc)
  | .ok a, .ok b =>
    if h : a = b then .isTrue (by rw [h])
    else .isFalse (by intro hc; cases hc; exact h rfl)

/-! ### Association list lemmas -/

/-- The 3×3 grid with `Start` at (0,0), `Goal` at (2,2) and a single `Wall`
at (1,1). -/
def gridC7 : Grid :=
  [[.Start, .Unexplored, .Unexplored],
   [.Unexplored, .Wall, .Unexplored],
   [.Unexplored, .Unexplored, .Goal]]

/-- A 1×3 grid with a start and two goals. -/
def gridC2 : Grid := [[.Start, .Goal, .Goal]]

/-- Strict row-major scan order on coordinates: smaller row, or same row and
smaller column. -/
def scanLT (a b : CellCoordinates) : Prop :=
  a.row < b.row ∨ (a.row = b.row ∧ a.col < b.col)

/-- Single-move adjacency of the search graph: `v` is a compass neighbour of
`u`, in bounds and not a wall. -/
def adjacent (g : Grid) (u v : CellCoordinates) : Prop :=
  ∃ off ∈ offsetList, v = ⟨u.row + off.1, u.col + off.2⟩ ∧
    isInsideGrid v g = true ∧ cellAt g v ≠ CellType.Wall

/-- `ReachIn g s v n`: a walk of `n` valid moves leads from `s` to `v`. -/
inductive ReachIn (g : Grid) (s : CellCoordinates) :
    CellCoordinates → Nat → Prop where
  | refl : ReachIn g s s 0
  | step {u v : CellCoordinates} {n : Nat} :
      ReachIn g s u n → adjacent g u v → ReachIn g s v (n + 1)

/-- Reachability in the search graph. -/
def Reachable (g : Grid) (s v : CellCoordinates) : Prop :=
  ∃ n, ReachIn g s v n

/-- Well-formedness of the predecessor map along its construction history
(the head is the newest entry): each entry's key is fresh, and its recorded
source is the start sentinel or an already-visited cell adjacent to the
key. -/
def CFInv (g : Grid) (start : CellCoordinates) : CameFrom → Prop
  | [] => True
  | (d, src) :: rest =>
    ((src = none ∧ d = start) ∨
      (∃ u, src = some u ∧ alistHas rest u = true ∧ adjacent g u d)) ∧
    alistHas rest d = false ∧ CFInv g start rest

/-- A frontier entry is plausible for the current predecessor map: its
source is the start sentinel, or a visited cell adjacent to the
destination. -/
def MoveOK (π : Type) (g : Grid) (start : CellCoordinates) (cf : CameFrom)
    (m : Move π) : Prop :=
  (m.source = none ∧ m.destination = start) ∨
  (∃ u, m.source = some u ∧ alistHas cf u = true ∧
    adjacent g u m.destination)

/-- The chain walked by `reconstructPath`: `Chain start cf c n` holds when
following the predecessor map from `c` reaches `start` after `n` steps. -/
inductive Chain (start : CellCoordinates) (cf : CameFrom) :
    CellCoordinates → Nat → Prop where
  | refl : Chain start cf start 0
  | step {c u : CellCoordinates} {n : Nat} : c ≠ start →
      alistGet cf c = some (some u) → Chain start cf u n →
      Chain start cf c (n + 1)

/-- The laws satisfied by the frontier containers and enqueue gates of all
six strategies; the generic run lemmas are proved from these alone. -/
structure AlgLaws (π : Type) [LinearOrder π] (A : SearchAlg π) : Prop where
  pop_none : ∀ l, A.pop l = none → l = []
  pop_perm : ∀ l m rest, A.pop l = some (m, rest) → l.Perm (m :: rest)
  reorder_perm : ∀ l, (A.reorder l).Perm l
  gate_moves : ∀ cur ms aux m', m' ∈ (A.gate cur ms aux).1 →
    ∃ m ∈ ms, m'.destination = m.destination ∧ m'.source = m.source
  gate_len : ∀ cur ms aux, (A.gate cur ms aux).1.length ≤ ms.length
  gate_complete : ∀ cur ms aux m, m ∈ ms →
    (∃ m' ∈ (A.gate cur ms aux).1, m'.destination = m.destination) ∨
    alistHas (A.gate cur ms aux).2.numSteps m.destination = true
  gate_keeps : ∀ cur ms aux c, alistHas aux.numSteps c = true →
    alistHas (A.gate cur ms aux).2.numSteps c = true
  gate_new : ∀ cur ms aux c,
    alistHas (A.gate cur ms aux).2.numSteps c = true →
    alistHas aux.numSteps c = true ∨
    ∃ m' ∈ (A.gate cur ms aux).1, m'.destination = c

/-- The frontier-closure invariant: every neighbour of a visited cell is
visited, pending in the container, or recorded in `numSteps`; and every
recorded cell is visited or pending. -/
def ClosedInv (π : Type) (g : Grid) (container : List (Move π))
    (cf : CameFrom) (ns : List (CellCoordinates × Nat)) : Prop :=
  (∀ d, alistHas cf d = true → ∀ v, adjacent g d v →
    alistHas cf v = true ∨ (∃ m ∈ container, m.destination = v) ∨
    alistHas ns v = true) ∧
  (∀ v, alistHas ns v = true →
    alistHas cf v = true ∨ ∃ m ∈ container, m.destination = v)

/-- The per-cell action of `resetVisualization`. -/
def resetCell (t : CellType) : CellType :=
  if t ∈ preservedTypes then t else CellType.Unexplored

/-- `getDirections` generalised to an arbitrary starting accumulator, for
reasoning about its left fold. -/
def getDirectionsFrom (acc : List (CellCoordinates × Direction))
    (path : List CellCoordinates) :
    Option (List (CellCoordinates × Direction)) :=
  (path.zip path.tail).foldlM
    (fun acc pair =>
      (getDirection (pair.2.row - pair.1.row, pair.2.col - pair.1.col)).map
        (fun d => alistSet acc pair.1 d))
    acc

/-- How any grid flowing through the legs of `findPath` relates to the input
grid: walls are identical, and the `Start`/`Goal` markings move only the way
the between-leg rewrite moves them. -/
def GridRel (g g' : Grid) : Prop :=
  ∀ c,
    (cellAt g' c = CellType.Wall ↔ cellAt g c = CellType.Wall) ∧
    (cellAt g' c = CellType.Start →
      cellAt g c = CellType.Start ∨ cellAt g c = CellType.Goal) ∧
    (cellAt g' c = CellType.Goal → cellAt g c = CellType.Goal) ∧
    ((cellAt g c = CellType.Start ∨ cellAt g c = CellType.Goal) →
      cellAt g' c = CellType.Start ∨ cellAt g' c = CellType.Goal ∨
        cellAt g' c = CellType.Unexplored)

/-- A heap of mutable row arrays: `next` is the allocation counter and
`rows` the contents of every reference.  A JavaScript `CellType[][]` value
is a list of row references into such a heap. -/
structure Heap where
  next : Nat
  rows : Nat → List CellType

/-- The grid a list of row references denotes. -/
def readGrid (h : Heap) (g : List Nat) : Grid :=
  g.map h.rows

/-- Allocate a fresh row array. -/
def allocRow (h : Heap) (row : List CellType) : Heap × Nat :=
  (⟨h.next + 1, fun i => if i = h.next then row else h.rows i⟩, h.next)

/-- `resetVisualization` in the heap model:
`grid.map((row) => row.map(...))` reads each row and allocates a fresh
array for its reset copy, writing no existing reference. -/
def resetVisualizationH : Heap → List Nat → Heap × List Nat
  | h, [] => (h, [])
  | h, r :: rs =>
    let a := allocRow h ((h.rows r).map resetCell)
    let b := resetVisualizationH a.1 rs
    (b.1, a.2 :: b.2)

/-- The in-place write `grid[c.row][c.col] = t` on a heap grid: it writes
through the row reference found at index `c.row` (a missing row would crash
JavaScript before writing anything, so it writes nothing here). -/
def writeCellH (h : Heap) (g : List Nat) (c : CellCoordinates)
    (t : CellType) : Heap :=
  match g.get? c.row.toNat with
  | none => h
  | some ref =>
    ⟨h.next, fun i => if i = ref then (h.rows ref).set c.col.toNat t
      else h.rows i⟩

/-- The two between-leg writes of `findPath`, performed on the current
(freshly allocated) grid when a previous leg exists. -/
def legWrites (h1 : Heap) (g1 : List Nat) :
    Option (CellCoordinates × CellCoordinates) → Heap
  | some (ps, pg) =>
    writeCellH (writeCellH h1 g1 ps CellType.Unexplored) g1 pg CellType.Start
  | none => h1

/-- The per-goal loop of `findPath` in the heap model, tracking the grid
state: each leg rebinds the local `grid` variable to the fresh
`resetVisualization` copy, performs the two between-leg writes on that
fresh copy, and hands the denoted grid to the (read-only) search. -/
def findPathLoopH (search : Grid → List SearchStep × Outcome) :
    Nat → Heap → List Nat → Option (CellCoordinates × CellCoordinates) →
      Heap × List Nat
  | 0, h, g, _ => (h, g)
  | legs + 1, h, g, prev =>
    let hg1 := resetVisualizationH h g
    let h2 := legWrites hg1.1 hg1.2 prev
    let res := search (readGrid h2 hg1.2)
    match res.2 with
    | .path p =>
      match p.head?, p.getLast? with
      | some a, some b => findPathLoopH search legs h2 hg1.2 (some (a, b))
      | _, _ => (h2, hg1.2)
    | _ => (h2, hg1.2)

/-- `n` is the exact shortest-path distance (edge count) from `s` to `v`. -/
def MinDist (g : Grid) (s v : CellCoordinates) (n : Nat) : Prop :=
  ReachIn g s v n ∧ ∀ m, ReachIn g s v m → n ≤ m

/-- The loop body of `nearestGoal`. -/
def nearestGoalStep (c : CellCoordinates)
    (acc : Option (CellCoordinates × Nat)) (goal : CellCoordinates) :
    Option (CellCoordinates × Nat) :=
  match acc with
  | none => some (goal, manhattanDistance c goal)
  | some (bg, bd) =>
    if manhattanDistance c goal < bd then
      some (goal, manhattanDistance c goal)
    else some (bg, bd)

/-- The breadth-first "layer" of a queue entry: `0` for the initial entry,
one more than the recorded depth of its source otherwise. -/
def KeyIs (s : CellCoordinates) (cf : CameFrom) (m : Move ℕ) (k : Nat) :
    Prop :=
  (m.source = none ∧ k = 0) ∨
  (∃ u j, m.source = some u ∧ Chain s cf u j ∧ k = j + 1)

/-- The queue invariant of breadth-first search: the predecessor map records
exact shortest-path depths, the queue holds at most two consecutive layers
`K` and `K+1` in order, every entry over-approximates its destination's
distance, all cells closer than `K` are already visited, cells at distance
`K` and `K+1` are visited or covered by an entry (directly or through a
queued optimal predecessor), no visited cell is a goal, and the frontier is
closed. -/
structure BfsInv (g : Grid) (s : CellCoordinates)
    (container : List (Move ℕ)) (cf : CameFrom) (K : Nat) : Prop where
  cfinv : CFInv g s cf
  moves_ok : ∀ m ∈ container, MoveOK ℕ g s cf m
  depth_dist : ∀ u, alistHas cf u = true →
    ∃ n, Chain s cf u n ∧ MinDist g s u n
  keys : ∃ ks, List.Forall₂ (KeyIs s cf) container ks ∧
    List.Pairwise (· ≤ ·) ks ∧ ∀ k ∈ ks, K ≤ k ∧ k ≤ K + 1
  entry_le : ∀ m ∈ container, ∀ k, KeyIs s cf m k →
    ∃ n, MinDist g s m.destination n ∧ n ≤ k
  near : ∀ v n, MinDist g s v n → n < K → alistHas cf v = true
  at_K : ∀ v, MinDist g s v K → alistHas cf v = true ∨
    ∃ m ∈ container, m.destination = v ∧ KeyIs s cf m K
  at_K1 : ∀ v, MinDist g s v (K + 1) → alistHas cf v = true ∨
    (∃ m ∈ container, m.destination = v ∧ KeyIs s cf m (K + 1)) ∨
    (∃ u m2, adjacent g u v ∧ MinDist g s u K ∧ m2 ∈ container ∧
      m2.destination = u ∧ KeyIs s cf m2 K)
  no_goal : ∀ u, alistHas cf u = true → cellAt g u ≠ CellType.Goal
  closed : ∀ u, alistHas cf u = true → ∀ v, adjacent g u v →
    alistHas cf v = true ∨ ∃ m2 ∈ container, m2.destination = v

/-- The A* priority: steps taken plus Manhattan distance to the nearest
goal. -/
def aStarPrio (goals : List CellCoordinates) (gn : Nat)
    (c : CellCoordinates) : ℕ :=
  gn + nearestGoalDistance goals c

/-- The frontier invariant of A*: the predecessor map records exact
distances and their `numSteps` values, every `numSteps` record is a sound
walk length, every priced entry carries `(dist of its source) + 1` plus the
heuristic of its destination, an unvisited destination of a priced entry
has a `numSteps` record at most as good, every unvisited recorded cell owns
a live entry priced at its record plus its heuristic, an unvisited cell
whose optimal predecessor is visited has its exact distance recorded, and
no visited cell is a goal. -/
structure AStarInv (g : Grid) (s : CellCoordinates)
    (goals : List CellCoordinates) (container : List (Move ℕ))
    (cf : CameFrom) (ns : List (CellCoordinates × Nat)) : Prop where
  cfinv : CFInv g s cf
  moves_ok : ∀ m ∈ container, MoveOK ℕ g s cf m
  depth_dist : ∀ u, alistHas cf u = true →
    ∃ n, Chain s cf u n ∧ MinDist g s u n
  visited_ns : ∀ u, alistHas cf u = true →
    ∃ n, alistGet ns u = some n ∧ MinDist g s u n
  ns_sound : ∀ c n, alistGet ns c = some n → ReachIn g s c n
  start_vis : alistHas cf s = true ∨
    (container = [initMove ℕ s] ∧ cf = [] ∧ ns = [(s, 0)])
  prio_some : alistHas cf s = true →
    ∀ m ∈ container, ∃ pr, m.priority = some pr
  entry_val : ∀ m ∈ container, ∀ pr, m.priority = some pr →
    ∃ u nu, m.source = some u ∧ alistHas cf u = true ∧
      adjacent g u m.destination ∧ MinDist g s u nu ∧
      pr = (nu + 1) + nearestGoalDistance goals m.destination
  entry_ns : ∀ m ∈ container, ∀ pr, m.priority = some pr →
    alistHas cf m.destination = false →
    ∃ nv, alistGet ns m.destination = some nv ∧
      nv + nearestGoalDistance goals m.destination ≤ pr
  live_best : alistHas cf s = true → ∀ v nv, alistHas cf v = false →
    alistGet ns v = some nv →
    ∃ m' ∈ container, m'.destination = v ∧
      m'.priority = some (nv + nearestGoalDistance goals v)
  opt_pred_ns : ∀ v k, alistHas cf v = false →
    (∃ u, alistHas cf u = true ∧ adjacent g u v ∧ MinDist g s u k) →
    MinDist g s v (k + 1) → alistGet ns v = some (k + 1)
  no_goal : ∀ u, alistHas cf u = true → cellAt g u ≠ CellType.Goal

theorem alistGet_set_self {α : Type} (l : List (CellCoordinates × α))
    (k : CellCoordinates) (v : α) : alistGet (alistSet l k v) k = some v := by
  induction l with
  | nil => simp [alistSet, alistGet]
  | cons head tail ih =>
    by_cases h : k = head.1
    · simp [alistSet, h, alistGet]
    · simp [alistSet, h, alistGet, ih]

theorem alistGet_set_ne {α : Type} (l : List (CellCoordinates × α))
    (k k' : CellCoordinates) (v : α) (h : k' ≠ k) :
    alistGet (alistSet l k v) k' = alistGet l k' := by
  induction l with
  | nil => simp [alistSet, alistGet, h]
  | cons head tail ih =>
    by_cases hk : k = head.1
    · subst hk
      simp [alistSet, alistGet, h]
    · by_cases hk' : k' = head.1
      · simp [alistSet, hk, alistGet, hk']
      · simp [alistSet, hk, alistGet, hk', ih]

theorem alistGet_mem {α : Type} (l : List (CellCoordinates × α))
    (k : CellCoordinates) (v : α) (h : alistGet l k = some v) : (k, v) ∈ l := by
  induction l with
  | nil => simp [alistGet] at h
  | cons head tail ih =>
    by_cases hk : k = head.1
    · simp [alistGet, hk] at h
      cases head
      simp_all
    · simp [alistGet, hk] at h
      exact List.mem_cons_of_mem _ (ih h)

theorem alistHas_iff_get {α : Type} (l : List (CellCoordinates × α))
    (k : CellCoordinates) :
    alistHas l k = true ↔ ∃ v, alistGet l k = some v := by
  simp [alistHas, Option.isSome_iff_exists]

theorem alistHas_set {α : Type} (l : List (CellCoordinates × α))
    (k k' : CellCoordinates) (v : α) :
    alistHas (alistSet l k v) k' = (alistHas l k' || decide (k' = k)) := by
  by_cases h : k' = k
  · subst h
    simp [alistHas, alistGet_set_self]
  · simp [alistHas, alistGet_set_ne l k k' v h, h]

/-! ### C4: depth-first neighbour ordering -/

theorem getValidMoves_reverse (π : Type) (src : CellCoordinates) (g : Grid)
    (cf : CameFrom) :
    (getValidMoves π src g cf).reverse =
      (directionList.reverse.map DIRECTION_TO_OFFSET).filterMap
        (validMoveFor π src g cf) := by
  rw [getValidMoves, offsetList, ← List.filterMap_reverse, List.map_reverse]

/-- C4: in the depth-first search, the newly generated valid neighbour moves
are pushed onto the stack in reverse compass order — `dfsStrategy.reorder`
lists the valid moves for the directions Right, Down, Left, Up in that
order — so that `dfsStrategy.pop` (the stack's LIFO pop from the end) pops a
pushed block front-first, i.e. explores the neighbours in the Up, Left,
Down, Right order in which `getValidMoves` generated them. -/
theorem dfs_neighbor_push_order (src : CellCoordinates) (g : Grid)
    (cf : CameFrom) :
    dfsStrategy.reorder (getValidMoves ℕ src g cf) =
      ([Direction.Right, Direction.Down, Direction.Left, Direction.Up].map
        DIRECTION_TO_OFFSET).filterMap (validMoveFor ℕ src g cf) ∧
    ∀ (stack rest : List (Move ℕ)) (m : Move ℕ),
      dfsStrategy.pop (stack ++ dfsStrategy.reorder (m :: rest)) =
        some (m, stack ++ dfsStrategy.reorder rest) := by
  constructor
  · have h := getValidMoves_reverse ℕ src g cf
    simpa [dfsStrategy, directionList] using h
  · intro stack rest m
    show popLast (stack ++ (m :: rest).reverse) = some (m, stack ++ rest.reverse)
    simp only [List.reverse_cons, popLast, ← List.append_assoc]
    rw [List.getLast?_concat, List.dropLast_concat]

/-! ### C5: the A* relaxation skip -/

/-- C5: in the A* enqueue loop, a newly discovered route to a cell whose best
known step count is already recorded is enqueued only if its step count does
not exceed (in fact strictly beats) the recorded count, and enqueueing
updates the record to the new count. -/
theorem aStar_relaxation_skip (goals : List CellCoordinates) (n : Nat)
    (m : Move ℕ) (aux : Aux) (old : Nat)
    (hold : alistGet aux.numSteps m.destination = some old) :
    ∀ m', (relaxMove ℕ (fun gn c => gn + nearestGoalDistance goals c)
        n m aux).1 = some m' →
      n ≤ old ∧
      alistGet (relaxMove ℕ (fun gn c => gn + nearestGoalDistance goals c)
          n m aux).2.numSteps m.destination = some n := by
  intro m' h
  by_cases hle : old ≤ n
  · rw [relaxMove, hold] at h
    simp [hle] at h
  · constructor
    · omega
    · rw [relaxMove, hold]
      simp only [hle, if_false]
      exact alistGet_set_self _ _ _

theorem aStar_relaxation_skip_witness :
    (3 : Nat) ≤ 5 ∧
    alistGet (relaxMove ℕ
        (fun gn c => gn + nearestGoalDistance [⟨0, 1⟩] c) 3
        { source := some ⟨0, 1⟩, destination := ⟨0, 0⟩ }
        ⟨[(⟨0, 0⟩, 5)], 0⟩).2.numSteps ⟨0, 0⟩ = some 3 :=
  aStar_relaxation_skip [⟨0, 1⟩] 3
    { source := some ⟨0, 1⟩, destination := ⟨0, 0⟩ }
    ⟨[(⟨0, 0⟩, 5)], 0⟩ 5 (by decide)
    { source := some ⟨0, 1⟩, destination := ⟨0, 0⟩,
      priority := some 4, index := some 0 } (by decide)

/-! ### C7: the concrete 3×3 breadth-first scenario -/

/-- C7: on the 3×3 grid with `Start` at (0,0), `Goal` at (2,2) and a single
wall at (1,1), breadth-first search returns the 5-cell, 4-edge path
(0,0),(1,0),(2,0),(2,1),(2,2) and emits exactly 8 `explore` steps — one for
each non-wall cell — before succeeding. -/
theorem bfs_concrete_3x3 :
    (breadthFirstSearch gridC7).2 =
      Outcome.path [⟨0, 0⟩, ⟨1, 0⟩, ⟨2, 0⟩, ⟨2, 1⟩, ⟨2, 2⟩] ∧
    exploreCells (breadthFirstSearch gridC7).1 =
      [⟨0, 0⟩, ⟨1, 0⟩, ⟨0, 1⟩, ⟨2, 0⟩, ⟨0, 2⟩, ⟨2, 1⟩, ⟨1, 2⟩, ⟨2, 2⟩] ∧
    (exploreCells (breadthFirstSearch gridC7).1).length = 8 := by
  decide

/-! ### C2: the goal-to-start rewrite changes protected cells -/

/-- C2 counterexample: running the orchestrator on `[[Start, Goal, Goal]]`
emits a `grid` snapshot whose grid disagrees with the input grid on the cell
(0,0), which was `Start` in the input (it is now `Unexplored`), and on the
cell (0,1), which was `Goal` in the input (it is now `Start`). -/
theorem findPath_snapshot_rewrites_protected_cells :
    findPath gridC2 Algorithm.BreadthFirstSearch = .ok
      [SearchStep.explore ⟨0, 0⟩, SearchStep.frontier [⟨0, 1⟩],
       SearchStep.explore ⟨0, 1⟩, SearchStep.path [⟨0, 0⟩, ⟨0, 1⟩],
       SearchStep.grid [[.Unexplored, .Start, .Goal]],
       SearchStep.explore ⟨0, 1⟩, SearchStep.frontier [⟨0, 0⟩, ⟨0, 2⟩],
       SearchStep.explore ⟨0, 0⟩, SearchStep.frontier [],
       SearchStep.explore ⟨0, 2⟩, SearchStep.path [⟨0, 1⟩, ⟨0, 2⟩]] ∧
    [[CellType.Unexplored, CellType.Start, CellType.Goal]] ∈
      snapshotGrids
        ((findPath gridC2 Algorithm.BreadthFirstSearch).toOption.getD []) ∧
    cellAt gridC2 ⟨0, 0⟩ = CellType.Start ∧
    cellAt [[.Unexplored, .Start, .Goal]] ⟨0, 0⟩ = CellType.Unexplored ∧
    cellAt gridC2 ⟨0, 1⟩ = CellType.Goal ∧
    cellAt [[.Unexplored, .Start, .Goal]] ⟨0, 1⟩ = CellType.Start := by
  decide

/-! ### C10: `findStartAndGoals` validation behaviour -/

theorem mem_gridCellsIdx (g : Grid) (c : CellCoordinates) (t : CellType) :
    (c, t) ∈ gridCellsIdx g ↔
      isInsideGrid c g = true ∧ t = cellAt g c := by
  unfold gridCellsIdx
  rw [List.mem_flatMap]
  constructor
  · rintro ⟨r, hr, hmem⟩
    rw [List.mem_range] at hr
    rw [List.mem_map] at hmem
    obtain ⟨cc, hcc, heq⟩ := hmem
    rw [List.mem_range] at hcc
    have hc : ({ row := (r : Int), col := (cc : Int) } : CellCoordinates) = c :=
      congrArg Prod.fst heq
    have ht : cellAt g { row := (r : Int), col := (cc : Int) } = t :=
      congrArg Prod.snd heq
    subst hc
    refine ⟨?_, ht.symm⟩
    simp only [isInsideGrid, decide_eq_true_eq]
    refine ⟨Int.natCast_nonneg r, ?_, Int.natCast_nonneg cc, ?_⟩
    · exact_mod_cast hr
    · exact_mod_cast hcc
  · rintro ⟨hin, rfl⟩
    simp only [isInsideGrid, decide_eq_true_eq] at hin
    obtain ⟨h1, h2, h3, h4⟩ := hin
    refine ⟨c.row.toNat, ?_, ?_⟩
    · rw [List.mem_range]; omega
    · rw [List.mem_map]
      refine ⟨c.col.toNat, ?_, ?_⟩
      · rw [List.mem_range]; omega
      · have hr : ((c.row.toNat : Int)) = c.row := Int.toNat_of_nonneg h1
        have hc : ((c.col.toNat : Int)) = c.col := Int.toNat_of_nonneg h3
        rw [hr, hc]

theorem gridCellsIdx_pairwise (g : Grid) :
    (gridCellsIdx g).Pairwise (fun x y => scanLT x.1 y.1) := by
  unfold gridCellsIdx
  rw [show ∀ (l : List Nat) (f : Nat → List (CellCoordinates × CellType)),
      l.flatMap f = (l.map f).flatten from fun _ _ => rfl]
  refine List.pairwise_flatten.mpr ⟨?_, ?_⟩
  · intro l' hl'
    rw [List.mem_map] at hl'
    obtain ⟨r, hr, rfl⟩ := hl'
    rw [List.pairwise_map]
    refine List.Pairwise.imp ?_ (List.pairwise_lt_range _)
    intro a b hab
    right
    refine ⟨rfl, ?_⟩
    show (a : Int) < (b : Int)
    exact_mod_cast hab
  · rw [List.pairwise_map]
    refine List.Pairwise.imp ?_ (List.pairwise_lt_range _)
    intro r1 r2 h12 x hx y hy
    rw [List.mem_map] at hx hy
    obtain ⟨c1, _, rfl⟩ := hx
    obtain ⟨c2, _, rfl⟩ := hy
    left
    show (r1 : Int) < (r2 : Int)
    exact_mod_cast h12

theorem find?_split {α : Type} (p : α → Bool) (l : List α) (a : α)
    (h : l.find? p = some a) :
    ∃ l1 l2, l = l1 ++ a :: l2 ∧ ∀ x ∈ l1, p x = false := by
  induction l with
  | nil => simp [List.find?] at h
  | cons b l ih =>
    rw [List.find?_cons] at h
    by_cases hb : p b
    · simp only [hb, cond_true, Option.some.injEq] at h
      exact ⟨[], l, by simp [h], by simp⟩
    · simp only [Bool.not_eq_true] at hb
      simp only [hb, cond_false] at h
      obtain ⟨l1, l2, rfl, hl1⟩ := ih h
      refine ⟨b :: l1, l2, rfl, ?_⟩
      intro x hx
      rcases List.mem_cons.1 hx with rfl | hx
      · exact hb
      · exact hl1 x hx

theorem scan_fold_split (L : List (CellCoordinates × CellType))
    (s0 : Option CellCoordinates) (g0 : List CellCoordinates) :
    L.foldl (fun acc ct =>
        if ct.2 = CellType.Start then (some ct.1, acc.2)
        else if ct.2 = CellType.Goal then (acc.1, acc.2 ++ [ct.1])
        else acc) (s0, g0) =
      (L.foldl (fun s ct => if ct.2 = CellType.Start then some ct.1 else s) s0,
       L.foldl (fun gs ct => if ct.2 = CellType.Goal then gs ++ [ct.1] else gs)
         g0) := by
  induction L generalizing s0 g0 with
  | nil => rfl
  | cons ct L ih =>
    simp only [List.foldl_cons]
    by_cases h1 : ct.2 = CellType.Start
    · simp [h1, ih]
    · by_cases h2 : ct.2 = CellType.Goal <;> simp [h1, h2, ih]

theorem overwrite_fold_eq (L : List (CellCoordinates × CellType))
    (s0 : Option CellCoordinates) :
    L.foldl (fun s ct => if ct.2 = CellType.Start then some ct.1 else s) s0 =
      match L.reverse.find? (fun ct => decide (ct.2 = CellType.Start)) with
      | some ct => some ct.1
      | none => s0 := by
  induction L using List.reverseRecOn with
  | nil => rfl
  | append_singleton l x ih =>
    rw [List.foldl_append, List.reverse_append]
    simp only [List.foldl_cons, List.foldl_nil, List.reverse_singleton,
      List.singleton_append, List.find?_cons]
    by_cases hx : x.2 = CellType.Start
    · simp [hx]
    · simp [hx, ih]

theorem goal_fold_eq (L : List (CellCoordinates × CellType))
    (g0 : List CellCoordinates) :
    L.foldl (fun gs ct => if ct.2 = CellType.Goal then gs ++ [ct.1] else gs)
        g0 =
      g0 ++ L.filterMap
        (fun ct => if ct.2 = CellType.Goal then some ct.1 else none) := by
  induction L generalizing g0 with
  | nil => simp
  | cons ct L ih =>
    simp only [List.foldl_cons, List.filterMap_cons]
    by_cases h : ct.2 = CellType.Goal
    · simp [h, ih]
    · simp [h, ih]

/-- Normal form of `findStartAndGoals`: the returned start is the last
`Start` of the row-major scan, and the goals are the `Goal` cells in scan
order. -/
theorem findStartAndGoals_eq (g : Grid) :
    findStartAndGoals g =
      match (gridCellsIdx g).reverse.find?
          (fun ct => decide (ct.2 = CellType.Start)) with
      | some ct =>
        if (gridCellsIdx g).filterMap
            (fun ct => if ct.2 = CellType.Goal then some ct.1 else none) = []
        then .error "Could not find any goals"
        else .ok (ct.1, (gridCellsIdx g).filterMap
          (fun ct => if ct.2 = CellType.Goal then some ct.1 else none))
      | none => .error "Could not find the starting cell" := by
  have hsplit := scan_fold_split (gridCellsIdx g) none []
  have hover := overwrite_fold_eq (gridCellsIdx g) none
  have hgoal := goal_fold_eq (gridCellsIdx g) []
  rw [findStartAndGoals, hsplit, hover]
  rw [List.nil_append] at hgoal
  rw [hgoal]
  cases (gridCellsIdx g).reverse.find?
      (fun ct => decide (ct.2 = CellType.Start)) with
  | none => rfl
  | some ct => rfl

/-- C10: `findStartAndGoals` raises an error only when the grid has no
`Start` cell or no `Goal` cell; it performs no validation of the
exactly-one-`Start` invariant — presence of a start and a goal suffices for
success — and on success the returned start is the `Start` cell occurring
last in row-major scan order (largest row, then largest column). -/
theorem findStartAndGoals_validation (g : Grid) :
    (∀ e, findStartAndGoals g = .error e →
      (∀ c, isInsideGrid c g = true → cellAt g c ≠ CellType.Start) ∨
      (∀ c, isInsideGrid c g = true → cellAt g c ≠ CellType.Goal)) ∧
    ((∃ c, isInsideGrid c g = true ∧ cellAt g c = CellType.Start) →
      (∃ c, isInsideGrid c g = true ∧ cellAt g c = CellType.Goal) →
      ∃ s goals, findStartAndGoals g = .ok (s, goals)) ∧
    (∀ s goals, findStartAndGoals g = .ok (s, goals) →
      isInsideGrid s g = true ∧ cellAt g s = CellType.Start ∧
      ∀ c, isInsideGrid c g = true → cellAt g c = CellType.Start →
        c = s ∨ scanLT c s) := by
  have hred := findStartAndGoals_eq g
  cases hfind : (gridCellsIdx g).reverse.find?
      (fun ct => decide (ct.2 = CellType.Start)) with
  | none =>
    rw [hfind] at hred
    replace hred : findStartAndGoals g =
      .error "Could not find the starting cell" := hred
    refine ⟨?_, ?_, ?_⟩
    · intro e _
      left
      intro c hcin hcs
      have hmem : (c, CellType.Start) ∈ gridCellsIdx g :=
        (mem_gridCellsIdx g c CellType.Start).mpr ⟨hcin, hcs.symm⟩
      have := List.find?_eq_none.mp hfind (c, CellType.Start)
        (List.mem_reverse.mpr hmem)
      simp at this
    · rintro ⟨c, hcin, hcs⟩ _
      have hmem : (c, CellType.Start) ∈ gridCellsIdx g :=
        (mem_gridCellsIdx g c CellType.Start).mpr ⟨hcin, hcs.symm⟩
      have := List.find?_eq_none.mp hfind (c, CellType.Start)
        (List.mem_reverse.mpr hmem)
      simp at this
    · intro s goals hok
      rw [hok] at hred
      cases hred
  | some ct =>
    rw [hfind] at hred
    replace hred : findStartAndGoals g =
      if (gridCellsIdx g).filterMap
          (fun ct => if ct.2 = CellType.Goal then some ct.1 else none) = []
      then .error "Could not find any goals"
      else .ok (ct.1, (gridCellsIdx g).filterMap
        (fun ct => if ct.2 = CellType.Goal then some ct.1 else none)) := hred
    have hcts : ct.2 = CellType.Start := by
      have := List.find?_some hfind
      simpa using this
    have hctmem : ct ∈ gridCellsIdx g :=
      List.mem_reverse.mp (List.mem_of_find?_eq_some hfind)
    have hctprops := (mem_gridCellsIdx g ct.1 ct.2).mp (by simpa using hctmem)
    by_cases hgl : (gridCellsIdx g).filterMap
        (fun ct => if ct.2 = CellType.Goal then some ct.1 else none) = []
    · rw [if_pos hgl] at hred
      refine ⟨?_, ?_, ?_⟩
      · intro e _
        right
        intro c hcin hcg
        have hmem : (c, CellType.Goal) ∈ gridCellsIdx g :=
          (mem_gridCellsIdx g c CellType.Goal).mpr ⟨hcin, hcg.symm⟩
        have := List.filterMap_eq_nil_iff.mp hgl (c, CellType.Goal) hmem
        simp at this
      · rintro _ ⟨c, hcin, hcg⟩
        have hmem : (c, CellType.Goal) ∈ gridCellsIdx g :=
          (mem_gridCellsIdx g c CellType.Goal).mpr ⟨hcin, hcg.symm⟩
        have := List.filterMap_eq_nil_iff.mp hgl (c, CellType.Goal) hmem
        simp at this
      · intro s goals hok
        rw [hok] at hred
        cases hred
    · rw [if_neg hgl] at hred
      refine ⟨?_, ?_, ?_⟩
      · intro e herr
        rw [herr] at hred
        cases hred
      · intro _ _
        exact ⟨ct.1, _, hred⟩
      · intro s goals hok
        rw [hok] at hred
        have hs : s = ct.1 := by
          cases hred
          rfl
        subst hs
        refine ⟨hctprops.1, ?_, ?_⟩
        · rw [← hctprops.2, hcts]
        · intro c hcin hcs
          obtain ⟨l1, l2, hrev, hl1⟩ := find?_split _ _ _ hfind
          have hL : gridCellsIdx g = l2.reverse ++ ct :: l1.reverse := by
            have h := congrArg List.reverse hrev
            rw [List.reverse_reverse] at h
            rw [h]
            simp [List.reverse_append]
          have hcmem : (c, CellType.Start) ∈ gridCellsIdx g :=
            (mem_gridCellsIdx g c CellType.Start).mpr ⟨hcin, hcs.symm⟩
          rw [hL] at hcmem
          rcases List.mem_append.1 hcmem with h2 | h2
          · right
            have hpw := gridCellsIdx_pairwise g
            rw [hL] at hpw
            have hcross := (List.pairwise_append.1 hpw).2.2
            exact hcross (c, CellType.Start) h2 ct (List.mem_cons_self _ _)
          · rcases List.mem_cons.1 h2 with heq | h2
            · left
              exact congrArg Prod.fst heq.symm ▸ rfl
            · exfalso
              have := hl1 (c, CellType.Start) (List.mem_reverse.mp h2)
              simp at this

theorem findStartAndGoals_validation_witness :
    ∃ s goals,
      findStartAndGoals
        [[CellType.Start, CellType.Unexplored],
         [CellType.Goal, CellType.Start]] = .ok (s, goals) :=
  (findStartAndGoals_validation _).2.1
    ⟨⟨0, 0⟩, by decide, by decide⟩ ⟨⟨1, 0⟩, by decide, by decide⟩

/-! ### Step-list helpers -/

theorem exploreCells_explore (c : CellCoordinates) (rest : List SearchStep) :
    exploreCells (.explore c :: rest) = c :: exploreCells rest := rfl

theorem exploreCells_frontier (cs : List CellCoordinates)
    (rest : List SearchStep) :
    exploreCells (.frontier cs :: rest) = exploreCells rest := rfl

theorem alistHas_cons_false {α : Type} (d : CellCoordinates) (v : α)
    (l : List (CellCoordinates × α)) (c : CellCoordinates) :
    alistHas ((d, v) :: l) c = false ↔ c ≠ d ∧ alistHas l c = false := by
  by_cases h : c = d <;> simp [alistHas, alistGet, h]

/-! ### C6: each cell is explored at most once -/

theorem runLoop_explores_fresh (π : Type) [LinearOrder π] (g : Grid)
    (A : SearchAlg π) (start : CellCoordinates) :
    ∀ (fuel : Nat) (container : List (Move π)) (cf : CameFrom) (aux : Aux),
      (exploreCells (runLoop π g A start fuel container cf aux).1).Nodup ∧
      ∀ c ∈ exploreCells (runLoop π g A start fuel container cf aux).1,
        alistHas cf c = false := by
  intro fuel
  induction fuel with
  | zero =>
    intro container cf aux
    simp [runLoop, exploreCells]
  | succ fuel ih =>
    intro container cf aux
    rw [runLoop]
    cases hpop : A.pop container with
    | none => simp [exploreCells]
    | some popped =>
      obtain ⟨m, rest⟩ := popped
      by_cases hvis : alistHas cf m.destination = true
      · simp only [hvis, if_true]
        exact ih rest cf aux
      · rw [Bool.not_eq_true] at hvis
        simp only [hvis, Bool.false_eq_true, if_false]
        by_cases hgoal : cellAt g m.destination = CellType.Goal
        · simp only [hgoal, if_true]
          cases reconstructPath start m.destination ((m.destination, m.source) :: cf) with
          | some p =>
            refine ⟨by simp [exploreCells], ?_⟩
            intro c hc
            simp [exploreCells] at hc
            rw [hc]
            exact hvis
          | none =>
            refine ⟨by simp [exploreCells], ?_⟩
            intro c hc
            simp [exploreCells] at hc
            rw [hc]
            exact hvis
        · simp only [hgoal, if_false]
          obtain ⟨ihn, ihf⟩ := ih
            (rest ++ (A.gate m.destination
              (A.reorder (getValidMoves π m.destination g
                ((m.destination, m.source) :: cf))) aux).1)
            ((m.destination, m.source) :: cf)
            (A.gate m.destination
              (A.reorder (getValidMoves π m.destination g
                ((m.destination, m.source) :: cf))) aux).2
          rw [exploreCells_explore, exploreCells_frontier]
          constructor
          · refine List.nodup_cons.mpr ⟨?_, ihn⟩
            intro hmem
            have h := (alistHas_cons_false _ _ _ _).1 (ihf _ hmem)
            exact h.1 rfl
          · intro c hc
            rcases List.mem_cons.1 hc with rfl | hc
            · exact hvis
            · exact ((alistHas_cons_false _ _ _ _).1 (ihf _ hc)).2

/-- C6: for every grid and every one of the six algorithms, no cell
coordinate appears in more than one `explore` step within a single run: a
cell is recorded in the predecessor map at its first exploration and any
later frontier entry for it is skipped. -/
theorem all_algorithms_explore_once (alg : Algorithm) (g : Grid) :
    (exploreCells (ALGORITHMS alg g).1).Nodup := by
  have key : ∀ (π : Type) (inst : LinearOrder π) (A : SearchAlg π)
      (start : CellCoordinates) (aux : Aux),
      (exploreCells (runSearch π A g start aux).1).Nodup := by
    intro π inst A start aux
    exact (runLoop_explores_fresh π g A start _ _ _ _).1
  cases alg <;>
    simp only [ALGORITHMS, depthFirstSearch, breadthFirstSearch,
      greedyBestFirstSearch, aStar, openSearch, straightLineAStar] <;>
    (cases findStartAndGoals g with
     | error e => simp [exploreCells]
     | ok sg =>
       obtain ⟨s, gs⟩ := sg
       exact key _ _ _ _ _)

/-! ### The grid graph -/

theorem getValidMoves_mem (π : Type) (src : CellCoordinates) (g : Grid)
    (cf : CameFrom) (m : Move π) (h : m ∈ getValidMoves π src g cf) :
    m.source = some src ∧ m.priority = none ∧ m.index = none ∧
    adjacent g src m.destination ∧ alistHas cf m.destination = false := by
  rw [getValidMoves, List.mem_filterMap] at h
  obtain ⟨off, hoff, hm⟩ := h
  rw [validMoveFor] at hm
  by_cases hc : isInsideGrid
      (⟨src.row + off.1, src.col + off.2⟩ : CellCoordinates) g = true ∧
      cellAt g (⟨src.row + off.1, src.col + off.2⟩ : CellCoordinates) ≠
        CellType.Wall ∧
      ¬ alistHas cf (⟨src.row + off.1, src.col + off.2⟩ : CellCoordinates) =
        true
  · rw [if_pos hc] at hm
    cases hm
    refine ⟨rfl, rfl, rfl, ⟨off, hoff, rfl, hc.1, hc.2.1⟩, ?_⟩
    have := hc.2.2
    simpa using this
  · rw [if_neg hc] at hm
    cases hm

theorem getValidMoves_complete (π : Type) (src : CellCoordinates) (g : Grid)
    (cf : CameFrom) (v : CellCoordinates) (hadj : adjacent g src v)
    (hfresh : alistHas cf v = false) :
    ∃ m ∈ getValidMoves π src g cf, m.destination = v := by
  obtain ⟨off, hoff, hv, hin, hw⟩ := hadj
  refine ⟨{ source := some src, destination := v }, ?_, rfl⟩
  rw [getValidMoves, List.mem_filterMap]
  refine ⟨off, hoff, ?_⟩
  rw [validMoveFor]
  rw [← hv]
  rw [if_pos ⟨hin, hw, by simp [hfresh]⟩]

theorem getValidMoves_length (π : Type) (src : CellCoordinates) (g : Grid)
    (cf : CameFrom) : (getValidMoves π src g cf).length ≤ 4 := by
  have h := List.length_filterMap_le (validMoveFor π src g cf) offsetList
  simpa [offsetList, directionList] using h

/-! ### Predecessor-map invariants -/

theorem moveOK_mono (π : Type) (g : Grid) (start : CellCoordinates)
    (cf : CameFrom) (e : CellCoordinates × Option CellCoordinates)
    (m : Move π) (h : MoveOK π g start cf m) :
    MoveOK π g start (e :: cf) m := by
  rcases h with h | ⟨u, h1, h2, h3⟩
  · exact Or.inl h
  · refine Or.inr ⟨u, h1, ?_, h3⟩
    simp only [alistHas, alistGet]
    by_cases he : u = e.1
    · cases e; simp [he]
    · cases e
      simp only [he, if_false]
      exact h2

theorem alistGet_key_has {α : Type} (l : List (CellCoordinates × α))
    (k : CellCoordinates) (v : α) (h : alistGet l k = some v) :
    alistHas l k = true := by
  simp [alistHas, h]

theorem chain_mono (start : CellCoordinates)
    (e : CellCoordinates × Option CellCoordinates) (rest : CameFrom)
    (hfresh : alistHas rest e.1 = false) {c : CellCoordinates} {n : Nat}
    (h : Chain start rest c n) : Chain start (e :: rest) c n := by
  induction h with
  | refl => exact Chain.refl
  | step hne hget hchain ih =>
    rename_i c' u' n'
    refine Chain.step hne ?_ ih
    have hkey := alistGet_key_has _ _ _ hget
    have hne2 : c' ≠ e.1 := by
      intro heq
      rw [heq] at hkey
      rw [hkey] at hfresh
      cases hfresh
    cases e
    simp only [alistGet, hne2, if_false]
    exact hget

theorem chain_unique (start : CellCoordinates) (cf : CameFrom)
    {c : CellCoordinates} {n m : Nat} (h1 : Chain start cf c n)
    (h2 : Chain start cf c m) : n = m := by
  induction h1 generalizing m with
  | refl =>
    cases h2 with
    | refl => rfl
    | step hne _ _ => exact absurd rfl hne
  | step hne hget hchain ih =>
    cases h2 with
    | refl => exact absurd rfl hne
    | step hne2 hget2 hchain2 =>
      rw [hget] at hget2
      cases hget2
      rw [ih hchain2]

theorem cf_chain_total (g : Grid) (start : CellCoordinates) :
    ∀ cf : CameFrom, CFInv g start cf → ∀ c, alistHas cf c = true →
      ∃ n, Chain start cf c n := by
  intro cf
  induction cf with
  | nil => intro _ c hc; simp [alistHas, alistGet] at hc
  | cons e rest ih =>
    intro hinv c hc
    obtain ⟨d, src⟩ := e
    obtain ⟨hsrc, hfresh, hrest⟩ := hinv
    by_cases hcs : c = start
    · exact ⟨0, hcs ▸ Chain.refl⟩
    · by_cases hcd : c = d
      · subst hcd
        rcases hsrc with ⟨_, hds⟩ | ⟨u, hu, huh, _⟩
        · exact absurd hds hcs
        · obtain ⟨n, hn⟩ := ih hrest u huh
          refine ⟨n + 1, Chain.step hcs ?_ (chain_mono start (c, src) rest hfresh hn)⟩
          simp [alistGet, hu]
      · have hc2 : alistHas rest c = true := by
          simpa [alistHas, alistGet, hcd] using hc
        obtain ⟨n, hn⟩ := ih hrest c hc2
        exact ⟨n, chain_mono start (d, src) rest hfresh hn⟩

theorem cf_adjacent_of_get (g : Grid) (start : CellCoordinates) :
    ∀ cf : CameFrom, CFInv g start cf → ∀ c u,
      alistGet cf c = some (some u) → adjacent g u c := by
  intro cf
  induction cf with
  | nil => intro _ c u hc; simp [alistGet] at hc
  | cons e rest ih =>
    intro hinv c u hget
    obtain ⟨d, src⟩ := e
    obtain ⟨hsrc, hfresh, hrest⟩ := hinv
    by_cases hcd : c = d
    · subst hcd
      simp only [alistGet, if_pos rfl] at hget
      cases hget
      rcases hsrc with ⟨hn, _⟩ | ⟨u', hu', _, hadj⟩
      · cases hn
      · cases hu' ▸ (rfl : (some u : Option CellCoordinates) = some u) with
        | _ => exact (Option.some.injEq .. ▸ hu' : _) ▸ hadj
    · simp only [alistGet, hcd, if_false] at hget
      exact ih hrest c u hget

/-! ### Path reconstruction correctness -/

theorem reconstructPathGo_spec (g : Grid) (start : CellCoordinates)
    (cf : CameFrom) (hinv : CFInv g start cf) :
    ∀ {c : CellCoordinates} {n : Nat}, Chain start cf c n →
    ∀ (fuel : Nat), n + 1 ≤ fuel → ∀ (acc : List CellCoordinates),
    ∃ p, reconstructPathGo start cf fuel c acc = some (p ++ acc) ∧
      p.length = n + 1 ∧ p.head? = some start ∧ p.getLast? = some c ∧
      List.Chain' (adjacent g) p ∧ p.Nodup ∧
      ∀ x ∈ p, ∃ i, Chain start cf x i ∧ i ≤ n := by
  intro c n hchain
  induction hchain with
  | refl =>
    intro fuel hfuel acc
    obtain ⟨f, rfl⟩ : ∃ f, fuel = f + 1 := ⟨fuel - 1, by omega⟩
    refine ⟨[start], by simp [reconstructPathGo], rfl, rfl, rfl, ?_, ?_, ?_⟩
    · simp
    · simp
    · intro x hx
      rw [List.mem_singleton] at hx
      exact ⟨0, hx ▸ Chain.refl, le_refl 0⟩
  | step hne hget hch ih =>
    rename_i c' u' n'
    intro fuel hfuel acc
    obtain ⟨f, rfl⟩ : ∃ f, fuel = f + 1 := ⟨fuel - 1, by omega⟩
    obtain ⟨p, hp, hlen, hhead, hlast, hchn, hnd, hmem⟩ :=
      ih f (by omega) (c' :: acc)
    have hchainc : Chain start cf c' (n' + 1) := Chain.step hne hget hch
    have hc'notp : c' ∉ p := by
      intro hin
      obtain ⟨i, hi, hile⟩ := hmem c' hin
      have := chain_unique start cf hi hchainc
      omega
    refine ⟨p ++ [c'], ?_, ?_, ?_, ?_, ?_, ?_, ?_⟩
    · rw [reconstructPathGo, if_neg hne, hget]
      show reconstructPathGo start cf f u' (c' :: acc) =
        some (p ++ [c'] ++ acc)
      rw [hp, List.append_assoc, List.singleton_append]
    · simp [hlen]
    · obtain ⟨p2, rfl⟩ : ∃ p2, p = start :: p2 := by
        cases p with
        | nil => cases hhead
        | cons a p2 =>
          cases hhead
          exact ⟨p2, rfl⟩
      rfl
    · exact List.getLast?_concat p
    · rw [List.chain'_append]
      refine ⟨hchn, List.chain'_singleton c', ?_⟩
      intro x hx y hy
      rw [hlast] at hx
      cases hx
      rw [List.head?_cons] at hy
      cases hy
      exact cf_adjacent_of_get g start cf hinv c' u' hget
    · rw [List.nodup_append]
      exact ⟨hnd, List.nodup_singleton c', by
        intro a ha hb
        rw [List.mem_singleton] at hb
        exact hc'notp (hb ▸ ha)⟩
    · intro x hx
      rcases List.mem_append.1 hx with hx | hx
      · obtain ⟨i, hi, hile⟩ := hmem x hx
        exact ⟨i, hi, by omega⟩
      · rw [List.mem_singleton] at hx
        exact ⟨n' + 1, hx ▸ hchainc, le_refl _⟩

theorem nodup_subset_length {α : Type} [DecidableEq α] (l1 l2 : List α)
    (hnd : l1.Nodup) (hsub : l1 ⊆ l2) : l1.length ≤ l2.length := by
  calc l1.length = l1.toFinset.card := (List.toFinset_card_of_nodup hnd).symm
    _ ≤ l2.toFinset.card := by
        apply Finset.card_le_card
        intro a ha
        rw [List.mem_toFinset] at ha ⊢
        exact hsub ha
    _ ≤ l2.length := l2.toFinset_card_le

theorem chain_le_length (g : Grid) (start : CellCoordinates) (cf : CameFrom)
    (hinv : CFInv g start cf) {c : CellCoordinates} {n : Nat}
    (hchain : Chain start cf c n) : n ≤ cf.length := by
  obtain ⟨p, _, hlen, _, _, _, hnd, hmem⟩ :=
    reconstructPathGo_spec g start cf hinv hchain (n + 1) (le_refl _) []
  have hkeys : ∀ x ∈ p, x = start ∨ x ∈ cf.map Prod.fst := by
    intro x hx
    obtain ⟨i, hi, _⟩ := hmem x hx
    cases hi with
    | refl => exact Or.inl rfl
    | step hne hget hch =>
      right
      rw [List.mem_map]
      exact ⟨(x, _), alistGet_mem _ _ _ hget, rfl⟩
  have hcard : p.toFinset.card = p.length := List.toFinset_card_of_nodup hnd
  have hsub2 : p.toFinset.erase start ⊆ (cf.map Prod.fst).toFinset := by
    intro x hx
    rw [Finset.mem_erase] at hx
    obtain ⟨hxs, hxp⟩ := hx
    rw [List.mem_toFinset] at hxp ⊢
    rcases hkeys x hxp with h | h
    · exact absurd h hxs
    · exact h
  have h1 : p.toFinset.card - 1 ≤ (p.toFinset.erase start).card := by
    by_cases hs : start ∈ p.toFinset
    · rw [Finset.card_erase_of_mem hs]
    · rw [Finset.erase_eq_of_not_mem hs]
      omega
  have h2 : (p.toFinset.erase start).card ≤ (cf.map Prod.fst).toFinset.card :=
    Finset.card_le_card hsub2
  have h3 : (cf.map Prod.fst).toFinset.card ≤ (cf.map Prod.fst).length :=
    (cf.map Prod.fst).toFinset_card_le
  rw [List.length_map] at h3
  omega

/-- Success and shape of `reconstructPath` on a well-formed predecessor
map. -/
theorem reconstructPath_spec (g : Grid) (start : CellCoordinates)
    (cf : CameFrom) (hinv : CFInv g start cf) {goal : CellCoordinates}
    {n : Nat} (hchain : Chain start cf goal n) :
    ∃ p, reconstructPath start goal cf = some p ∧
      p.length = n + 1 ∧ p.head? = some start ∧ p.getLast? = some goal ∧
      List.Chain' (adjacent g) p ∧ p.Nodup := by
  have hle := chain_le_length g start cf hinv hchain
  obtain ⟨p, hp, h1, h2, h3, h4, h5, _⟩ :=
    reconstructPathGo_spec g start cf hinv hchain (cf.length + 1)
      (by omega) []
  exact ⟨p, by simpa [reconstructPath] using hp, h1, h2, h3, h4, h5⟩

/-! ### Container and gate laws of the six strategies -/

theorem popHead_none (π : Type) (l : List (Move π)) (h : popHead l = none) :
    l = [] := by
  cases l with
  | nil => rfl
  | cons m ms => cases h

theorem popHead_perm (π : Type) (l : List (Move π)) (m : Move π)
    (rest : List (Move π)) (h : popHead l = some (m, rest)) :
    l.Perm (m :: rest) := by
  cases l with
  | nil => cases h
  | cons m0 ms =>
    rw [popHead] at h
    cases h
    exact List.Perm.refl _

theorem popLast_none (π : Type) (l : List (Move π)) (h : popLast l = none) :
    l = [] := by
  rw [popLast] at h
  cases hl : l.getLast? with
  | none => exact List.getLast?_eq_none_iff.mp hl
  | some m => rw [hl] at h; cases h

theorem popLast_perm (π : Type) (l : List (Move π)) (m : Move π)
    (rest : List (Move π)) (h : popLast l = some (m, rest)) :
    l.Perm (m :: rest) := by
  rw [popLast] at h
  cases hl : l.getLast? with
  | none => rw [hl] at h; cases h
  | some m0 =>
    rw [hl] at h
    cases h
    have hne : l ≠ [] := by
      intro hnil
      rw [hnil] at hl
      cases hl
    have hgl : l.getLast hne = m := by
      have hq := List.getLast?_eq_getLast l hne
      rw [hq] at hl
      exact (Option.some.injEq _ _).mp hl
    have hsplit : l.dropLast ++ [m] = l := by
      rw [← hgl]
      exact List.dropLast_append_getLast hne
    have hperm : (l.dropLast ++ [m]).Perm (m :: l.dropLast) :=
      List.perm_append_singleton m l.dropLast
    rw [hsplit] at hperm
    exact hperm

theorem heapPoll_none (π : Type) [LinearOrder π] (l : List (Move π))
    (h : heapPoll l = none) : l = [] := by
  cases l with
  | nil => rfl
  | cons m ms =>
    rw [heapPoll] at h
    cases hh : heapPoll ms with
    | none => rw [hh] at h; cases h
    | some p =>
      rw [hh] at h
      obtain ⟨m', rest'⟩ := p
      replace h : (if moveLt m' m = true then some (m', m :: rest')
          else some (m, ms)) = (none : Option (Move π × List (Move π))) := h
      by_cases hlt : moveLt m' m = true
      · rw [if_pos hlt] at h; cases h
      · rw [if_neg hlt] at h; cases h

theorem heapPoll_perm (π : Type) [LinearOrder π] :
    ∀ (l : List (Move π)) (m : Move π) (rest : List (Move π)),
      heapPoll l = some (m, rest) → l.Perm (m :: rest) := by
  intro l
  induction l with
  | nil => intro m rest h; cases h
  | cons m0 ms ih =>
    intro m rest h
    rw [heapPoll] at h
    cases hh : heapPoll ms with
    | none =>
      rw [hh] at h
      replace h : some (m0, ([] : List (Move π))) = some (m, rest) := h
      cases h
      rw [heapPoll_none π ms hh]
    | some p =>
      obtain ⟨m', rest'⟩ := p
      rw [hh] at h
      replace h : (if moveLt m' m0 = true then some (m', m0 :: rest')
          else some (m0, ms)) = some (m, rest) := h
      by_cases hlt : moveLt m' m0 = true
      · simp only [hlt, if_true] at h
        cases h
        have h1 := ih m rest' hh
        have h2 : (m0 :: ms).Perm (m0 :: m :: rest') := h1.cons m0
        exact h2.trans (List.Perm.swap m m0 rest')
      · simp only [hlt, if_false] at h
        cases h
        exact List.Perm.refl _

theorem assignPrio_spec (π : Type) (f : CellCoordinates → π) :
    ∀ (ms : List (Move π)) (aux : Aux),
      ((assignPrio π f ms aux).1.length = ms.length) ∧
      (∀ m' ∈ (assignPrio π f ms aux).1,
        ∃ m ∈ ms, m'.destination = m.destination ∧ m'.source = m.source) ∧
      (∀ m ∈ ms, ∃ m' ∈ (assignPrio π f ms aux).1,
        m'.destination = m.destination) ∧
      (assignPrio π f ms aux).2.numSteps = aux.numSteps := by
  intro ms
  induction ms with
  | nil => intro aux; exact ⟨rfl, by simp [assignPrio], by simp, rfl⟩
  | cons m ms ih =>
    intro aux
    obtain ⟨ih1, ih2, ih3, ih4⟩ := ih { aux with index := aux.index + 1 }
    simp only [assignPrio]
    refine ⟨?_, ?_, ?_, ?_⟩
    · simp [ih1]
    · intro m' hm'
      rcases List.mem_cons.1 hm' with rfl | hm'
      · exact ⟨m, List.mem_cons_self _ _, rfl, rfl⟩
      · obtain ⟨m2, hm2, he⟩ := ih2 m' hm'
        exact ⟨m2, List.mem_cons_of_mem _ hm2, he⟩
    · intro m2 hm2
      rcases List.mem_cons.1 hm2 with rfl | hm2
      · exact ⟨_, List.mem_cons_self _ _, rfl⟩
      · obtain ⟨m', hm', he⟩ := ih3 m2 hm2
        exact ⟨m', List.mem_cons_of_mem _ hm', he⟩
    · exact ih4

theorem relaxMove_spec (π : Type) (prio : Nat → CellCoordinates → π)
    (n : Nat) (m : Move π) (aux : Aux) :
    (∃ old, alistGet aux.numSteps m.destination = some old ∧ old ≤ n ∧
      relaxMove π prio n m aux = (none, aux)) ∨
    ((relaxMove π prio n m aux).1 =
        some { m with priority := some (prio n m.destination),
                      index := some aux.index } ∧
      (relaxMove π prio n m aux).2 =
        ⟨alistSet aux.numSteps m.destination n, aux.index + 1⟩) := by
  cases hget : alistGet aux.numSteps m.destination with
  | none =>
    right
    constructor
    · simp only [relaxMove, hget]
    · simp only [relaxMove, hget]
  | some old =>
    by_cases hle : old ≤ n
    · left
      refine ⟨old, rfl, hle, ?_⟩
      simp only [relaxMove, hget, if_pos hle]
    · right
      constructor
      · simp only [relaxMove, hget, if_neg hle]
      · simp only [relaxMove, hget, if_neg hle]

theorem gatedGo_spec (π : Type) (prio : Nat → CellCoordinates → π)
    (cur : CellCoordinates) :
    ∀ (ms : List (Move π)) (aux : Aux),
      ((gatedGo π prio cur ms aux).1.length ≤ ms.length) ∧
      (∀ m' ∈ (gatedGo π prio cur ms aux).1,
        ∃ m ∈ ms, m'.destination = m.destination ∧ m'.source = m.source) ∧
      (∀ c, alistHas aux.numSteps c = true →
        alistHas (gatedGo π prio cur ms aux).2.numSteps c = true) ∧
      (∀ m ∈ ms, (∃ m' ∈ (gatedGo π prio cur ms aux).1,
          m'.destination = m.destination) ∨
        alistHas (gatedGo π prio cur ms aux).2.numSteps m.destination = true) ∧
      (∀ c, alistHas (gatedGo π prio cur ms aux).2.numSteps c = true →
        alistHas aux.numSteps c = true ∨
        ∃ m' ∈ (gatedGo π prio cur ms aux).1, m'.destination = c) := by
  intro ms
  induction ms with
  | nil =>
    intro aux
    refine ⟨le_refl _, by simp [gatedGo], fun c h => h, by simp, fun c h => Or.inl h⟩
  | cons m ms ih =>
    intro aux
    rcases relaxMove_spec π prio ((alistGet aux.numSteps cur).getD 0 + 1) m aux
      with ⟨old, hget, hle, heq⟩ | ⟨h1, h2⟩
    · simp only [gatedGo, heq]
      obtain ⟨ih1, ih2, ih3, ih4, ih5⟩ := ih aux
      refine ⟨by simp only [List.length_cons]; omega, ?_, ih3, ?_, ?_⟩
      · intro m' hm'
        obtain ⟨m2, hm2, he⟩ := ih2 m' hm'
        exact ⟨m2, List.mem_cons_of_mem _ hm2, he⟩
      · intro m2 hm2
        rcases List.mem_cons.1 hm2 with rfl | hm2
        · right
          exact ih3 _ (alistGet_key_has _ _ _ hget)
        · exact ih4 m2 hm2
      · intro c hc
        rcases ih5 c hc with h | ⟨m', hm', he⟩
        · exact Or.inl h
        · exact Or.inr ⟨m', hm', he⟩
    · have heq2 :
        relaxMove π prio ((alistGet aux.numSteps cur).getD 0 + 1) m aux =
          (some { m with
            priority := some (prio ((alistGet aux.numSteps cur).getD 0 + 1)
              m.destination),
            index := some aux.index },
          ⟨alistSet aux.numSteps m.destination
            ((alistGet aux.numSteps cur).getD 0 + 1), aux.index + 1⟩) := by
        rw [← h1, ← h2]
      simp only [gatedGo, heq2]
      set aux' : Aux := ⟨alistSet aux.numSteps m.destination
        ((alistGet aux.numSteps cur).getD 0 + 1), aux.index + 1⟩ with haux'
      obtain ⟨ih1, ih2, ih3, ih4, ih5⟩ := ih aux'
      refine ⟨by simpa using Nat.succ_le_succ ih1, ?_, ?_, ?_, ?_⟩
      · intro m' hm'
        rcases List.mem_cons.1 hm' with rfl | hm'
        · exact ⟨m, List.mem_cons_self _ _, rfl, rfl⟩
        · obtain ⟨m2, hm2, he⟩ := ih2 m' hm'
          exact ⟨m2, List.mem_cons_of_mem _ hm2, he⟩
      · intro c hc
        apply ih3
        rw [haux']
        show alistHas (alistSet aux.numSteps m.destination _) c = true
        rw [alistHas_set]
        simp [hc]
      · intro m2 hm2
        rcases List.mem_cons.1 hm2 with rfl | hm2
        · exact Or.inl ⟨_, List.mem_cons_self _ _, rfl⟩
        · rcases ih4 m2 hm2 with ⟨m', hm', he⟩ | h
          · exact Or.inl ⟨m', List.mem_cons_of_mem _ hm', he⟩
          · exact Or.inr h
      · intro c hc
        rcases ih5 c hc with h | ⟨m', hm', he⟩
        · rw [haux'] at h
          replace h : alistHas (alistSet aux.numSteps m.destination
            ((alistGet aux.numSteps cur).getD 0 + 1)) c = true := h
          rw [alistHas_set] at h
          rcases Bool.or_eq_true_iff.mp h with h | h
          · exact Or.inl h
          · right
            refine ⟨_, List.mem_cons_self _ _, ?_⟩
            have h2 : c = m.destination := by simpa using h
            exact h2.symm
        · exact Or.inr ⟨m', List.mem_cons_of_mem _ hm', he⟩

theorem dfsStrategy_laws : AlgLaws ℕ dfsStrategy where
  pop_none := popLast_none ℕ
  pop_perm := popLast_perm ℕ
  reorder_perm := fun l => List.reverse_perm l
  gate_moves := fun _ ms _ m' h => ⟨m', h, rfl, rfl⟩
  gate_len := fun _ _ _ => le_refl _
  gate_complete := fun _ _ _ m h => Or.inl ⟨m, h, rfl⟩
  gate_keeps := fun _ _ _ _ h => h
  gate_new := fun _ _ _ _ h => Or.inl h

theorem bfsStrategy_laws : AlgLaws ℕ bfsStrategy where
  pop_none := popHead_none ℕ
  pop_perm := popHead_perm ℕ
  reorder_perm := fun l => List.Perm.refl l
  gate_moves := fun _ ms _ m' h => ⟨m', h, rfl, rfl⟩
  gate_len := fun _ _ _ => le_refl _
  gate_complete := fun _ _ _ m h => Or.inl ⟨m, h, rfl⟩
  gate_keeps := fun _ _ _ _ h => h
  gate_new := fun _ _ _ _ h => Or.inl h

theorem greedyStrategy_laws (goals : List CellCoordinates) :
    AlgLaws ℕ (greedyStrategy goals) where
  pop_none := heapPoll_none ℕ
  pop_perm := heapPoll_perm ℕ
  reorder_perm := fun l => List.Perm.refl l
  gate_moves := fun _ ms aux m' h =>
    (assignPrio_spec ℕ (nearestGoalDistance goals) ms aux).2.1 m' h
  gate_len := fun _ ms aux =>
    le_of_eq (assignPrio_spec ℕ (nearestGoalDistance goals) ms aux).1
  gate_complete := fun _ ms aux m h =>
    Or.inl ((assignPrio_spec ℕ (nearestGoalDistance goals) ms aux).2.2.1 m h)
  gate_keeps := fun _ ms aux c h => by
    show alistHas (assignPrio ℕ (nearestGoalDistance goals) ms aux).2.numSteps
      c = true
    rw [(assignPrio_spec ℕ (nearestGoalDistance goals) ms aux).2.2.2]
    exact h
  gate_new := fun _ ms aux c h => by
    left
    rw [← (assignPrio_spec ℕ (nearestGoalDistance goals) ms aux).2.2.2]
    exact h

theorem openStrategy_laws (g : Grid) : AlgLaws ℕ (openStrategy g) where
  pop_none := heapPoll_none ℕ
  pop_perm := heapPoll_perm ℕ
  reorder_perm := fun l => List.Perm.refl l
  gate_moves := fun _ ms aux m' h =>
    (assignPrio_spec ℕ (fun c => countSurroundingWalls c g) ms aux).2.1 m' h
  gate_len := fun _ ms aux =>
    le_of_eq (assignPrio_spec ℕ (fun c => countSurroundingWalls c g) ms aux).1
  gate_complete := fun _ ms aux m h =>
    Or.inl ((assignPrio_spec ℕ (fun c => countSurroundingWalls c g)
      ms aux).2.2.1 m h)
  gate_keeps := fun _ ms aux c h => by
    show alistHas (assignPrio ℕ (fun c => countSurroundingWalls c g)
      ms aux).2.numSteps c = true
    rw [(assignPrio_spec ℕ (fun c => countSurroundingWalls c g) ms aux).2.2.2]
    exact h
  gate_new := fun _ ms aux c h => by
    left
    rw [← (assignPrio_spec ℕ (fun c => countSurroundingWalls c g)
      ms aux).2.2.2]
    exact h

theorem aStarStrategy_laws (goals : List CellCoordinates) :
    AlgLaws ℕ (aStarStrategy goals) where
  pop_none := heapPoll_none ℕ
  pop_perm := heapPoll_perm ℕ
  reorder_perm := fun l => List.Perm.refl l
  gate_moves := fun cur ms aux m' h =>
    (gatedGo_spec ℕ (fun gn c => gn + nearestGoalDistance goals c)
      cur ms aux).2.1 m' h
  gate_len := fun cur ms aux =>
    (gatedGo_spec ℕ (fun gn c => gn + nearestGoalDistance goals c)
      cur ms aux).1
  gate_complete := fun cur ms aux m h =>
    (gatedGo_spec ℕ (fun gn c => gn + nearestGoalDistance goals c)
      cur ms aux).2.2.2.1 m h
  gate_keeps := fun cur ms aux c h =>
    (gatedGo_spec ℕ (fun gn c => gn + nearestGoalDistance goals c)
      cur ms aux).2.2.1 c h
  gate_new := fun cur ms aux c h =>
    (gatedGo_spec ℕ (fun gn c => gn + nearestGoalDistance goals c)
      cur ms aux).2.2.2.2 c h

theorem straightStrategy_laws (goals : List CellCoordinates) :
    AlgLaws ℝ (straightStrategy goals) where
  pop_none := heapPoll_none ℝ
  pop_perm := heapPoll_perm ℝ
  reorder_perm := fun l => List.Perm.refl l
  gate_moves := fun cur ms aux m' h =>
    (gatedGo_spec ℝ (straightLinePriority goals) cur ms aux).2.1 m' h
  gate_len := fun cur ms aux =>
    (gatedGo_spec ℝ (straightLinePriority goals) cur ms aux).1
  gate_complete := fun cur ms aux m h =>
    (gatedGo_spec ℝ (straightLinePriority goals) cur ms aux).2.2.2.1 m h
  gate_keeps := fun cur ms aux c h =>
    (gatedGo_spec ℝ (straightLinePriority goals) cur ms aux).2.2.1 c h
  gate_new := fun cur ms aux c h =>
    (gatedGo_spec ℝ (straightLinePriority goals) cur ms aux).2.2.2.2 c h

/-! ### Generic run lemmas -/

theorem chain_reachIn (g : Grid) (start : CellCoordinates) (cf : CameFrom)
    (hinv : CFInv g start cf) {c : CellCoordinates} {n : Nat}
    (h : Chain start cf c n) : ReachIn g start c n := by
  induction h with
  | refl => exact ReachIn.refl
  | step hne hget hch ih =>
    exact ih.step (cf_adjacent_of_get g start cf hinv _ _ hget)

theorem state_step (π : Type) [LinearOrder π] {g : Grid} {A : SearchAlg π}
    {start : CellCoordinates} (laws : AlgLaws π A)
    {container : List (Move π)} {cf : CameFrom} {aux : Aux} {m : Move π}
    {rest : List (Move π)} (hpop : A.pop container = some (m, rest))
    (hmoves : ∀ m' ∈ container, MoveOK π g start cf m')
    (hinv : CFInv g start cf)
    (hfresh : alistHas cf m.destination = false) :
    CFInv g start ((m.destination, m.source) :: cf) ∧
    (∀ m' ∈ rest ++ (A.gate m.destination
        (A.reorder (getValidMoves π m.destination g
          ((m.destination, m.source) :: cf))) aux).1,
      MoveOK π g start ((m.destination, m.source) :: cf) m') := by
  have hperm := laws.pop_perm _ _ _ hpop
  have hmem : m ∈ container :=
    hperm.symm.subset (List.mem_cons_self m rest)
  have hmOK := hmoves m hmem
  constructor
  · exact ⟨hmOK, hfresh, hinv⟩
  · intro m' hm'
    rcases List.mem_append.1 hm' with hm' | hm'
    · have : m' ∈ container :=
        hperm.symm.subset (List.mem_cons_of_mem m hm')
      exact moveOK_mono π g start cf _ m' (hmoves m' this)
    · obtain ⟨mv, hmv, hdst, hsrc⟩ := laws.gate_moves _ _ _ _ hm'
      have hmv2 : mv ∈ getValidMoves π m.destination g
          ((m.destination, m.source) :: cf) :=
        (laws.reorder_perm _).subset hmv
      obtain ⟨hvsrc, _, _, hvadj, _⟩ := getValidMoves_mem π _ g _ mv hmv2
      right
      refine ⟨m.destination, by rw [hsrc, hvsrc], ?_, ?_⟩
      · simp [alistHas, alistGet]
      · rw [hdst]
        exact hvadj

theorem runLoop_sound (π : Type) [LinearOrder π] (g : Grid) (A : SearchAlg π)
    (start : CellCoordinates) (laws : AlgLaws π A) :
    ∀ (fuel : Nat) (container : List (Move π)) (cf : CameFrom) (aux : Aux),
      (∀ m ∈ container, MoveOK π g start cf m) → CFInv g start cf →
      (∀ c ∈ exploreCells (runLoop π g A start fuel container cf aux).1,
        Reachable g start c) ∧
      (∀ p, (runLoop π g A start fuel container cf aux).2 = Outcome.path p →
        ∃ γ, p.head? = some start ∧ p.getLast? = some γ ∧
          cellAt g γ = CellType.Goal ∧ List.Chain' (adjacent g) p ∧
          p.Nodup ∧ 1 ≤ p.length ∧ ReachIn g start γ (p.length - 1)) := by
  intro fuel
  induction fuel with
  | zero =>
    intro container cf aux _ _
    exact ⟨by simp [runLoop, exploreCells], by intro p h; cases h⟩
  | succ fuel ih =>
    intro container cf aux hmoves hinv
    rw [runLoop]
    cases hpop : A.pop container with
    | none => exact ⟨by simp [exploreCells], by intro p h; cases h⟩
    | some popped =>
      obtain ⟨m, rest⟩ := popped
      by_cases hvis : alistHas cf m.destination = true
      · simp only [hvis, if_true]
        exact ih rest cf aux
          (fun m' hm' => hmoves m'
            ((laws.pop_perm _ _ _ hpop).symm.subset
              (List.mem_cons_of_mem m hm')))
          hinv
      · rw [Bool.not_eq_true] at hvis
        simp only [hvis, Bool.false_eq_true, if_false]
        obtain ⟨hinv2, hmoves2⟩ := state_step π laws hpop hmoves hinv hvis
        have hreach : Reachable g start m.destination := by
          obtain ⟨n, hn⟩ := cf_chain_total g start _ hinv2 m.destination
            (by simp [alistHas, alistGet])
          exact ⟨n, chain_reachIn g start _ hinv2 hn⟩
        by_cases hgoal : cellAt g m.destination = CellType.Goal
        · simp only [hgoal, if_true]
          obtain ⟨n, hchain⟩ := cf_chain_total g start _ hinv2 m.destination
            (by simp [alistHas, alistGet])
          obtain ⟨p0, hp0, hlen0, hhead0, hlast0, hchn0, hnd0⟩ :=
            reconstructPath_spec g start _ hinv2 hchain
          rw [hp0]
          refine ⟨?_, ?_⟩
          · intro c hc
            simp only [exploreCells, List.filterMap] at hc
            simp at hc
            rw [hc]
            exact hreach
          · intro p hp
            replace hp : Outcome.path p0 = Outcome.path p := hp
            cases hp
            refine ⟨m.destination, hhead0, hlast0, hgoal, hchn0, hnd0,
              by omega, ?_⟩
            have : p0.length - 1 = n := by omega
            rw [this]
            exact chain_reachIn g start _ hinv2 hchain
        · simp only [hgoal, if_false]
          obtain ⟨ihr, ihp⟩ := ih _ _ _ hmoves2 hinv2
          rw [exploreCells_explore, exploreCells_frontier]
          refine ⟨?_, ihp⟩
          intro c hc
          rcases List.mem_cons.1 hc with rfl | hc
          · exact hreach
          · exact ihr c hc

theorem runLoop_complete (π : Type) [LinearOrder π] (g : Grid)
    (A : SearchAlg π) (start : CellCoordinates) (laws : AlgLaws π A) :
    ∀ (fuel : Nat) (container : List (Move π)) (cf : CameFrom) (aux : Aux),
      ClosedInv π g container cf aux.numSteps →
      (runLoop π g A start fuel container cf aux).2 = Outcome.failure →
      ∀ d, (alistHas cf d = true ∨
          d ∈ exploreCells (runLoop π g A start fuel container cf aux).1) →
        ∀ v, adjacent g d v →
          (alistHas cf v = true ∨
            v ∈ exploreCells (runLoop π g A start fuel container cf aux).1) := by
  intro fuel
  induction fuel with
  | zero =>
    intro container cf aux _ hfail
    cases hfail
  | succ fuel ih =>
    intro container cf aux hclosed hfail
    cases hpop : A.pop container with
    | none =>
      simp only [runLoop, hpop] at hfail ⊢
      intro d hd v hadj
      simp [exploreCells] at hd ⊢
      rcases hclosed.1 d hd v hadj with h | ⟨m, hm, _⟩ | h
      · exact h
      · rw [laws.pop_none _ hpop] at hm
        cases hm
      · rcases hclosed.2 v h with h2 | ⟨m, hm, _⟩
        · exact h2
        · rw [laws.pop_none _ hpop] at hm
          cases hm
    | some popped =>
      obtain ⟨m, rest⟩ := popped
      simp only [runLoop, hpop] at hfail ⊢
      have hcmem : ∀ m', m' ∈ container → m' = m ∨ m' ∈ rest := by
        intro m' hm'
        exact List.mem_cons.1 ((laws.pop_perm _ _ _ hpop).subset hm')
      by_cases hvis : alistHas cf m.destination = true
      · simp only [hvis, if_true] at hfail ⊢
        have hclosed2 : ClosedInv π g rest cf aux.numSteps := by
          constructor
          · intro d hd v hadj
            rcases hclosed.1 d hd v hadj with h | ⟨m', hm', he⟩ | h
            · exact Or.inl h
            · rcases hcmem m' hm' with rfl | hm2
              · exact Or.inl (he ▸ hvis)
              · exact Or.inr (Or.inl ⟨m', hm2, he⟩)
            · exact Or.inr (Or.inr h)
          · intro v hv
            rcases hclosed.2 v hv with h | ⟨m', hm', he⟩
            · exact Or.inl h
            · rcases hcmem m' hm' with rfl | hm2
              · exact Or.inl (he ▸ hvis)
              · exact Or.inr ⟨m', hm2, he⟩
        exact ih rest cf aux hclosed2 hfail
      · rw [Bool.not_eq_true] at hvis
        simp only [hvis, Bool.false_eq_true, if_false] at hfail ⊢
        by_cases hgoal : cellAt g m.destination = CellType.Goal
        · simp only [hgoal, if_true] at hfail
          cases hrec : reconstructPath start m.destination
              ((m.destination, m.source) :: cf) with
          | some p => rw [hrec] at hfail; cases hfail
          | none => rw [hrec] at hfail; cases hfail
        · simp only [hgoal, if_false] at hfail ⊢
          set cf2 : CameFrom := (m.destination, m.source) :: cf with hcf2
          set pushed := A.gate m.destination
            (A.reorder (getValidMoves π m.destination g cf2)) aux with hpush
          have hhas2 : ∀ x, alistHas cf2 x = true ↔
              (x = m.destination ∨ alistHas cf x = true) := by
            intro x
            by_cases hx : x = m.destination
            · simp [hcf2, alistHas, alistGet, hx]
            · simp [hcf2, alistHas, alistGet, hx]
          have hclosed2 : ClosedInv π g (rest ++ pushed.1) cf2
              pushed.2.numSteps := by
            constructor
            · intro d hd v hadj
              by_cases hvcf2 : alistHas cf2 v = true
              · exact Or.inl hvcf2
              · rcases (hhas2 d).1 hd with rfl | hd2
                · -- d is the newly explored cell
                  have hvfresh : alistHas cf2 v = false := by
                    rw [Bool.not_eq_true] at hvcf2
                    exact hvcf2
                  obtain ⟨mv, hmv, hmvd⟩ :=
                    getValidMoves_complete π m.destination g cf2 v hadj hvfresh
                  have hmv2 : mv ∈ A.reorder
                      (getValidMoves π m.destination g cf2) :=
                    (laws.reorder_perm _).symm.subset hmv
                  rcases laws.gate_complete m.destination _ aux mv hmv2 with
                    ⟨m', hm', he⟩ | hrec
                  · exact Or.inr (Or.inl ⟨m', List.mem_append_right _ hm',
                      he.trans hmvd⟩)
                  · exact Or.inr (Or.inr (hmvd ▸ hrec))
                · rcases hclosed.1 d hd2 v hadj with h | ⟨m', hm', he⟩ | h
                  · exact Or.inl ((hhas2 v).2 (Or.inr h))
                  · rcases hcmem m' hm' with rfl | hm2
                    · exact Or.inl ((hhas2 v).2 (Or.inl he.symm))
                    · exact Or.inr (Or.inl ⟨m', List.mem_append_left _ hm2, he⟩)
                  · exact Or.inr (Or.inr (laws.gate_keeps _ _ _ _ h))
            · intro v hv
              rcases laws.gate_new _ _ _ _ hv with h | ⟨m', hm', he⟩
              · rcases hclosed.2 v h with h2 | ⟨m', hm', he⟩
                · exact Or.inl ((hhas2 v).2 (Or.inr h2))
                · rcases hcmem m' hm' with rfl | hm2
                  · exact Or.inl ((hhas2 v).2 (Or.inl he.symm))
                  · exact Or.inr ⟨m', List.mem_append_left _ hm2, he⟩
              · exact Or.inr ⟨m', List.mem_append_right _ hm', he⟩
          have ihc := ih (rest ++ pushed.1) cf2 pushed.2 hclosed2 hfail
          intro d hd v hadj
          rw [exploreCells_explore, exploreCells_frontier] at hd ⊢
          have hd2 : alistHas cf2 d = true ∨
              d ∈ exploreCells (runLoop π g A start fuel (rest ++ pushed.1)
                cf2 pushed.2).1 := by
            rcases hd with hd | hd
            · exact Or.inl ((hhas2 d).2 (Or.inr hd))
            · rcases List.mem_cons.1 hd with rfl | hd
              · exact Or.inl ((hhas2 m.destination).2 (Or.inl rfl))
              · exact Or.inr hd
          rcases ihc d hd2 v hadj with h | h
          · rcases (hhas2 v).1 h with rfl | h2
            · exact Or.inr (List.mem_cons_self _ _)
            · exact Or.inl h2
          · exact Or.inr (List.mem_cons_of_mem _ h)

/-- On success, the start is an in-bounds `Start` cell and the goal list is
exactly the in-bounds `Goal` cells. -/
theorem findStartAndGoals_ok_props (g : Grid) (s : CellCoordinates)
    (goals : List CellCoordinates)
    (hok : findStartAndGoals g = .ok (s, goals)) :
    isInsideGrid s g = true ∧ cellAt g s = CellType.Start ∧
    ∀ γ, γ ∈ goals ↔
      (isInsideGrid γ g = true ∧ cellAt g γ = CellType.Goal) := by
  have hred := findStartAndGoals_eq g
  cases hfind : (gridCellsIdx g).reverse.find?
      (fun ct => decide (ct.2 = CellType.Start)) with
  | none =>
    rw [hfind] at hred
    replace hred : findStartAndGoals g =
      .error "Could not find the starting cell" := hred
    rw [hok] at hred
    cases hred
  | some ct =>
    rw [hfind] at hred
    replace hred : findStartAndGoals g =
      if (gridCellsIdx g).filterMap
          (fun ct => if ct.2 = CellType.Goal then some ct.1 else none) = []
      then .error "Could not find any goals"
      else .ok (ct.1, (gridCellsIdx g).filterMap
        (fun ct => if ct.2 = CellType.Goal then some ct.1 else none)) := hred
    by_cases hgl : (gridCellsIdx g).filterMap
        (fun ct => if ct.2 = CellType.Goal then some ct.1 else none) = []
    · rw [if_pos hgl, hok] at hred
      cases hred
    · rw [if_neg hgl, hok] at hred
      have hs : s = ct.1 ∧ goals = (gridCellsIdx g).filterMap
          (fun ct => if ct.2 = CellType.Goal then some ct.1 else none) := by
        cases hred
        exact ⟨rfl, rfl⟩
      obtain ⟨rfl, rfl⟩ := hs
      have hcts : ct.2 = CellType.Start := by
        have := List.find?_some hfind
        simpa using this
      have hctmem : ct ∈ gridCellsIdx g :=
        List.mem_reverse.mp (List.mem_of_find?_eq_some hfind)
      have hctprops := (mem_gridCellsIdx g ct.1 ct.2).mp (by simpa using hctmem)
      refine ⟨hctprops.1, by rw [← hctprops.2, hcts], ?_⟩
      intro γ
      rw [List.mem_filterMap]
      constructor
      · rintro ⟨ct', hct', hsome⟩
        by_cases h2 : ct'.2 = CellType.Goal
        · rw [if_pos h2] at hsome
          cases hsome
          have := (mem_gridCellsIdx g ct'.1 ct'.2).mp (by simpa using hct')
          exact ⟨this.1, by rw [← this.2, h2]⟩
        · rw [if_neg h2] at hsome
          cases hsome
      · rintro ⟨hin, hγ⟩
        refine ⟨(γ, CellType.Goal), ?_, by simp⟩
        exact (mem_gridCellsIdx g γ CellType.Goal).mpr ⟨hin, hγ.symm⟩

theorem alistHas_of_mem {α : Type} :
    ∀ (l : List (CellCoordinates × α)) (k : CellCoordinates) (v : α),
      (k, v) ∈ l → alistHas l k = true := by
  intro l
  induction l with
  | nil => intro k v h; cases h
  | cons e rest ih =>
    intro k v h
    obtain ⟨e1, e2⟩ := e
    rcases List.mem_cons.1 h with he | hh
    · cases he
      simp [alistHas, alistGet]
    · by_cases hk : k = e1
      · simp [alistHas, alistGet, hk]
      · simp only [alistHas, alistGet, hk, if_false]
        exact ih k v hh

theorem cf_keys_nodup (g : Grid) (start : CellCoordinates) :
    ∀ cf : CameFrom, CFInv g start cf → (cf.map Prod.fst).Nodup := by
  intro cf
  induction cf with
  | nil => intro _; simp
  | cons e rest ih =>
    intro hinv
    obtain ⟨d, src⟩ := e
    obtain ⟨_, hfresh, hrest⟩ := hinv
    rw [List.map_cons]
    refine List.nodup_cons.mpr ⟨?_, ih hrest⟩
    intro hmem
    rw [List.mem_map] at hmem
    obtain ⟨⟨k, v⟩, hkv, he⟩ := hmem
    cases he
    rw [alistHas_of_mem rest _ v hkv] at hfresh
    cases hfresh

theorem gridCellsIdx_length (g : Grid) :
    (gridCellsIdx g).length = numRows g * numCols g := by
  rw [gridCellsIdx, List.length_flatMap]
  have h1 : List.map (List.length ∘ fun (r : ℕ) =>
      (List.range (numCols g)).map fun (c : ℕ) =>
        ((⟨(r : Int), (c : Int)⟩ : CellCoordinates),
          cellAt g ⟨(r : Int), (c : Int)⟩)) (List.range (numRows g)) =
      List.map (fun _ => numCols g) (List.range (numRows g)) := by
    apply List.map_congr_left
    intro r _
    simp
  rw [h1]
  rw [List.map_const']
  rw [List.sum_replicate, List.length_range, smul_eq_mul]

theorem inbounds_nodup_length (g : Grid) (l : List CellCoordinates)
    (hnd : l.Nodup) (hin : ∀ c ∈ l, isInsideGrid c g = true) :
    l.length ≤ numRows g * numCols g := by
  have hsub : l ⊆ (gridCellsIdx g).map Prod.fst := by
    intro c hc
    rw [List.mem_map]
    exact ⟨(c, cellAt g c),
      (mem_gridCellsIdx g c (cellAt g c)).mpr ⟨hin c hc, rfl⟩, rfl⟩
  have h := nodup_subset_length l _ hnd hsub
  rwa [List.length_map, gridCellsIdx_length] at h

theorem runLoop_not_stuck (π : Type) [LinearOrder π] (g : Grid)
    (A : SearchAlg π) (start : CellCoordinates) (laws : AlgLaws π A) :
    ∀ (fuel : Nat) (container : List (Move π)) (cf : CameFrom) (aux : Aux),
      (∀ m ∈ container, MoveOK π g start cf m) → CFInv g start cf →
      (∀ m ∈ container, isInsideGrid m.destination g = true) →
      (∀ e ∈ cf, isInsideGrid e.1 g = true) →
      container.length + 4 * (numRows g * numCols g) + 1 ≤
        fuel + 4 * cf.length →
      (runLoop π g A start fuel container cf aux).2 ≠ Outcome.stuck := by
  intro fuel
  induction fuel with
  | zero =>
    intro container cf aux hmoves hinv hcin hcfin hfuel
    exfalso
    have hnd := cf_keys_nodup g start cf hinv
    have hb := inbounds_nodup_length g (cf.map Prod.fst) hnd (by
      intro c hc
      rw [List.mem_map] at hc
      obtain ⟨e, he, rfl⟩ := hc
      exact hcfin e he)
    rw [List.length_map] at hb
    omega
  | succ fuel ih =>
    intro container cf aux hmoves hinv hcin hcfin hfuel
    cases hpop : A.pop container with
    | none =>
      simp only [runLoop, hpop]
      intro h
      cases h
    | some popped =>
      obtain ⟨m, rest⟩ := popped
      simp only [runLoop, hpop]
      have hlen : container.length = rest.length + 1 := by
        have := (laws.pop_perm _ _ _ hpop).length_eq
        simpa using this
      have hsubc : ∀ m', m' ∈ rest → m' ∈ container := by
        intro m' hm'
        exact (laws.pop_perm _ _ _ hpop).symm.subset (List.mem_cons_of_mem m hm')
      by_cases hvis : alistHas cf m.destination = true
      · simp only [hvis, if_true]
        exact ih rest cf aux (fun m' hm' => hmoves m' (hsubc m' hm'))
          hinv (fun m' hm' => hcin m' (hsubc m' hm')) hcfin (by omega)
      · rw [Bool.not_eq_true] at hvis
        simp only [hvis, Bool.false_eq_true, if_false]
        obtain ⟨hinv2, hmoves2⟩ := state_step π laws hpop hmoves hinv hvis
        by_cases hgoal : cellAt g m.destination = CellType.Goal
        · simp only [hgoal, if_true]
          obtain ⟨n, hchain⟩ := cf_chain_total g start _ hinv2 m.destination
            (by simp [alistHas, alistGet])
          obtain ⟨p0, hp0, _, _, _, _, _⟩ :=
            reconstructPath_spec g start _ hinv2 hchain
          rw [hp0]
          intro h
          cases h
        · simp only [hgoal, if_false]
          set cf2 : CameFrom := (m.destination, m.source) :: cf with hcf2
          set pushed := A.gate m.destination
            (A.reorder (getValidMoves π m.destination g cf2)) aux with hpush
          have hpl : pushed.1.length ≤ 4 := by
            calc pushed.1.length ≤
                (A.reorder (getValidMoves π m.destination g cf2)).length :=
                  laws.gate_len _ _ _
              _ = (getValidMoves π m.destination g cf2).length :=
                  (laws.reorder_perm _).length_eq
              _ ≤ 4 := getValidMoves_length π _ g _
          have hmin : isInsideGrid m.destination g = true :=
            hcin m ((laws.pop_perm _ _ _ hpop).symm.subset
              (List.mem_cons_self m rest))
          refine ih (rest ++ pushed.1) cf2 pushed.2 hmoves2 hinv2 ?_ ?_ ?_
          · intro m' hm'
            rcases List.mem_append.1 hm' with hm' | hm'
            · exact hcin m' (hsubc m' hm')
            · obtain ⟨mv, hmv, hdst, _⟩ := laws.gate_moves _ _ _ _ hm'
              have hmv2 : mv ∈ getValidMoves π m.destination g cf2 :=
                (laws.reorder_perm _).subset hmv
              obtain ⟨_, _, _, hadj, _⟩ := getValidMoves_mem π _ g _ mv hmv2
              obtain ⟨off, _, _, hin, _⟩ := hadj
              rw [hdst]
              exact hin
          · intro e he
            rcases List.mem_cons.1 he with rfl | he
            · exact hmin
            · exact hcfin e he
          · have : (rest ++ pushed.1).length = rest.length + pushed.1.length :=
              List.length_append _ _
            simp only [hcf2, List.length_cons]
            omega

theorem runLoop_failure_no_goal (π : Type) [LinearOrder π] (g : Grid)
    (A : SearchAlg π) (start : CellCoordinates) :
    ∀ (fuel : Nat) (container : List (Move π)) (cf : CameFrom) (aux : Aux),
      (runLoop π g A start fuel container cf aux).2 = Outcome.failure →
      ∀ c ∈ exploreCells (runLoop π g A start fuel container cf aux).1,
        cellAt g c ≠ CellType.Goal := by
  intro fuel
  induction fuel with
  | zero => intro container cf aux hfail; cases hfail
  | succ fuel ih =>
    intro container cf aux hfail
    cases hpop : A.pop container with
    | none =>
      simp only [runLoop, hpop]
      simp [exploreCells]
    | some popped =>
      obtain ⟨m, rest⟩ := popped
      simp only [runLoop, hpop] at hfail ⊢
      by_cases hvis : alistHas cf m.destination = true
      · simp only [hvis, if_true] at hfail ⊢
        exact ih rest cf aux hfail
      · rw [Bool.not_eq_true] at hvis
        simp only [hvis, Bool.false_eq_true, if_false] at hfail ⊢
        by_cases hgoal : cellAt g m.destination = CellType.Goal
        · simp only [hgoal, if_true] at hfail
          cases hrec : reconstructPath start m.destination
              ((m.destination, m.source) :: cf) with
          | some p => rw [hrec] at hfail; cases hfail
          | none => rw [hrec] at hfail; cases hfail
        · simp only [hgoal, if_false] at hfail ⊢
          intro c hc
          rw [exploreCells_explore, exploreCells_frontier] at hc
          rcases List.mem_cons.1 hc with rfl | hc
          · exact hgoal
          · exact ih _ _ _ hfail c hc

/-- The initial frontier entry is plausible, in bounds, and initial states
are invariant-respecting. -/
theorem runSearch_not_stuck (π : Type) [LinearOrder π] (g : Grid)
    (A : SearchAlg π) (start : CellCoordinates) (aux0 : Aux)
    (laws : AlgLaws π A) (hin : isInsideGrid start g = true) :
    (runSearch π A g start aux0).2 ≠ Outcome.stuck := by
  apply runLoop_not_stuck π g A start laws (searchFuel g)
  · intro m hm
    rw [List.mem_singleton] at hm
    subst hm
    exact Or.inl ⟨rfl, rfl⟩
  · trivial
  · intro m hm
    rw [List.mem_singleton] at hm
    subst hm
    exact hin
  · intro e he
    cases he
  · rw [searchFuel]
    simp
    omega

theorem runSearch_failure_reachable (π : Type) [LinearOrder π] (g : Grid)
    (A : SearchAlg π) (start : CellCoordinates) (aux0 : Aux)
    (laws : AlgLaws π A) (hnotgoal : cellAt g start ≠ CellType.Goal)
    (haux : ∀ c, alistHas aux0.numSteps c = true → c = start)
    (hfail : (runSearch π A g start aux0).2 = Outcome.failure) :
    ∀ v, Reachable g start v →
      v ∈ exploreCells (runSearch π A g start aux0).1 := by
  have hclosed0 : ClosedInv π g [initMove π start] [] aux0.numSteps := by
    constructor
    · intro d hd
      simp [alistHas, alistGet] at hd
    · intro v hv
      right
      exact ⟨initMove π start, List.mem_singleton_self _, (haux v hv).symm⟩
  have hclosure := runLoop_complete π g A start laws (searchFuel g)
    [initMove π start] [] aux0 hclosed0 hfail
  have hstartmem : start ∈ exploreCells (runSearch π A g start aux0).1 := by
    obtain ⟨f, hf⟩ : ∃ f, searchFuel g = f + 1 :=
      ⟨4 * (numRows g * numCols g) + 2, rfl⟩
    show start ∈ exploreCells
      (runLoop π g A start (searchFuel g) [initMove π start] [] aux0).1
    rw [hf]
    cases hpop : A.pop [initMove π start] with
    | none =>
      exfalso
      have := laws.pop_none _ hpop
      cases this
    | some popped =>
      obtain ⟨m, rest⟩ := popped
      have hperm := laws.pop_perm _ _ _ hpop
      have hm : m = initMove π start := by
        have := hperm.symm.subset (List.mem_cons_self m rest)
        rw [List.mem_singleton] at this
        exact this
      subst hm
      simp only [runLoop, hpop]
      have hvis : alistHas ([] : CameFrom)
          (initMove π start).destination = false := rfl
      simp only [hvis, Bool.false_eq_true, if_false]
      have hgoal : ¬ (cellAt g (initMove π start).destination =
          CellType.Goal) := hnotgoal
      simp only [hgoal, if_false]
      rw [exploreCells_explore]
      exact List.mem_cons_self _ _
  intro v hv
  obtain ⟨n, hn⟩ := hv
  induction hn with
  | refl => exact hstartmem
  | step hr hadj ih =>
    rcases hclosure _ (Or.inr ih) _ hadj with h | h
    · cases h
    · exact h

theorem runLoop_steps_shape (π : Type) [LinearOrder π] (g : Grid)
    (A : SearchAlg π) (start : CellCoordinates) :
    ∀ (fuel : Nat) (container : List (Move π)) (cf : CameFrom) (aux : Aux),
      ∀ st ∈ (runLoop π g A start fuel container cf aux).1,
        (∃ c, st = SearchStep.explore c) ∨
        (∃ cs, st = SearchStep.frontier cs) := by
  intro fuel
  induction fuel with
  | zero => intro container cf aux st hst; cases hst
  | succ fuel ih =>
    intro container cf aux st hst
    cases hpop : A.pop container with
    | none =>
      simp only [runLoop, hpop] at hst
      cases hst
    | some popped =>
      obtain ⟨m, rest⟩ := popped
      simp only [runLoop, hpop] at hst
      by_cases hvis : alistHas cf m.destination = true
      · simp only [hvis, if_true] at hst
        exact ih rest cf aux st hst
      · rw [Bool.not_eq_true] at hvis
        simp only [hvis, Bool.false_eq_true, if_false] at hst
        by_cases hgoal : cellAt g m.destination = CellType.Goal
        · simp only [hgoal, if_true] at hst
          cases hrec : reconstructPath start m.destination
              ((m.destination, m.source) :: cf) with
          | some p =>
            rw [hrec] at hst
            replace hst : st ∈ [SearchStep.explore m.destination] := hst
            rw [List.mem_singleton] at hst
            exact Or.inl ⟨_, hst⟩
          | none =>
            rw [hrec] at hst
            replace hst : st ∈ [SearchStep.explore m.destination] := hst
            rw [List.mem_singleton] at hst
            exact Or.inl ⟨_, hst⟩
        · simp only [hgoal, if_false] at hst
          rcases List.mem_cons.1 hst with rfl | hst
          · exact Or.inl ⟨_, rfl⟩
          · rcases List.mem_cons.1 hst with rfl | hst
            · exact Or.inr ⟨_, rfl⟩
            · exact ih _ _ _ st hst

/-! ### `resetVisualization` preserves the structure of the grid -/

theorem resetVisualization_numRows (g : Grid) :
    numRows (resetVisualization g) = numRows g := by
  simp [resetVisualization, numRows]

theorem resetVisualization_numCols (g : Grid) :
    numCols (resetVisualization g) = numCols g := by
  cases g with
  | nil => rfl
  | cons row rows => simp [resetVisualization, numCols]

theorem resetVisualization_cellAt (g : Grid) (c : CellCoordinates) :
    cellAt (resetVisualization g) c = resetCell (cellAt g c) := by
  have h1 : ∀ (l : List (List CellType)) (i : Nat),
      (l.map fun row => row.map fun cell =>
        if cell ∈ preservedTypes then cell else CellType.Unexplored).getD
          i [] =
      (l.getD i []).map fun cell =>
        if cell ∈ preservedTypes then cell else CellType.Unexplored := by
    intro l i
    rw [List.getD_eq_getElem?_getD, List.getElem?_map,
      List.getD_eq_getElem?_getD]
    cases l[i]? with
    | none => rfl
    | some row => rfl
  have h2 : ∀ (row : List CellType) (j : Nat),
      (row.map fun cell =>
        if cell ∈ preservedTypes then cell else CellType.Unexplored).getD j
          CellType.Unexplored =
      resetCell (row.getD j CellType.Unexplored) := by
    intro row j
    rw [List.getD_eq_getElem?_getD, List.getElem?_map,
      List.getD_eq_getElem?_getD]
    cases row[j]? with
    | none => simp [resetCell, preservedTypes]
    | some cell => rfl
  by_cases hsign : 0 ≤ c.row ∧ 0 ≤ c.col
  · rw [cellAt, if_pos hsign, cellAt, if_pos hsign, resetVisualization,
      h1, h2]
  · rw [cellAt, if_neg hsign, cellAt, if_neg hsign]
    simp [resetCell, preservedTypes]

theorem resetCell_wall (t : CellType) :
    resetCell t = CellType.Wall ↔ t = CellType.Wall := by
  cases t <;> simp [resetCell, preservedTypes]

theorem resetCell_goal (t : CellType) :
    resetCell t = CellType.Goal ↔ t = CellType.Goal := by
  cases t <;> simp [resetCell, preservedTypes]

theorem resetCell_start (t : CellType) :
    resetCell t = CellType.Start ↔ t = CellType.Start := by
  cases t <;> simp [resetCell, preservedTypes]

theorem resetVisualization_isInside (c : CellCoordinates) (g : Grid) :
    isInsideGrid c (resetVisualization g) = isInsideGrid c g := by
  rw [isInsideGrid, isInsideGrid, resetVisualization_numRows,
    resetVisualization_numCols]

theorem resetVisualization_adjacent (g : Grid) (u v : CellCoordinates) :
    adjacent (resetVisualization g) u v ↔ adjacent g u v := by
  constructor
  · rintro ⟨off, hoff, hv, hin, hw⟩
    rw [resetVisualization_isInside] at hin
    rw [resetVisualization_cellAt] at hw
    refine ⟨off, hoff, hv, hin, ?_⟩
    intro hc
    exact hw ((resetCell_wall _).mpr hc)
  · rintro ⟨off, hoff, hv, hin, hw⟩
    refine ⟨off, hoff, hv, by rw [resetVisualization_isInside]; exact hin, ?_⟩
    rw [resetVisualization_cellAt]
    intro hc
    exact hw ((resetCell_wall _).mp hc)

theorem resetVisualization_reachable (g : Grid) (s v : CellCoordinates) :
    Reachable (resetVisualization g) s v ↔ Reachable g s v := by
  constructor
  · rintro ⟨n, hn⟩
    refine ⟨n, ?_⟩
    induction hn with
    | refl => exact ReachIn.refl
    | step hr hadj ih =>
      exact ih.step ((resetVisualization_adjacent g _ _).mp hadj)
  · rintro ⟨n, hn⟩
    refine ⟨n, ?_⟩
    induction hn with
    | refl => exact ReachIn.refl
    | step hr hadj ih =>
      exact ih.step ((resetVisualization_adjacent g _ _).mpr hadj)

theorem resetVisualization_gridCellsIdx (g : Grid) :
    gridCellsIdx (resetVisualization g) =
      (gridCellsIdx g).map fun ct => (ct.1, resetCell ct.2) := by
  rw [gridCellsIdx, gridCellsIdx, resetVisualization_numRows,
    resetVisualization_numCols, List.map_flatMap]
  show (List.range (numRows g)).flatMap _ = (List.range (numRows g)).flatMap _
  rw [show ∀ (l : List Nat)
      (f : Nat → List (CellCoordinates × CellType)), l.flatMap f =
        (l.map f).flatten from fun _ _ => rfl]
  rw [show ∀ (l : List Nat)
      (f : Nat → List (CellCoordinates × CellType)), l.flatMap f =
        (l.map f).flatten from fun _ _ => rfl]
  congr 1
  apply List.map_congr_left
  intro r _
  rw [List.map_map]
  apply List.map_congr_left
  intro c _
  rw [Function.comp_apply]
  rw [resetVisualization_cellAt]

theorem resetVisualization_findStartAndGoals (g : Grid) :
    findStartAndGoals (resetVisualization g) = findStartAndGoals g := by
  rw [findStartAndGoals_eq, findStartAndGoals_eq,
    resetVisualization_gridCellsIdx]
  rw [← List.map_reverse, List.find?_map, List.filterMap_map]
  have hp : ((fun ct => decide (ct.2 = CellType.Start)) ∘
      fun (ct : CellCoordinates × CellType) => (ct.1, resetCell ct.2)) =
      fun (ct : CellCoordinates × CellType) =>
        decide (ct.2 = CellType.Start) := by
    funext ct
    simp only [Function.comp_apply]
    by_cases h : ct.2 = CellType.Start
    · simp [h, resetCell, preservedTypes]
    · have h2 : ¬ (resetCell ct.2 = CellType.Start) :=
        fun hc => h ((resetCell_start _).mp hc)
      simp [h, h2]
  have hq : ((fun ct => if ct.2 = CellType.Goal then some ct.1 else none) ∘
      fun (ct : CellCoordinates × CellType) => (ct.1, resetCell ct.2)) =
      fun (ct : CellCoordinates × CellType) =>
        if ct.2 = CellType.Goal then some ct.1 else none := by
    funext ct
    simp only [Function.comp_apply]
    by_cases h : ct.2 = CellType.Goal
    · simp [h, resetCell, preservedTypes]
    · have h2 : ¬ (resetCell ct.2 = CellType.Goal) :=
        fun hc => h ((resetCell_goal _).mp hc)
      simp [h, h2]
  rw [hp, hq]
  cases (gridCellsIdx g).reverse.find?
      (fun ct => decide (ct.2 = CellType.Start)) with
  | none => rfl
  | some ct => rfl

theorem runLoop_not_invalid (π : Type) [LinearOrder π] (g : Grid)
    (A : SearchAlg π) (start : CellCoordinates) :
    ∀ (fuel : Nat) (container : List (Move π)) (cf : CameFrom) (aux : Aux),
      (runLoop π g A start fuel container cf aux).2 ≠ Outcome.invalid := by
  intro fuel
  induction fuel with
  | zero => intro container cf aux h; cases h
  | succ fuel ih =>
    intro container cf aux
    cases hpop : A.pop container with
    | none =>
      simp only [runLoop, hpop]
      intro h
      cases h
    | some popped =>
      obtain ⟨m, rest⟩ := popped
      simp only [runLoop, hpop]
      by_cases hvis : alistHas cf m.destination = true
      · simp only [hvis, if_true]
        exact ih rest cf aux
      · rw [Bool.not_eq_true] at hvis
        simp only [hvis, Bool.false_eq_true, if_false]
        by_cases hgoal : cellAt g m.destination = CellType.Goal
        · simp only [hgoal, if_true]
          cases reconstructPath start m.destination
              ((m.destination, m.source) :: cf) with
          | some p => intro h; cases h
          | none => intro h; cases h
        · simp only [hgoal, if_false]
          exact ih _ _ _

theorem aux_start_only (s : CellCoordinates) :
    ∀ c, alistHas ([(s, 0)] : List (CellCoordinates × Nat)) c = true →
      c = s := by
  intro c hc
  by_cases h : c = s
  · exact h
  · simp [alistHas, alistGet, h] at hc

theorem aux_empty_only (s : CellCoordinates) :
    ∀ c, alistHas ([] : List (CellCoordinates × Nat)) c = true → c = s := by
  intro c hc
  simp [alistHas, alistGet] at hc

/-- Case analysis over the six algorithms: each either fails validation or
runs the generic loop with a law-abiding strategy. -/
theorem ALGORITHMS_elim (g : Grid) (P : List SearchStep × Outcome → Prop)
    (herr : ∀ e, findStartAndGoals g = .error e → P ([], Outcome.invalid))
    (hrun : ∀ (π : Type) (inst : LinearOrder π) (A : SearchAlg π)
        (s : CellCoordinates) (goals : List CellCoordinates) (aux0 : Aux),
      findStartAndGoals g = .ok (s, goals) → AlgLaws π A →
      (∀ c, alistHas aux0.numSteps c = true → c = s) →
      P (runSearch π A g s aux0)) :
    ∀ alg, P (ALGORITHMS alg g) := by
  intro alg
  cases alg with
  | DepthFirstSearch =>
    show P (depthFirstSearch g)
    rw [depthFirstSearch]
    cases hfs : findStartAndGoals g with
    | error e => exact herr e hfs
    | ok sg =>
      obtain ⟨s, gls⟩ := sg
      exact hrun ℕ _ dfsStrategy s gls _ hfs dfsStrategy_laws
        (aux_empty_only s)
  | BreadthFirstSearch =>
    show P (breadthFirstSearch g)
    rw [breadthFirstSearch]
    cases hfs : findStartAndGoals g with
    | error e => exact herr e hfs
    | ok sg =>
      obtain ⟨s, gls⟩ := sg
      exact hrun ℕ _ bfsStrategy s gls _ hfs bfsStrategy_laws
        (aux_empty_only s)
  | GreedyBestFirstSearch =>
    show P (greedyBestFirstSearch g)
    rw [greedyBestFirstSearch]
    cases hfs : findStartAndGoals g with
    | error e => exact herr e hfs
    | ok sg =>
      obtain ⟨s, gls⟩ := sg
      exact hrun ℕ _ (greedyStrategy gls) s gls _ hfs
        (greedyStrategy_laws gls) (aux_empty_only s)
  | AStar =>
    show P (aStar g)
    rw [aStar]
    cases hfs : findStartAndGoals g with
    | error e => exact herr e hfs
    | ok sg =>
      obtain ⟨s, gls⟩ := sg
      exact hrun ℕ _ (aStarStrategy gls) s gls _ hfs
        (aStarStrategy_laws gls) (aux_start_only s)
  | OpenSearch =>
    show P (openSearch g)
    rw [openSearch]
    cases hfs : findStartAndGoals g with
    | error e => exact herr e hfs
    | ok sg =>
      obtain ⟨s, gls⟩ := sg
      exact hrun ℕ _ (openStrategy g) s gls _ hfs
        (openStrategy_laws g) (aux_empty_only s)
  | StraightLineAStar =>
    show P (straightLineAStar g)
    rw [straightLineAStar]
    cases hfs : findStartAndGoals g with
    | error e => exact herr e hfs
    | ok sg =>
      obtain ⟨s, gls⟩ := sg
      exact hrun ℝ _ (straightStrategy gls) s gls _ hfs
        (straightStrategy_laws gls) (aux_start_only s)

theorem findStartAndGoals_goals_ne_nil (g : Grid) (s : CellCoordinates)
    (goals : List CellCoordinates)
    (hok : findStartAndGoals g = .ok (s, goals)) : goals ≠ [] := by
  have hred := findStartAndGoals_eq g
  cases hfind : (gridCellsIdx g).reverse.find?
      (fun ct => decide (ct.2 = CellType.Start)) with
  | none =>
    rw [hfind] at hred
    replace hred : findStartAndGoals g =
      .error "Could not find the starting cell" := hred
    rw [hok] at hred
    cases hred
  | some ct =>
    rw [hfind] at hred
    replace hred : findStartAndGoals g =
      if (gridCellsIdx g).filterMap
          (fun ct => if ct.2 = CellType.Goal then some ct.1 else none) = []
      then .error "Could not find any goals"
      else .ok (ct.1, (gridCellsIdx g).filterMap
        (fun ct => if ct.2 = CellType.Goal then some ct.1 else none)) := hred
    by_cases hgl : (gridCellsIdx g).filterMap
        (fun ct => if ct.2 = CellType.Goal then some ct.1 else none) = []
    · rw [if_pos hgl, hok] at hred
      cases hred
    · rw [if_neg hgl, hok] at hred
      have : goals = (gridCellsIdx g).filterMap
          (fun ct => if ct.2 = CellType.Goal then some ct.1 else none) := by
        cases hred
        rfl
      rw [this]
      exact hgl

/-- A single run on a grid whose goals are all unreachable: the run fails,
yields no `path` step, and explores exactly the reachable set. -/
theorem unreachable_single_run (g : Grid) (s : CellCoordinates)
    (goals : List CellCoordinates)
    (hok : findStartAndGoals g = .ok (s, goals))
    (hunreach : ∀ c, cellAt g c = CellType.Goal → ¬ Reachable g s c) :
    ∀ alg : Algorithm,
      (ALGORITHMS alg g).2 = Outcome.failure ∧
      (∀ st ∈ (ALGORITHMS alg g).1, ∀ p, st ≠ SearchStep.path p) ∧
      (∀ c, c ∈ exploreCells (ALGORITHMS alg g).1 ↔ Reachable g s c) := by
  apply ALGORITHMS_elim g (fun res => res.2 = Outcome.failure ∧
    (∀ st ∈ res.1, ∀ p, st ≠ SearchStep.path p) ∧
    (∀ c, c ∈ exploreCells res.1 ↔ Reachable g s c))
  · intro e herr
    rw [herr] at hok
    cases hok
  · intro π inst A s' goals' aux0 hfs laws hauxp
    rw [hfs] at hok
    have hs : s' = s := by cases hok; rfl
    subst hs
    obtain ⟨hin, hstart, _⟩ := findStartAndGoals_ok_props g s' goals' hfs
    have hmoves0 : ∀ m ∈ [initMove π s'], MoveOK π g s' [] m := by
      intro m hm
      rw [List.mem_singleton] at hm
      subst hm
      exact Or.inl ⟨rfl, rfl⟩
    have hsound := runLoop_sound π g A s' laws (searchFuel g)
      [initMove π s'] [] aux0 hmoves0 trivial
    have hfail : (runSearch π A g s' aux0).2 = Outcome.failure := by
      cases hout : (runSearch π A g s' aux0).2 with
      | path p =>
        exfalso
        obtain ⟨γ, _, _, hγgoal, _, _, _, hreach⟩ := hsound.2 p hout
        exact hunreach γ hγgoal ⟨_, hreach⟩
      | failure => rfl
      | invalid => exact absurd hout (runLoop_not_invalid π g A s' _ _ _ _)
      | stuck => exact absurd hout (runSearch_not_stuck π g A s' aux0 laws hin)
    refine ⟨hfail, ?_, ?_⟩
    · intro st hst p
      rcases runLoop_steps_shape π g A s' _ _ _ _ st hst with ⟨c, rfl⟩ | ⟨cs, rfl⟩
      · intro h; cases h
      · intro h; cases h
    · intro c
      constructor
      · exact fun hc => hsound.1 c hc
      · intro hc
        apply runSearch_failure_reachable π g A s' aux0 laws ?_ hauxp hfail
        · exact hc
        · rw [hstart]
          intro h
          cases h

/-- C3: on a grid in which no `Goal` cell is reachable from the start, every
one of the six algorithms terminates with the unreachable-goal outcome
(`Outcome.failure`, the "Could not find any path to a goal" throw), never
produces a `path` step, and emits `explore` steps for exactly the set of
cells reachable from the start; the multi-goal orchestrator runs only the
first leg — the failure aborts all remaining legs — and its output is
exactly that leg's already-emitted steps, unchanged. -/
theorem unreachable_goal_all_algorithms (g : Grid) (s : CellCoordinates)
    (goals : List CellCoordinates)
    (hok : findStartAndGoals g = .ok (s, goals))
    (hunreach : ∀ c, cellAt g c = CellType.Goal → ¬ Reachable g s c) :
    ∀ alg : Algorithm,
      (ALGORITHMS alg g).2 = Outcome.failure ∧
      (∀ st ∈ (ALGORITHMS alg g).1, ∀ p, st ≠ SearchStep.path p) ∧
      (∀ c, c ∈ exploreCells (ALGORITHMS alg g).1 ↔ Reachable g s c) ∧
      findPath g alg = .ok ((ALGORITHMS alg (resetVisualization g)).1) ∧
      (ALGORITHMS alg (resetVisualization g)).2 = Outcome.failure ∧
      (∀ st ∈ (ALGORITHMS alg (resetVisualization g)).1,
        ∀ p, st ≠ SearchStep.path p) := by
  have hokr : findStartAndGoals (resetVisualization g) = .ok (s, goals) := by
    rw [resetVisualization_findStartAndGoals]
    exact hok
  have hunr : ∀ c, cellAt (resetVisualization g) c = CellType.Goal →
      ¬ Reachable (resetVisualization g) s c := by
    intro c hc hr
    rw [resetVisualization_cellAt, resetCell_goal] at hc
    rw [resetVisualization_reachable] at hr
    exact hunreach c hc hr
  intro alg
  obtain ⟨f1, f2, f3⟩ := unreachable_single_run g s goals hok hunreach alg
  obtain ⟨r1, r2, _⟩ :=
    unreachable_single_run _ s goals hokr hunr alg
  refine ⟨f1, f2, f3, ?_, r1, r2⟩
  have hfp : findPath g alg =
      .ok (findPathLoop (ALGORITHMS alg) goals.length g none) := by
    rw [findPath, hok]
  obtain ⟨k, hk⟩ : ∃ k, goals.length = k + 1 := by
    cases goals with
    | nil => exact absurd rfl (findStartAndGoals_goals_ne_nil g s [] hok)
    | cons a l => exact ⟨l.length, rfl⟩
  rw [hfp, hk]
  simp only [findPathLoop]
  rw [r1]
  rfl

/-- Witness for the unreachable-goal claim: on the 1×3 grid
`[Start, Wall, Goal]` the goal is walled off, and breadth-first search ends
with the failure outcome. -/
theorem unreachable_goal_all_algorithms_witness :
    (ALGORITHMS Algorithm.BreadthFirstSearch
      [[CellType.Start, CellType.Wall, CellType.Goal]]).2 = Outcome.failure := by
  have hadj : ∀ v, ¬ adjacent [[CellType.Start, CellType.Wall, CellType.Goal]]
      ⟨0, 0⟩ v := by
    rintro v ⟨off, hoff, hv, hin, hw⟩
    simp only [offsetList, directionList, DIRECTION_TO_OFFSET, List.map_cons,
      List.map_nil, List.mem_cons, List.not_mem_nil, or_false] at hoff
    rcases hoff with h | h | h | h <;> subst h <;> subst hv <;> revert hin hw <;>
      decide
  have hreach : ∀ c,
      Reachable [[CellType.Start, CellType.Wall, CellType.Goal]] ⟨0, 0⟩ c →
        c = ⟨0, 0⟩ := by
    rintro c ⟨n, hn⟩
    induction hn with
    | refl => rfl
    | step hr ha ih =>
      rw [ih] at ha
      exact absurd ha (hadj _)
  exact (unreachable_goal_all_algorithms
    [[CellType.Start, CellType.Wall, CellType.Goal]] ⟨0, 0⟩ [⟨0, 2⟩]
    (by decide)
    (fun c hc hr => by
      rw [hreach c hr] at hc
      exact absurd hc (by decide))
    Algorithm.BreadthFirstSearch).1

/-! ### C8: direction round-trip -/

theorem getDirections_eq_from (path : List CellCoordinates) :
    getDirections path = getDirectionsFrom [] path := rfl

theorem getDirection_of_offsetList (off : Int × Int) (h : off ∈ offsetList) :
    ∃ d, getDirection off = some d ∧ DIRECTION_TO_OFFSET d = off := by
  simp only [offsetList, directionList, DIRECTION_TO_OFFSET, List.map_cons,
    List.map_nil, List.mem_cons, List.not_mem_nil, or_false] at h
  rcases h with rfl | rfl | rfl | rfl
  · exact ⟨Direction.Up, by decide, by decide⟩
  · exact ⟨Direction.Left, by decide, by decide⟩
  · exact ⟨Direction.Down, by decide, by decide⟩
  · exact ⟨Direction.Right, by decide, by decide⟩

theorem mem_of_mem_dropLast {α : Type} :
    ∀ (l : List α) (x : α), x ∈ l.dropLast → x ∈ l := by
  intro l
  induction l with
  | nil =>
    intro x hx
    cases hx
  | cons a rest ih =>
    cases rest with
    | nil =>
      intro x hx
      cases hx
    | cons b rest' =>
      intro x hx
      have hdl : (a :: b :: rest').dropLast = a :: (b :: rest').dropLast := rfl
      rw [hdl, List.mem_cons] at hx
      rcases hx with rfl | hx
      · exact List.mem_cons_self _ _
      · exact List.mem_cons_of_mem _ (ih x hx)

theorem getDirectionsFrom_walk (g : Grid) :
    ∀ (p : List CellCoordinates) (acc : List (CellCoordinates × Direction)),
      List.Chain' (adjacent g) p → p.Nodup →
      ∃ dirs, getDirectionsFrom acc p = some dirs ∧
        (∀ k, k ∉ p.dropLast → alistGet dirs k = alistGet acc k) ∧
        (∀ a, p.head? = some a → walkByDirections dirs a p.length = p) := by
  intro p
  induction p with
  | nil =>
    intro acc _ _
    refine ⟨acc, rfl, fun k _ => rfl, ?_⟩
    intro a ha
    cases ha
  | cons a rest ih =>
    cases rest with
    | nil =>
      intro acc _ _
      refine ⟨acc, rfl, fun k _ => rfl, ?_⟩
      intro a' ha'
      rw [List.head?_cons, Option.some.injEq] at ha'
      subst ha'
      show walkByDirections acc a 1 = [a]
      rw [walkByDirections]
      cases alistGet acc a <;> rfl
    | cons b rest' =>
      intro acc hchain hnd
      obtain ⟨hab, hchain2⟩ := List.chain'_cons.mp hchain
      have hnd2 : (b :: rest').Nodup := hnd.of_cons
      have hamem : a ∉ b :: rest' := (List.nodup_cons.mp hnd).1
      obtain ⟨off, hoff, hb, _, _⟩ := hab
      have hoffeq : (b.row - a.row, b.col - a.col) = off := by
        rw [hb]
        show (a.row + off.1 - a.row, a.col + off.2 - a.col) = off
        have h1 : a.row + off.1 - a.row = off.1 := by ring
        have h2 : a.col + off.2 - a.col = off.2 := by ring
        rw [h1, h2]
      obtain ⟨d, hd, hdoff⟩ := getDirection_of_offsetList off hoff
      have hstep : getDirectionsFrom acc (a :: b :: rest') =
          getDirectionsFrom (alistSet acc a d) (b :: rest') := by
        show ((getDirection (b.row - a.row, b.col - a.col)).map
            (fun d0 => alistSet acc a d0)).bind
            (fun acc2 => getDirectionsFrom acc2 (b :: rest')) =
          getDirectionsFrom (alistSet acc a d) (b :: rest')
        rw [hoffeq, hd]
        rfl
      obtain ⟨dirs, hfold, hframe, hwalk⟩ := ih (alistSet acc a d) hchain2 hnd2
      refine ⟨dirs, by rw [hstep]; exact hfold, ?_, ?_⟩
      · intro k hk
        have hdl : (a :: b :: rest').dropLast = a :: (b :: rest').dropLast :=
          rfl
        rw [hdl, List.mem_cons] at hk
        push_neg at hk
        obtain ⟨hka, hkrest⟩ := hk
        rw [hframe k hkrest]
        exact alistGet_set_ne acc a k d hka
      · intro a' ha'
        rw [List.head?_cons, Option.some.injEq] at ha'
        subst ha'
        have hget : alistGet dirs a = some d := by
          have hnotin : a ∉ (b :: rest').dropLast := fun hmem =>
            hamem (mem_of_mem_dropLast _ _ hmem)
          rw [hframe a hnotin]
          exact alistGet_set_self acc a d
        have hlen : (a :: b :: rest').length = (b :: rest').length + 1 := rfl
        rw [hlen, walkByDirections, hget]
        show a :: walkByDirections dirs (applyOffset a (DIRECTION_TO_OFFSET d))
            (b :: rest').length = a :: b :: rest'
        have happ : applyOffset a (DIRECTION_TO_OFFSET d) = b := by
          rw [hdoff]
          exact hb.symm
        rw [happ, hwalk b rfl]

/-- C8: for every path returned by any of the six algorithms, computing the
per-cell travel directions with `getDirections` succeeds, and walking from
the path's first cell by repeatedly applying the direction recorded for the
current cell reproduces exactly the original path. -/
theorem path_directions_roundtrip (g : Grid) (alg : Algorithm)
    (p : List CellCoordinates)
    (hpath : (ALGORITHMS alg g).2 = Outcome.path p) :
    ∃ dirs a, getDirections p = some dirs ∧ p.head? = some a ∧
      walkByDirections dirs a p.length = p := by
  have hfacts : ∀ q, (ALGORITHMS alg g).2 = Outcome.path q →
      List.Chain' (adjacent g) q ∧ q.Nodup ∧ ∃ s0, q.head? = some s0 := by
    refine ALGORITHMS_elim g
      (fun res => ∀ q, res.2 = Outcome.path q →
        List.Chain' (adjacent g) q ∧ q.Nodup ∧ ∃ s0, q.head? = some s0)
      ?_ ?_ alg
    · intro e _ q hq
      cases hq
    · intro π inst A s goals aux0 hok laws haux q hq
      have hmoves : ∀ m ∈ ([initMove π s] : List (Move π)),
          MoveOK π g s [] m := by
        intro m hm
        rw [List.mem_singleton] at hm
        subst hm
        exact Or.inl ⟨rfl, rfl⟩
      have hinv : CFInv g s ([] : CameFrom) := by trivial
      obtain ⟨_, hp⟩ := runLoop_sound π g A s laws (searchFuel g)
        [initMove π s] [] aux0 hmoves hinv
      obtain ⟨γ, hhead, hlast, hgoal, hchn, hnd2, hlen, hreach⟩ := hp q hq
      exact ⟨hchn, hnd2, s, hhead⟩
  obtain ⟨hchn, hnd, s0, hhead⟩ := hfacts p hpath
  obtain ⟨dirs, hfold, _, hwalk⟩ := getDirectionsFrom_walk g p [] hchn hnd
  refine ⟨dirs, s0, ?_, hhead, hwalk s0 hhead⟩
  rw [getDirections_eq_from]
  exact hfold

/-- Witness for the round-trip claim: on the 1×2 grid `[Start, Goal]`,
breadth-first search returns the path `[(0,0), (0,1)]`, whose directions
walk back to the same path. -/
theorem path_directions_roundtrip_witness :
    ∃ dirs a,
      getDirections [(⟨0, 0⟩ : CellCoordinates), ⟨0, 1⟩] = some dirs ∧
      ([(⟨0, 0⟩ : CellCoordinates), ⟨0, 1⟩]).head? = some a ∧
      walkByDirections dirs a
        ([(⟨0, 0⟩ : CellCoordinates), ⟨0, 1⟩]).length =
        [(⟨0, 0⟩ : CellCoordinates), ⟨0, 1⟩] :=
  path_directions_roundtrip [[CellType.Start, CellType.Goal]]
    Algorithm.BreadthFirstSearch [⟨0, 0⟩, ⟨0, 1⟩] (by decide)

/-! ### C2 (amended): wall, start and goal protection -/

theorem cellCoord_ext (a b : CellCoordinates) (h1 : a.row = b.row)
    (h2 : a.col = b.col) : a = b := by
  cases a
  cases b
  cases h1
  cases h2
  rfl

theorem listSet_oob {α : Type} :
    ∀ (l : List α) (i : Nat) (a : α), l.length ≤ i → l.set i a = l := by
  intro l
  induction l with
  | nil => intro i a _; rfl
  | cons x xs ih =>
    intro i a hi
    cases i with
    | zero => simp at hi
    | succ i2 =>
      show x :: xs.set i2 a = x :: xs
      rw [ih i2 a (by simp only [List.length_cons] at hi; omega)]

theorem listGetD_set_ne {α : Type} :
    ∀ (l : List α) (i j : Nat) (a dflt : α), i ≠ j →
      (l.set i a).getD j dflt = l.getD j dflt := by
  intro l
  induction l with
  | nil => intro i j a dflt _; rfl
  | cons x xs ih =>
    intro i j a dflt hij
    cases i with
    | zero =>
      cases j with
      | zero => exact absurd rfl hij
      | succ j2 => rfl
    | succ i2 =>
      cases j with
      | zero => rfl
      | succ j2 =>
        show (xs.set i2 a).getD j2 dflt = xs.getD j2 dflt
        exact ih i2 j2 a dflt (fun h => hij (by rw [h]))

theorem listGetD_set_self {α : Type} :
    ∀ (l : List α) (i : Nat) (a dflt : α), i < l.length →
      (l.set i a).getD i dflt = a := by
  intro l
  induction l with
  | nil =>
    intro i a dflt h
    simp at h
  | cons x xs ih =>
    intro i a dflt h
    cases i with
    | zero => rfl
    | succ i2 =>
      show (xs.set i2 a).getD i2 dflt = a
      exact ih i2 a dflt (by simp only [List.length_cons] at h; omega)

theorem listGetD_oob {α : Type} :
    ∀ (l : List α) (i : Nat) (dflt : α), l.length ≤ i →
      l.getD i dflt = dflt := by
  intro l
  induction l with
  | nil => intro i dflt _; cases i <;> rfl
  | cons x xs ih =>
    intro i dflt h
    cases i with
    | zero => simp at h
    | succ i2 =>
      show xs.getD i2 dflt = dflt
      exact ih i2 dflt (by simp only [List.length_cons] at h; omega)

theorem cellAt_setCell_ne (g : Grid) (c c' : CellCoordinates) (t : CellType)
    (hnn : 0 ≤ c.row ∧ 0 ≤ c.col) (hne : c' ≠ c) :
    cellAt (setCell g c t) c' = cellAt g c' := by
  simp only [cellAt, setCell]
  by_cases h' : 0 ≤ c'.row ∧ 0 ≤ c'.col
  · rw [if_pos h', if_pos h']
    by_cases hr : c.row.toNat = c'.row.toNat
    · have hroweq : c'.row = c.row := by omega
      have hcolne : c'.col.toNat ≠ c.col.toNat := by
        have hcc : c'.col ≠ c.col := fun hc => hne (cellCoord_ext _ _ hroweq hc)
        omega
      by_cases hlt : c.row.toNat < g.length
      · rw [← hr, listGetD_set_self g c.row.toNat _ [] hlt,
          listGetD_set_ne _ c.col.toNat c'.col.toNat t CellType.Unexplored
            (Ne.symm hcolne)]
      · rw [listSet_oob g c.row.toNat _ (by omega)]
    · rw [listGetD_set_ne g c.row.toNat c'.row.toNat _ [] hr]
  · rw [if_neg h', if_neg h']

theorem cellAt_setCell_self (g : Grid) (c : CellCoordinates) (t : CellType)
    (h : cellAt g c ≠ CellType.Unexplored) :
    cellAt (setCell g c t) c = t := by
  simp only [cellAt] at h
  by_cases hnn : 0 ≤ c.row ∧ 0 ≤ c.col
  · rw [if_pos hnn] at h
    have hr : c.row.toNat < g.length := by
      by_contra hge
      rw [listGetD_oob g _ [] (by omega)] at h
      exact h rfl
    have hcl : c.col.toNat < (g.getD c.row.toNat []).length := by
      by_contra hge
      rw [listGetD_oob _ _ CellType.Unexplored (by omega)] at h
      exact h rfl
    simp only [cellAt, setCell, if_pos hnn]
    rw [listGetD_set_self g c.row.toNat _ [] hr,
      listGetD_set_self _ c.col.toNat t CellType.Unexplored hcl]
  · rw [if_neg hnn] at h
    exact absurd rfl h

theorem gridRel_refl (g : Grid) : GridRel g g := by
  intro c
  refine ⟨Iff.rfl, fun h => Or.inl h, fun h => h, ?_⟩
  rintro (h | h)
  · exact Or.inl h
  · exact Or.inr (Or.inl h)

theorem gridRel_reset (g g' : Grid) (h : GridRel g g') :
    GridRel g (resetVisualization g') := by
  intro c
  obtain ⟨hw, hs, hg, hb⟩ := h c
  rw [resetVisualization_cellAt]
  refine ⟨?_, ?_, ?_, ?_⟩
  · rw [resetCell_wall]
    exact hw
  · rw [resetCell_start]
    exact hs
  · rw [resetCell_goal]
    exact hg
  · intro hh
    rcases hb hh with h1 | h1 | h1
    · rw [h1]
      exact Or.inl (by decide)
    · rw [h1]
      exact Or.inr (Or.inl (by decide))
    · rw [h1]
      exact Or.inr (Or.inr (by decide))

theorem gridRel_rewrite (g grid0 : Grid) (a b : CellCoordinates)
    (hrel : GridRel g grid0)
    (ha : cellAt grid0 a = CellType.Start)
    (hb : cellAt grid0 b = CellType.Goal) :
    GridRel g
      (setCell (setCell (resetVisualization grid0) a CellType.Unexplored) b
        CellType.Start) := by
  have hab : a ≠ b := by
    intro h
    rw [h, hb] at ha
    cases ha
  have hrel1 : GridRel g (resetVisualization grid0) :=
    gridRel_reset g grid0 hrel
  have hra : cellAt (resetVisualization grid0) a = CellType.Start := by
    rw [resetVisualization_cellAt, ha]
    decide
  have hrb : cellAt (resetVisualization grid0) b = CellType.Goal := by
    rw [resetVisualization_cellAt, hb]
    decide
  have hann : 0 ≤ a.row ∧ 0 ≤ a.col := by
    by_contra hneg
    simp only [cellAt] at ha
    rw [if_neg hneg] at ha
    cases ha
  have hbnn : 0 ≤ b.row ∧ 0 ≤ b.col := by
    by_contra hneg
    simp only [cellAt] at hb
    rw [if_neg hneg] at hb
    cases hb
  have hval_b : cellAt
      (setCell (setCell (resetVisualization grid0) a CellType.Unexplored) b
        CellType.Start) b = CellType.Start := by
    apply cellAt_setCell_self
    rw [cellAt_setCell_ne _ a b CellType.Unexplored hann (Ne.symm hab), hrb]
    decide
  have hval_a : cellAt
      (setCell (setCell (resetVisualization grid0) a CellType.Unexplored) b
        CellType.Start) a = CellType.Unexplored := by
    rw [cellAt_setCell_ne _ b a CellType.Start hbnn hab]
    exact cellAt_setCell_self _ a CellType.Unexplored (by rw [hra]; decide)
  have hval_other : ∀ c, c ≠ a → c ≠ b →
      cellAt
        (setCell (setCell (resetVisualization grid0) a CellType.Unexplored) b
          CellType.Start) c = cellAt (resetVisualization grid0) c := by
    intro c hca hcb
    rw [cellAt_setCell_ne _ b c CellType.Start hbnn hcb,
      cellAt_setCell_ne _ a c CellType.Unexplored hann hca]
  intro c
  by_cases hcb : c = b
  · subst hcb
    have hgb : cellAt g c = CellType.Goal := (hrel c).2.2.1 hb
    refine ⟨?_, ?_, ?_, ?_⟩
    · rw [hval_b, hgb]
      exact ⟨(fun h => nomatch h), (fun h => nomatch h)⟩
    · intro _
      exact Or.inr hgb
    · rw [hval_b]
      intro h
      cases h
    · intro _
      rw [hval_b]
      exact Or.inl rfl
  · by_cases hca : c = a
    · subst hca
      have hga := (hrel c).2.1 ha
      refine ⟨?_, ?_, ?_, ?_⟩
      · rw [hval_a]
        refine ⟨(fun h => nomatch h), fun h => ?_⟩
        rcases hga with h1 | h1 <;> rw [h1] at h <;> cases h
      · rw [hval_a]
        intro h
        cases h
      · rw [hval_a]
        intro h
        cases h
      · intro _
        rw [hval_a]
        exact Or.inr (Or.inr rfl)
    · obtain ⟨hw, hs, hgg, hbb⟩ := hrel1 c
      rw [hval_other c hca hcb]
      exact ⟨hw, hs, hgg, hbb⟩

theorem chain_adjacent_not_wall (g : Grid) :
    ∀ (p : List CellCoordinates), List.Chain' (adjacent g) p →
      (∀ a, p.head? = some a → cellAt g a ≠ CellType.Wall) →
      ∀ c ∈ p, cellAt g c ≠ CellType.Wall := by
  intro p
  induction p with
  | nil =>
    intro _ _ c hc
    cases hc
  | cons a rest ih =>
    intro hchn hhead c hc
    rcases List.mem_cons.mp hc with rfl | hc
    · exact hhead c rfl
    · cases rest with
      | nil => cases hc
      | cons b rest2 =>
        obtain ⟨hab, hchn2⟩ := List.chain'_cons.mp hchn
        refine ih hchn2 ?_ c hc
        intro b' hb'
        rw [List.head?_cons, Option.some.injEq] at hb'
        subst hb'
        obtain ⟨off, hoff, hveq, hin, hw⟩ := hab
        exact hw

theorem runLoop_cells_not_wall (π : Type) [LinearOrder π] (g : Grid)
    (A : SearchAlg π) (start : CellCoordinates) (laws : AlgLaws π A) :
    ∀ (fuel : Nat) (container : List (Move π)) (cf : CameFrom) (aux : Aux),
      (∀ m ∈ container, cellAt g m.destination ≠ CellType.Wall) →
      ∀ st ∈ (runLoop π g A start fuel container cf aux).1,
        (∀ c, st = SearchStep.explore c → cellAt g c ≠ CellType.Wall) ∧
        (∀ cs, st = SearchStep.frontier cs →
          ∀ c ∈ cs, cellAt g c ≠ CellType.Wall) := by
  intro fuel
  induction fuel with
  | zero =>
    intro container cf aux _ st hst
    cases hst
  | succ fuel ih =>
    intro container cf aux hcont st hst
    cases hpop : A.pop container with
    | none =>
      simp only [runLoop, hpop] at hst
      cases hst
    | some popped =>
      obtain ⟨m, rest⟩ := popped
      have hperm := laws.pop_perm container m rest hpop
      have hmdest : cellAt g m.destination ≠ CellType.Wall :=
        hcont m (hperm.symm.subset (List.mem_cons_self _ _))
      have hrest : ∀ m' ∈ rest, cellAt g m'.destination ≠ CellType.Wall :=
        fun m' hm' => hcont m' (hperm.symm.subset (List.mem_cons_of_mem _ hm'))
      simp only [runLoop, hpop] at hst
      by_cases hvis : alistHas cf m.destination = true
      · simp only [hvis, if_true] at hst
        exact ih rest cf aux hrest st hst
      · rw [Bool.not_eq_true] at hvis
        simp only [hvis, Bool.false_eq_true, if_false] at hst
        by_cases hgoal : cellAt g m.destination = CellType.Goal
        · simp only [hgoal, if_true] at hst
          cases hrec : reconstructPath start m.destination
              ((m.destination, m.source) :: cf) with
          | some p =>
            rw [hrec] at hst
            replace hst : st ∈ [SearchStep.explore m.destination] := hst
            rw [List.mem_singleton] at hst
            subst hst
            refine ⟨?_, ?_⟩
            · intro c hc
              cases hc
              exact hmdest
            · intro cs hcs
              cases hcs
          | none =>
            rw [hrec] at hst
            replace hst : st ∈ [SearchStep.explore m.destination] := hst
            rw [List.mem_singleton] at hst
            subst hst
            refine ⟨?_, ?_⟩
            · intro c hc
              cases hc
              exact hmdest
            · intro cs hcs
              cases hcs
        · simp only [hgoal, if_false] at hst
          have hvalid : ∀ m' ∈ A.reorder (getValidMoves π m.destination g
              ((m.destination, m.source) :: cf)),
              cellAt g m'.destination ≠ CellType.Wall := by
            intro m' hm'
            have hmem := (laws.reorder_perm _).subset hm'
            obtain ⟨_, _, _, hadj, _⟩ :=
              getValidMoves_mem π m.destination g _ m' hmem
            obtain ⟨off, hoff, hveq, hin, hw⟩ := hadj
            exact hw
          rcases List.mem_cons.1 hst with rfl | hst
          · refine ⟨?_, ?_⟩
            · intro c hc
              cases hc
              exact hmdest
            · intro cs hcs
              cases hcs
          · rcases List.mem_cons.1 hst with rfl | hst
            · refine ⟨?_, ?_⟩
              · intro c hc
                cases hc
              · intro cs hcs
                cases hcs
                intro c hc
                rw [List.mem_map] at hc
                obtain ⟨m', hm', rfl⟩ := hc
                exact hvalid m' hm'
            · refine ih _ _ _ ?_ st hst
              intro m' hm'
              rcases List.mem_append.1 hm' with hm' | hm'
              · exact hrest m' hm'
              · obtain ⟨m2, hm2, hdest, _⟩ :=
                  laws.gate_moves m.destination _ _ m' hm'
                rw [hdest]
                exact hvalid m2 hm2

theorem ALGORITHMS_steps_shape (g : Grid) (alg : Algorithm) :
    ∀ st ∈ (ALGORITHMS alg g).1,
      (∃ c, st = SearchStep.explore c) ∨
      (∃ cs, st = SearchStep.frontier cs) := by
  refine ALGORITHMS_elim g
    (fun res => ∀ st ∈ res.1,
      (∃ c, st = SearchStep.explore c) ∨ (∃ cs, st = SearchStep.frontier cs))
    ?_ ?_ alg
  · intro e _ st hst
    cases hst
  · intro π inst A s goals aux0 hok laws haux st hst
    exact runLoop_steps_shape π g A s (searchFuel g) [initMove π s] [] aux0
      st hst

theorem ALGORITHMS_steps_not_wall (g : Grid) (alg : Algorithm) :
    ∀ st ∈ (ALGORITHMS alg g).1,
      (∀ c, st = SearchStep.explore c → cellAt g c ≠ CellType.Wall) ∧
      (∀ cs, st = SearchStep.frontier cs →
        ∀ c ∈ cs, cellAt g c ≠ CellType.Wall) := by
  refine ALGORITHMS_elim g
    (fun res => ∀ st ∈ res.1,
      (∀ c, st = SearchStep.explore c → cellAt g c ≠ CellType.Wall) ∧
      (∀ cs, st = SearchStep.frontier cs →
        ∀ c ∈ cs, cellAt g c ≠ CellType.Wall))
    ?_ ?_ alg
  · intro e _ st hst
    cases hst
  · intro π inst A s goals aux0 hok laws haux st hst
    obtain ⟨_, hstart, _⟩ := findStartAndGoals_ok_props g s goals hok
    refine runLoop_cells_not_wall π g A s laws (searchFuel g)
      [initMove π s] [] aux0 ?_ st hst
    intro m hm
    rw [List.mem_singleton] at hm
    subst hm
    rw [initMove]
    intro hwall
    rw [hstart] at hwall
    cases hwall

theorem ALGORITHMS_path_facts (g : Grid) (alg : Algorithm)
    (p : List CellCoordinates)
    (hpath : (ALGORITHMS alg g).2 = Outcome.path p) :
    ∃ s0 γ, p.head? = some s0 ∧ p.getLast? = some γ ∧
      cellAt g s0 = CellType.Start ∧ cellAt g γ = CellType.Goal ∧
      List.Chain' (adjacent g) p ∧ p.Nodup ∧ 1 ≤ p.length := by
  refine ALGORITHMS_elim g
    (fun res => ∀ q, res.2 = Outcome.path q →
      ∃ s0 γ, q.head? = some s0 ∧ q.getLast? = some γ ∧
        cellAt g s0 = CellType.Start ∧ cellAt g γ = CellType.Goal ∧
        List.Chain' (adjacent g) q ∧ q.Nodup ∧ 1 ≤ q.length)
    ?_ ?_ alg p hpath
  · intro e _ q hq
    cases hq
  · intro π inst A s goals aux0 hok laws haux q hq
    obtain ⟨_, hstart, _⟩ := findStartAndGoals_ok_props g s goals hok
    have hmoves : ∀ m ∈ ([initMove π s] : List (Move π)),
        MoveOK π g s [] m := by
      intro m hm
      rw [List.mem_singleton] at hm
      subst hm
      exact Or.inl ⟨rfl, rfl⟩
    have hinv : CFInv g s ([] : CameFrom) := by trivial
    obtain ⟨_, hp⟩ := runLoop_sound π g A s laws (searchFuel g)
      [initMove π s] [] aux0 hmoves hinv
    obtain ⟨γ, hhead, hlast, hgoal, hchn, hnd2, hlen, _⟩ := hp q hq
    exact ⟨s, γ, hhead, hlast, hstart, hgoal, hchn, hnd2, hlen⟩

theorem leg_steps_props (g gs : Grid) (alg : Algorithm) (hrel : GridRel g gs) :
    (∀ st ∈ (ALGORITHMS alg gs).1,
      (∀ c, st = SearchStep.explore c → cellAt g c ≠ CellType.Wall) ∧
      (∀ cs, st = SearchStep.frontier cs →
        ∀ c ∈ cs, cellAt g c ≠ CellType.Wall) ∧
      (∀ p, st = SearchStep.path p → ∀ c ∈ p, cellAt g c ≠ CellType.Wall) ∧
      (∀ g2, st = SearchStep.grid g2 → GridRel g g2)) ∧
    (∀ p, (ALGORITHMS alg gs).2 = Outcome.path p →
      (∀ c ∈ p, cellAt g c ≠ CellType.Wall) ∧
      ∀ a b, p.head? = some a → p.getLast? = some b →
        cellAt gs a = CellType.Start ∧ cellAt gs b = CellType.Goal) := by
  have htrans : ∀ c, cellAt gs c ≠ CellType.Wall →
      cellAt g c ≠ CellType.Wall :=
    fun c h hw => h ((hrel c).1.mpr hw)
  constructor
  · intro st hst
    obtain ⟨hex, hfr⟩ := ALGORITHMS_steps_not_wall gs alg st hst
    refine ⟨fun c hc => htrans c (hex c hc),
      fun cs hcs c hc => htrans c (hfr cs hcs c hc), ?_, ?_⟩
    · intro p hp
      rcases ALGORITHMS_steps_shape gs alg st hst with ⟨c0, rfl⟩ | ⟨cs0, rfl⟩ <;>
        cases hp
    · intro g2 hg2
      rcases ALGORITHMS_steps_shape gs alg st hst with ⟨c0, rfl⟩ | ⟨cs0, rfl⟩ <;>
        cases hg2
  · intro p hp
    obtain ⟨s0, γ, hhead, hlast, hstart, hgoal, hchn, hnd, hlen⟩ :=
      ALGORITHMS_path_facts gs alg p hp
    constructor
    · intro c hc
      refine htrans c (chain_adjacent_not_wall gs p hchn ?_ c hc)
      intro a ha
      rw [hhead, Option.some.injEq] at ha
      subst ha
      intro hw
      rw [hstart] at hw
      cases hw
    · intro a b ha hb
      rw [hhead, Option.some.injEq] at ha
      rw [hlast, Option.some.injEq] at hb
      subst ha
      subst hb
      exact ⟨hstart, hgoal⟩

theorem findPathLoop_props (g : Grid) (alg : Algorithm) :
    ∀ (legs : Nat) (grid0 : Grid)
      (prev : Option (CellCoordinates × CellCoordinates)),
      GridRel g grid0 →
      (∀ a b, prev = some (a, b) →
        cellAt grid0 a = CellType.Start ∧ cellAt grid0 b = CellType.Goal) →
      ∀ st ∈ findPathLoop (ALGORITHMS alg) legs grid0 prev,
        (∀ c, st = SearchStep.explore c → cellAt g c ≠ CellType.Wall) ∧
        (∀ cs, st = SearchStep.frontier cs →
          ∀ c ∈ cs, cellAt g c ≠ CellType.Wall) ∧
        (∀ p, st = SearchStep.path p → ∀ c ∈ p, cellAt g c ≠ CellType.Wall) ∧
        (∀ g2, st = SearchStep.grid g2 → GridRel g g2) := by
  intro legs
  induction legs with
  | zero =>
    intro grid0 prev _ _ st hst
    cases hst
  | succ legs ih =>
    intro grid0 prev hrel hprev st hst
    cases prev with
    | none =>
      have hrel1 : GridRel g (resetVisualization grid0) :=
        gridRel_reset g grid0 hrel
      obtain ⟨hsteps, hpath⟩ :=
        leg_steps_props g (resetVisualization grid0) alg hrel1
      simp only [findPathLoop, List.nil_append] at hst
      cases hout : (ALGORITHMS alg (resetVisualization grid0)).2 with
      | path p =>
        simp only [hout] at hst
        cases hh : p.head? with
        | none =>
          cases hl : p.getLast? with
          | none =>
            simp only [hh, hl] at hst
            rcases List.mem_append.1 hst with hst | hst
            · exact hsteps st hst
            · rw [List.mem_singleton] at hst
              subst hst
              refine ⟨?_, ?_, ?_, ?_⟩
              · intro c hc
                cases hc
              · intro cs hcs
                cases hcs
              · intro p0 hp0
                cases hp0
                exact (hpath p hout).1
              · intro g2 hg2
                cases hg2
          | some b0 =>
            simp only [hh, hl] at hst
            rcases List.mem_append.1 hst with hst | hst
            · exact hsteps st hst
            · rw [List.mem_singleton] at hst
              subst hst
              refine ⟨?_, ?_, ?_, ?_⟩
              · intro c hc
                cases hc
              · intro cs hcs
                cases hcs
              · intro p0 hp0
                cases hp0
                exact (hpath p hout).1
              · intro g2 hg2
                cases hg2
        | some a0 =>
          cases hl : p.getLast? with
          | none =>
            simp only [hh, hl] at hst
            rcases List.mem_append.1 hst with hst | hst
            · exact hsteps st hst
            · rw [List.mem_singleton] at hst
              subst hst
              refine ⟨?_, ?_, ?_, ?_⟩
              · intro c hc
                cases hc
              · intro cs hcs
                cases hcs
              · intro p0 hp0
                cases hp0
                exact (hpath p hout).1
              · intro g2 hg2
                cases hg2
          | some b0 =>
            simp only [hh, hl] at hst
            rcases List.mem_append.1 hst with hst | hst
            · rcases List.mem_append.1 hst with hst | hst
              · exact hsteps st hst
              · rw [List.mem_singleton] at hst
                subst hst
                refine ⟨?_, ?_, ?_, ?_⟩
                · intro c hc
                  cases hc
                · intro cs hcs
                  cases hcs
                · intro p0 hp0
                  cases hp0
                  exact (hpath p hout).1
                · intro g2 hg2
                  cases hg2
            · refine ih (resetVisualization grid0) (some (a0, b0)) hrel1 ?_
                st hst
              intro a1 b1 heq
              cases heq
              exact (hpath p hout).2 a0 b0 hh hl
      | failure =>
        simp only [hout] at hst
        exact hsteps st hst
      | invalid =>
        simp only [hout] at hst
        exact hsteps st hst
      | stuck =>
        simp only [hout] at hst
        exact hsteps st hst
    | some prevpair =>
      obtain ⟨a, b⟩ := prevpair
      obtain ⟨ha, hb⟩ := hprev a b rfl
      have hrel2 : GridRel g
          (setCell (setCell (resetVisualization grid0) a CellType.Unexplored)
            b CellType.Start) :=
        gridRel_rewrite g grid0 a b hrel ha hb
      obtain ⟨hsteps, hpath⟩ := leg_steps_props g _ alg hrel2
      simp only [findPathLoop] at hst
      cases hout : (ALGORITHMS alg
          (setCell (setCell (resetVisualization grid0) a CellType.Unexplored)
            b CellType.Start)).2 with
      | path p =>
        simp only [hout] at hst
        cases hh : p.head? with
        | none =>
          cases hl : p.getLast? with
          | none =>
            simp only [hh, hl] at hst
            rcases List.mem_append.1 hst with hst | hst
            · rcases List.mem_append.1 hst with hst | hst
              · rw [List.mem_singleton] at hst
                subst hst
                refine ⟨?_, ?_, ?_, ?_⟩
                · intro c hc
                  cases hc
                · intro cs hcs
                  cases hcs
                · intro p0 hp0
                  cases hp0
                · intro g2 hg2
                  cases hg2
                  exact hrel2
              · exact hsteps st hst
            · rw [List.mem_singleton] at hst
              subst hst
              refine ⟨?_, ?_, ?_, ?_⟩
              · intro c hc
                cases hc
              · intro cs hcs
                cases hcs
              · intro p0 hp0
                cases hp0
                exact (hpath p hout).1
              · intro g2 hg2
                cases hg2
          | some b0 =>
            simp only [hh, hl] at hst
            rcases List.mem_append.1 hst with hst | hst
            · rcases List.mem_append.1 hst with hst | hst
              · rw [List.mem_singleton] at hst
                subst hst
                refine ⟨?_, ?_, ?_, ?_⟩
                · intro c hc
                  cases hc
                · intro cs hcs
                  cases hcs
                · intro p0 hp0
                  cases hp0
                · intro g2 hg2
                  cases hg2
                  exact hrel2
              · exact hsteps st hst
            · rw [List.mem_singleton] at hst
              subst hst
              refine ⟨?_, ?_, ?_, ?_⟩
              · intro c hc
                cases hc
              · intro cs hcs
                cases hcs
              · intro p0 hp0
                cases hp0
                exact (hpath p hout).1
              · intro g2 hg2
                cases hg2
        | some a0 =>
          cases hl : p.getLast? with
          | none =>
            simp only [hh, hl] at hst
            rcases List.mem_append.1 hst with hst | hst
            · rcases List.mem_append.1 hst with hst | hst
              · rw [List.mem_singleton] at hst
                subst hst
                refine ⟨?_, ?_, ?_, ?_⟩
                · intro c hc
                  cases hc
                · intro cs hcs
                  cases hcs
                · intro p0 hp0
                  cases hp0
                · intro g2 hg2
                  cases hg2
                  exact hrel2
              · exact hsteps st hst
            · rw [List.mem_singleton] at hst
              subst hst
              refine ⟨?_, ?_, ?_, ?_⟩
              · intro c hc
                cases hc
              · intro cs hcs
                cases hcs
              · intro p0 hp0
                cases hp0
                exact (hpath p hout).1
              · intro g2 hg2
                cases hg2
          | some b0 =>
            simp only [hh, hl] at hst
            rcases List.mem_append.1 hst with hst | hst
            · rcases List.mem_append.1 hst with hst | hst
              · rcases List.mem_append.1 hst with hst | hst
                · rw [List.mem_singleton] at hst
                  subst hst
                  refine ⟨?_, ?_, ?_, ?_⟩
                  · intro c hc
                    cases hc
                  · intro cs hcs
                    cases hcs
                  · intro p0 hp0
                    cases hp0
                  · intro g2 hg2
                    cases hg2
                    exact hrel2
                · exact hsteps st hst
              · rw [List.mem_singleton] at hst
                subst hst
                refine ⟨?_, ?_, ?_, ?_⟩
                · intro c hc
                  cases hc
                · intro cs hcs
                  cases hcs
                · intro p0 hp0
                  cases hp0
                  exact (hpath p hout).1
                · intro g2 hg2
                  cases hg2
            · refine ih _ (some (a0, b0)) hrel2 ?_ st hst
              intro a1 b1 heq
              cases heq
              exact (hpath p hout).2 a0 b0 hh hl
      | failure =>
        simp only [hout] at hst
        rcases List.mem_append.1 hst with hst | hst
        · rw [List.mem_singleton] at hst
          subst hst
          refine ⟨?_, ?_, ?_, ?_⟩
          · intro c hc
            cases hc
          · intro cs hcs
            cases hcs
          · intro p0 hp0
            cases hp0
          · intro g2 hg2
            cases hg2
            exact hrel2
        · exact hsteps st hst
      | invalid =>
        simp only [hout] at hst
        rcases List.mem_append.1 hst with hst | hst
        · rw [List.mem_singleton] at hst
          subst hst
          refine ⟨?_, ?_, ?_, ?_⟩
          · intro c hc
            cases hc
          · intro cs hcs
            cases hcs
          · intro p0 hp0
            cases hp0
          · intro g2 hg2
            cases hg2
            exact hrel2
        · exact hsteps st hst
      | stuck =>
        simp only [hout] at hst
        rcases List.mem_append.1 hst with hst | hst
        · rw [List.mem_singleton] at hst
          subst hst
          refine ⟨?_, ?_, ?_, ?_⟩
          · intro c hc
            cases hc
          · intro cs hcs
            cases hcs
          · intro p0 hp0
            cases hp0
          · intro g2 hg2
            cases hg2
            exact hrel2
        · exact hsteps st hst

/-- C2 (amended): for every run of the orchestrator on a valid grid, no
emitted step targets a cell that was `Wall` in the input grid (`explore`,
`frontier` and `path` steps mention only non-wall cells), every grid carried
by a snapshot step has exactly the walls of the input grid, and every cell
that was `Start` or `Goal` in the input grid is `Start`, `Goal` or
`Unexplored` in every snapshot — the markings move only through the
documented between-leg goal-to-start rewrite. -/
theorem findPath_wall_start_goal_protection (g : Grid) (alg : Algorithm)
    (steps : List SearchStep) (hok : findPath g alg = .ok steps) :
    ∀ st ∈ steps,
      (∀ c, st = SearchStep.explore c → cellAt g c ≠ CellType.Wall) ∧
      (∀ cs, st = SearchStep.frontier cs →
        ∀ c ∈ cs, cellAt g c ≠ CellType.Wall) ∧
      (∀ p, st = SearchStep.path p → ∀ c ∈ p, cellAt g c ≠ CellType.Wall) ∧
      (∀ g2, st = SearchStep.grid g2 → ∀ c,
        (cellAt g2 c = CellType.Wall ↔ cellAt g c = CellType.Wall) ∧
        ((cellAt g c = CellType.Start ∨ cellAt g c = CellType.Goal) →
          cellAt g2 c = CellType.Start ∨ cellAt g2 c = CellType.Goal ∨
            cellAt g2 c = CellType.Unexplored)) := by
  cases hfs : findStartAndGoals g with
  | error e =>
    rw [findPath, hfs] at hok
    cases hok
  | ok sg =>
    obtain ⟨s, goals⟩ := sg
    rw [findPath, hfs] at hok
    replace hok : (Except.ok
        (findPathLoop (ALGORITHMS alg) goals.length g none) :
          Except String (List SearchStep)) =
        Except.ok steps := hok
    cases hok
    intro st hst
    obtain ⟨h1, h2, h3, h4⟩ := findPathLoop_props g alg goals.length g none
      (gridRel_refl g) (fun a b h => nomatch h) st hst
    refine ⟨h1, h2, h3, ?_⟩
    intro g2 hg2 c
    obtain ⟨hw, _, _, hb⟩ := h4 g2 hg2 c
    exact ⟨hw, hb⟩

/-- Witness for the amended protection claim, on the 1×2 grid
`[Start, Goal]` with breadth-first search: the second explore step of the
run targets a non-wall cell of the input grid. -/
theorem findPath_wall_start_goal_protection_witness :
    cellAt [[CellType.Start, CellType.Goal]] ⟨0, 1⟩ ≠ CellType.Wall :=
  (findPath_wall_start_goal_protection [[CellType.Start, CellType.Goal]]
    Algorithm.BreadthFirstSearch
    [SearchStep.explore ⟨0, 0⟩, SearchStep.frontier [⟨0, 1⟩],
      SearchStep.explore ⟨0, 1⟩, SearchStep.path [⟨0, 0⟩, ⟨0, 1⟩]]
    (by decide) (SearchStep.explore ⟨0, 1⟩) (by decide)).1 ⟨0, 1⟩ rfl

/-! ### C9: the engine never mutates the caller's grid (heap model) -/

theorem listGet?_mem {α : Type} :
    ∀ (l : List α) (n : Nat) (a : α), l.get? n = some a → a ∈ l := by
  intro l
  induction l with
  | nil =>
    intro n a h
    cases n <;> cases h
  | cons x xs ih =>
    intro n a h
    cases n with
    | zero =>
      cases h
      exact List.mem_cons_self _ _
    | succ n2 =>
      exact List.mem_cons_of_mem _ (ih n2 a h)

theorem resetVisualizationH_spec :
    ∀ (g : List Nat) (h : Heap), (∀ r ∈ g, r < h.next) →
      h.next ≤ (resetVisualizationH h g).1.next ∧
      (∀ i, i < h.next → (resetVisualizationH h g).1.rows i = h.rows i) ∧
      (∀ r ∈ (resetVisualizationH h g).2,
        h.next ≤ r ∧ r < (resetVisualizationH h g).1.next) ∧
      readGrid (resetVisualizationH h g).1 (resetVisualizationH h g).2 =
        resetVisualization (readGrid h g) := by
  intro g
  induction g with
  | nil =>
    intro h _
    exact ⟨le_refl _, fun i _ => rfl,
      fun r hr => absurd hr (List.not_mem_nil r), rfl⟩
  | cons r0 rs ih =>
    intro h hvalid
    have hvalid2 : ∀ r ∈ rs,
        r < (allocRow h ((h.rows r0).map resetCell)).1.next := by
      intro r hr
      have := hvalid r (List.mem_cons_of_mem _ hr)
      show r < h.next + 1
      omega
    obtain ⟨ih1, ih2, ih3, ih4⟩ :=
      ih (allocRow h ((h.rows r0).map resetCell)).1 hvalid2
    have hanext : (allocRow h ((h.rows r0).map resetCell)).1.next =
        h.next + 1 := rfl
    simp only [resetVisualizationH]
    refine ⟨?_, ?_, ?_, ?_⟩
    · omega
    · intro i hi
      rw [ih2 i (by omega)]
      show (if i = h.next then (h.rows r0).map resetCell else h.rows i) =
        h.rows i
      rw [if_neg (by omega)]
    · intro r hr
      rcases List.mem_cons.1 hr with rfl | hr
      · have ha2 : (allocRow h ((h.rows r0).map resetCell)).2 = h.next := rfl
        rw [ha2]
        exact ⟨le_refl _, by omega⟩
      · obtain ⟨hr1, hr2⟩ := ih3 r hr
        exact ⟨by omega, hr2⟩
    · show (resetVisualizationH (allocRow h ((h.rows r0).map resetCell)).1
          rs).1.rows h.next ::
        readGrid (resetVisualizationH
          (allocRow h ((h.rows r0).map resetCell)).1 rs).1
          (resetVisualizationH
            (allocRow h ((h.rows r0).map resetCell)).1 rs).2 =
        resetVisualization (h.rows r0 :: readGrid h rs)
      have hrow : (resetVisualizationH
          (allocRow h ((h.rows r0).map resetCell)).1 rs).1.rows h.next =
          (h.rows r0).map resetCell := by
        rw [ih2 h.next (by omega)]
        show (if h.next = h.next then (h.rows r0).map resetCell
          else h.rows h.next) = (h.rows r0).map resetCell
        rw [if_pos rfl]
      rw [hrow, ih4]
      have hread : readGrid (allocRow h ((h.rows r0).map resetCell)).1 rs =
          readGrid h rs := by
        simp only [readGrid]
        apply List.map_congr_left
        intro r hr
        show (if r = h.next then (h.rows r0).map resetCell else h.rows r) =
          h.rows r
        rw [if_neg (by have := hvalid r (List.mem_cons_of_mem _ hr); omega)]
      rw [hread]
      simp only [resetVisualization, List.map_cons, resetCell]
      rfl

theorem writeCellH_frame (h : Heap) (g : List Nat) (c : CellCoordinates)
    (t : CellType) (n : Nat) (hg : ∀ r ∈ g, n ≤ r) :
    (writeCellH h g c t).next = h.next ∧
    ∀ i, i < n → (writeCellH h g c t).rows i = h.rows i := by
  cases hget : g.get? c.row.toNat with
  | none =>
    have hred : writeCellH h g c t = h := by
      simp only [writeCellH, hget]
    rw [hred]
    exact ⟨rfl, fun i _ => rfl⟩
  | some ref =>
    have href : ref ∈ g := listGet?_mem g _ ref hget
    have hn : n ≤ ref := hg ref href
    have hred : writeCellH h g c t =
        ⟨h.next, fun i => if i = ref then (h.rows ref).set c.col.toNat t
          else h.rows i⟩ := by
      simp only [writeCellH, hget]
    rw [hred]
    refine ⟨rfl, ?_⟩
    intro i hi
    show (if i = ref then (h.rows ref).set c.col.toNat t else h.rows i) =
      h.rows i
    rw [if_neg (by omega)]

theorem legWrites_frame (h1 : Heap) (g1 : List Nat)
    (prev : Option (CellCoordinates × CellCoordinates)) (n : Nat)
    (hg : ∀ r ∈ g1, n ≤ r) :
    (legWrites h1 g1 prev).next = h1.next ∧
    ∀ i, i < n → (legWrites h1 g1 prev).rows i = h1.rows i := by
  cases prev with
  | none => exact ⟨rfl, fun i _ => rfl⟩
  | some pq =>
    obtain ⟨ps, pg⟩ := pq
    obtain ⟨hw1, hf1⟩ := writeCellH_frame h1 g1 ps CellType.Unexplored n hg
    obtain ⟨hw2, hf2⟩ := writeCellH_frame
      (writeCellH h1 g1 ps CellType.Unexplored) g1 pg CellType.Start n hg
    refine ⟨?_, ?_⟩
    · show (writeCellH (writeCellH h1 g1 ps CellType.Unexplored) g1 pg
        CellType.Start).next = h1.next
      rw [hw2, hw1]
    · intro i hi
      show (writeCellH (writeCellH h1 g1 ps CellType.Unexplored) g1 pg
        CellType.Start).rows i = h1.rows i
      rw [hf2 i hi, hf1 i hi]

theorem findPathLoopH_frame (search : Grid → List SearchStep × Outcome) :
    ∀ (legs : Nat) (h : Heap) (g : List Nat)
      (prev : Option (CellCoordinates × CellCoordinates)),
      (∀ r ∈ g, r < h.next) →
      h.next ≤ (findPathLoopH search legs h g prev).1.next ∧
      (∀ i, i < h.next →
        (findPathLoopH search legs h g prev).1.rows i = h.rows i) := by
  intro legs
  induction legs with
  | zero =>
    intro h g prev hv
    exact ⟨le_refl _, fun i _ => rfl⟩
  | succ legs ih =>
    intro h g prev hv
    obtain ⟨hn1, hf1, hfresh, _⟩ := resetVisualizationH_spec g h hv
    obtain ⟨hwn, hwf⟩ := legWrites_frame (resetVisualizationH h g).1
      (resetVisualizationH h g).2 prev h.next
      (fun r hr => (hfresh r hr).1)
    have hnext2 : h.next ≤
        (legWrites (resetVisualizationH h g).1 (resetVisualizationH h g).2
          prev).next := by
      rw [hwn]
      exact hn1
    have hframe2 : ∀ i, i < h.next →
        (legWrites (resetVisualizationH h g).1 (resetVisualizationH h g).2
          prev).rows i = h.rows i := by
      intro i hi
      rw [hwf i hi, hf1 i hi]
    have hvalid2 : ∀ r ∈ (resetVisualizationH h g).2,
        r < (legWrites (resetVisualizationH h g).1
          (resetVisualizationH h g).2 prev).next := by
      intro r hr
      rw [hwn]
      exact (hfresh r hr).2
    simp only [findPathLoopH]
    cases hout : (search (readGrid
        (legWrites (resetVisualizationH h g).1 (resetVisualizationH h g).2
          prev) (resetVisualizationH h g).2)).2 with
    | path p =>
      simp only [hout]
      cases hh : p.head? with
      | none =>
        cases hl : p.getLast? with
        | none =>
          simp only [hh, hl]
          exact ⟨hnext2, hframe2⟩
        | some b0 =>
          simp only [hh, hl]
          exact ⟨hnext2, hframe2⟩
      | some a0 =>
        cases hl : p.getLast? with
        | none =>
          simp only [hh, hl]
          exact ⟨hnext2, hframe2⟩
        | some b0 =>
          simp only [hh, hl]
          obtain ⟨ihn, ihf⟩ := ih
            (legWrites (resetVisualizationH h g).1
              (resetVisualizationH h g).2 prev)
            (resetVisualizationH h g).2 (some (a0, b0)) hvalid2
          refine ⟨le_trans hnext2 ihn, ?_⟩
          intro i hi
          rw [ihf i (by omega), hframe2 i hi]
    | failure =>
      simp only [hout]
      exact ⟨hnext2, hframe2⟩
    | invalid =>
      simp only [hout]
      exact ⟨hnext2, hframe2⟩
    | stuck =>
      simp only [hout]
      exact ⟨hnext2, hframe2⟩

/-- C9: in the heap model of `findPath` and its grid transformations, the
engine never mutates a grid supplied by the caller: after any number of
legs (run here with an arbitrary search function, covering all six
algorithms), every reference allocated before the call still holds exactly
its old contents, so the caller's retained grid reads back unchanged; and
`resetVisualization` returns a freshly allocated grid that denotes the pure
`resetVisualization` of its input while writing no existing reference. -/
theorem findPath_never_mutates_caller_grid
    (search : Grid → List SearchStep × Outcome) (legs : Nat) (h : Heap)
    (g : List Nat) (hvalid : ∀ r ∈ g, r < h.next) :
    readGrid (findPathLoopH search legs h g none).1 g = readGrid h g ∧
    (∀ i, i < h.next →
      (findPathLoopH search legs h g none).1.rows i = h.rows i) ∧
    readGrid (resetVisualizationH h g).1 (resetVisualizationH h g).2 =
      resetVisualization (readGrid h g) ∧
    (∀ i, i < h.next →
      (resetVisualizationH h g).1.rows i = h.rows i) := by
  obtain ⟨_, hloopf⟩ := findPathLoopH_frame search legs h g none hvalid
  obtain ⟨_, hresetf, _, hcorr⟩ := resetVisualizationH_spec g h hvalid
  refine ⟨?_, hloopf, hcorr, hresetf⟩
  simp only [readGrid]
  apply List.map_congr_left
  intro r hr
  exact hloopf r (hvalid r hr)

/-- Witness for the no-mutation claim: a two-row caller grid in a concrete
heap, run for two legs with breadth-first search. -/
theorem findPath_never_mutates_caller_grid_witness :
    readGrid (findPathLoopH (ALGORITHMS Algorithm.BreadthFirstSearch) 2
        ⟨2, fun i => if i = 0 then [CellType.Start, CellType.Goal]
          else [CellType.Goal, CellType.Wall]⟩ [0, 1] none).1 [0, 1] =
      readGrid
        ⟨2, fun i => if i = 0 then [CellType.Start, CellType.Goal]
          else [CellType.Goal, CellType.Wall]⟩ [0, 1] ∧
    (∀ i, i < (2 : Nat) →
      (findPathLoopH (ALGORITHMS Algorithm.BreadthFirstSearch) 2
        ⟨2, fun i => if i = 0 then [CellType.Start, CellType.Goal]
          else [CellType.Goal, CellType.Wall]⟩ [0, 1] none).1.rows i =
        (fun i => if i = 0 then [CellType.Start, CellType.Goal]
          else [CellType.Goal, CellType.Wall]) i) ∧
    readGrid (resetVisualizationH
        ⟨2, fun i => if i = 0 then [CellType.Start, CellType.Goal]
          else [CellType.Goal, CellType.Wall]⟩ [0, 1]).1
        (resetVisualizationH
          ⟨2, fun i => if i = 0 then [CellType.Start, CellType.Goal]
            else [CellType.Goal, CellType.Wall]⟩ [0, 1]).2 =
      resetVisualization (readGrid
        ⟨2, fun i => if i = 0 then [CellType.Start, CellType.Goal]
          else [CellType.Goal, CellType.Wall]⟩ [0, 1]) ∧
    (∀ i, i < (2 : Nat) →
      (resetVisualizationH
        ⟨2, fun i => if i = 0 then [CellType.Start, CellType.Goal]
          else [CellType.Goal, CellType.Wall]⟩ [0, 1]).1.rows i =
        (fun i => if i = 0 then [CellType.Start, CellType.Goal]
          else [CellType.Goal, CellType.Wall]) i) :=
  findPath_never_mutates_caller_grid
    (ALGORITHMS Algorithm.BreadthFirstSearch) 2
    ⟨2, fun i => if i = 0 then [CellType.Start, CellType.Goal]
      else [CellType.Goal, CellType.Wall]⟩ [0, 1] (by decide)

/-! ### C1: shortest-path machinery -/

theorem minDist_unique (g : Grid) (s v : CellCoordinates) {n m : Nat}
    (h1 : MinDist g s v n) (h2 : MinDist g s v m) : n = m :=
  le_antisymm (h1.2 m h2.1) (h2.2 n h1.1)

theorem exists_minDist (g : Grid) (s v : CellCoordinates)
    (h : Reachable g s v) : ∃ n, MinDist g s v n := by
  classical
  exact ⟨Nat.find h, Nat.find_spec h, fun m hm => Nat.find_min' h hm⟩

theorem minDist_self (g : Grid) (s : CellCoordinates) : MinDist g s s 0 :=
  ⟨ReachIn.refl, fun m _ => Nat.zero_le m⟩

theorem reachIn_zero (g : Grid) (s v : CellCoordinates)
    (h : ReachIn g s v 0) : v = s := by
  cases h
  rfl

theorem reachIn_succ (g : Grid) (s v : CellCoordinates) (n : Nat)
    (h : ReachIn g s v (n + 1)) :
    ∃ u, ReachIn g s u n ∧ adjacent g u v := by
  cases h with
  | step hr ha => exact ⟨_, hr, ha⟩

theorem minDist_pred (g : Grid) (s v : CellCoordinates) (k : Nat)
    (h : MinDist g s v (k + 1)) :
    ∃ u, adjacent g u v ∧ MinDist g s u k := by
  obtain ⟨hr, hmin⟩ := h
  obtain ⟨u, hu, hadj⟩ := reachIn_succ g s v k hr
  refine ⟨u, hadj, hu, ?_⟩
  intro m hm
  by_contra hlt
  push_neg at hlt
  have hstep : ReachIn g s v (m + 1) := hm.step hadj
  have := hmin (m + 1) hstep
  omega

theorem minDist_zero_start (g : Grid) (s v : CellCoordinates)
    (h : MinDist g s v 0) : v = s :=
  reachIn_zero g s v h.1

/-! #### The nearest-goal heuristic -/

theorem nearestGoal_eq_fold (c : CellCoordinates)
    (goals : List CellCoordinates) :
    nearestGoal c goals = goals.foldl (nearestGoalStep c) none := rfl

theorem nearestGoalStep_spec (c γ0 : CellCoordinates)
    (a : Option (CellCoordinates × Nat)) :
    nearestGoalStep c a γ0 ≠ none ∧
    ∀ bg bd, nearestGoalStep c a γ0 = some (bg, bd) →
      (a = some (bg, bd) ∨ (bg = γ0 ∧ bd = manhattanDistance c γ0)) ∧
      bd ≤ manhattanDistance c γ0 ∧
      (∀ p, a = some p → bd ≤ p.2) := by
  cases a with
  | none =>
    refine ⟨by simp [nearestGoalStep], ?_⟩
    intro bg bd h
    replace h : some (γ0, manhattanDistance c γ0) = some (bg, bd) := h
    cases h
    exact ⟨Or.inr ⟨rfl, rfl⟩, le_refl _, fun p hp => by cases hp⟩
  | some q =>
    obtain ⟨bg1, bd1⟩ := q
    have hred : nearestGoalStep c (some (bg1, bd1)) γ0 =
        if manhattanDistance c γ0 < bd1 then
          some (γ0, manhattanDistance c γ0)
        else some (bg1, bd1) := rfl
    rw [hred]
    by_cases hlt : manhattanDistance c γ0 < bd1
    · rw [if_pos hlt]
      refine ⟨by simp, ?_⟩
      intro bg bd h
      cases h
      exact ⟨Or.inr ⟨rfl, rfl⟩, le_refl _,
        fun p hp => by cases hp; exact le_of_lt hlt⟩
    · rw [if_neg hlt]
      refine ⟨by simp, ?_⟩
      intro bg bd h
      cases h
      exact ⟨Or.inl rfl, by omega, fun p hp => by cases hp; exact le_refl _⟩

theorem nearestGoal_fold_spec (c : CellCoordinates) :
    ∀ (goals : List CellCoordinates) (acc : Option (CellCoordinates × Nat)),
      (goals.foldl (nearestGoalStep c) acc = none →
        goals = [] ∧ acc = none) ∧
      (∀ bg bd, goals.foldl (nearestGoalStep c) acc = some (bg, bd) →
        (acc = some (bg, bd) ∨
          (bg ∈ goals ∧ bd = manhattanDistance c bg)) ∧
        (∀ γ ∈ goals, bd ≤ manhattanDistance c γ) ∧
        (∀ p, acc = some p → bd ≤ p.2)) := by
  intro goals
  induction goals with
  | nil =>
    intro acc
    refine ⟨fun h => ⟨rfl, h⟩, ?_⟩
    intro bg bd hfold
    refine ⟨Or.inl hfold, fun γ hγ => absurd hγ (List.not_mem_nil γ), ?_⟩
    intro p hp
    rw [hp] at hfold
    cases hfold
    exact le_refl _
  | cons γ0 rest ih =>
    intro acc
    obtain ⟨hne0, hstep2⟩ := nearestGoalStep_spec c γ0 acc
    obtain ⟨ihB, ihA⟩ := ih (nearestGoalStep c acc γ0)
    constructor
    · intro hfold
      rw [List.foldl_cons] at hfold
      obtain ⟨_, hnone⟩ := ihB hfold
      exact absurd hnone hne0
    · intro bg bd hfold
      rw [List.foldl_cons] at hfold
      obtain ⟨ih1, ih2, ih3⟩ := ihA bg bd hfold
      obtain ⟨⟨g1, d1⟩, hp1⟩ : ∃ p1, nearestGoalStep c acc γ0 = some p1 := by
        cases hcc : nearestGoalStep c acc γ0 with
        | none => exact absurd hcc hne0
        | some p1 => exact ⟨p1, rfl⟩
      obtain ⟨hs1, hs2, hs3⟩ := hstep2 g1 d1 hp1
      refine ⟨?_, ?_, ?_⟩
      · rcases ih1 with h | ⟨hmem, hval⟩
        · rcases hstep2 bg bd h with ⟨hh, _, _⟩
          rcases hh with hh | ⟨hh1, hh2⟩
          · exact Or.inl hh
          · exact Or.inr ⟨by rw [hh1]; exact List.mem_cons_self _ _,
              by rw [hh1]; exact hh2⟩
        · exact Or.inr ⟨List.mem_cons_of_mem _ hmem, hval⟩
      · intro γ hγ
        rcases List.mem_cons.1 hγ with rfl | hγ
        · have hbd : bd ≤ d1 := ih3 (g1, d1) hp1
          omega
        · exact ih2 γ hγ
      · intro p hp
        have hbd : bd ≤ d1 := ih3 (g1, d1) hp1
        have := hs3 p hp
        omega

theorem nearestGoal_spec (c : CellCoordinates)
    (goals : List CellCoordinates) (hne : goals ≠ []) :
    ∃ bg bd, nearestGoal c goals = some (bg, bd) ∧
      bd = manhattanDistance c bg ∧ bg ∈ goals ∧
      ∀ γ ∈ goals, bd ≤ manhattanDistance c γ := by
  obtain ⟨hB, hA⟩ := nearestGoal_fold_spec c goals none
  rw [nearestGoal_eq_fold]
  cases hfold : goals.foldl (nearestGoalStep c) none with
  | none =>
    obtain ⟨h1, _⟩ := hB hfold
    exact absurd h1 hne
  | some p =>
    obtain ⟨bg, bd⟩ := p
    obtain ⟨h1, h2, _⟩ := hA bg bd hfold
    rcases h1 with h1 | ⟨hmem, hval⟩
    · cases h1
    · exact ⟨bg, bd, rfl, hval, hmem, h2⟩

theorem nearestGoalDistance_le (c : CellCoordinates)
    (goals : List CellCoordinates) (hne : goals ≠ []) (γ : CellCoordinates)
    (hγ : γ ∈ goals) :
    nearestGoalDistance goals c ≤ manhattanDistance c γ := by
  obtain ⟨bg, bd, hsome, _, _, hmin⟩ := nearestGoal_spec c goals hne
  rw [nearestGoalDistance, hsome]
  exact hmin γ hγ

theorem nearestGoalDistance_zero (goals : List CellCoordinates)
    (γ : CellCoordinates) (hγ : γ ∈ goals) :
    nearestGoalDistance goals γ = 0 := by
  have hne : goals ≠ [] := by
    intro h
    rw [h] at hγ
    cases hγ
  have := nearestGoalDistance_le γ goals hne γ hγ
  have hzero : manhattanDistance γ γ = 0 := by
    simp [manhattanDistance]
  omega

theorem manhattan_adjacent (g : Grid) (u v γ : CellCoordinates)
    (hadj : adjacent g u v) :
    manhattanDistance u γ ≤ manhattanDistance v γ + 1 := by
  obtain ⟨off, hoff, hveq, _, _⟩ := hadj
  simp only [offsetList, directionList, DIRECTION_TO_OFFSET, List.map_cons,
    List.map_nil, List.mem_cons, List.not_mem_nil, or_false] at hoff
  subst hveq
  rcases hoff with rfl | rfl | rfl | rfl <;>
    · simp only [manhattanDistance]
      omega

theorem nearestGoalDistance_lipschitz (g : Grid)
    (goals : List CellCoordinates) (hne : goals ≠ [])
    (u v : CellCoordinates) (hadj : adjacent g u v) :
    nearestGoalDistance goals u ≤ nearestGoalDistance goals v + 1 := by
  obtain ⟨bg, bd, hsome, hval, hmem, _⟩ := nearestGoal_spec v goals hne
  have h1 : nearestGoalDistance goals u ≤ manhattanDistance u bg :=
    nearestGoalDistance_le u goals hne bg hmem
  have h2 : manhattanDistance u bg ≤ manhattanDistance v bg + 1 :=
    manhattan_adjacent g u v bg hadj
  have h3 : nearestGoalDistance goals v = bd := by
    rw [nearestGoalDistance, hsome]
    rfl
  omega

theorem frontier_cut (g : Grid) (s : CellCoordinates) (cf : CameFrom)
    (goals : List CellCoordinates) (hne : goals ≠ []) :
    ∀ (dk : Nat) (γ : CellCoordinates), MinDist g s γ dk →
      alistHas cf γ = false →
      ∃ i wi, i ≤ dk ∧ MinDist g s wi i ∧ alistHas cf wi = false ∧
        ((wi = s ∧ i = 0) ∨
          (∃ u k, alistHas cf u = true ∧ adjacent g u wi ∧
            MinDist g s u k ∧ i = k + 1)) ∧
        nearestGoalDistance goals wi + i ≤
          nearestGoalDistance goals γ + dk := by
  intro dk
  induction dk with
  | zero =>
    intro γ hγ hunv
    have hγs := minDist_zero_start g s γ hγ
    subst hγs
    exact ⟨0, γ, le_refl _, minDist_self g γ, hunv, Or.inl ⟨rfl, rfl⟩,
      le_refl _⟩
  | succ dk ih =>
    intro γ hγ hunv
    obtain ⟨u, hadj, hu⟩ := minDist_pred g s γ dk hγ
    by_cases hv : alistHas cf u = true
    · exact ⟨dk + 1, γ, le_refl _, hγ, hunv,
        Or.inr ⟨u, dk, hv, hadj, hu, rfl⟩, le_refl _⟩
    · rw [Bool.not_eq_true] at hv
      obtain ⟨i, wi, hile, hwi, hwiunv, hcase, hbound⟩ := ih u hu hv
      refine ⟨i, wi, by omega, hwi, hwiunv, hcase, ?_⟩
      have hlip := nearestGoalDistance_lipschitz g goals hne u γ hadj
      omega

/-! #### Breadth-first search finds a shortest path -/

theorem keyIs_unique (s : CellCoordinates) (cf : CameFrom) (m : Move ℕ)
    (k k' : Nat) (h1 : KeyIs s cf m k) (h2 : KeyIs s cf m k') : k = k' := by
  rcases h1 with ⟨hs1, hk1⟩ | ⟨u1, j1, hs1, hc1, hk1⟩ <;>
    rcases h2 with ⟨hs2, hk2⟩ | ⟨u2, j2, hs2, hc2, hk2⟩
  · rw [hk1, hk2]
  · rw [hs1] at hs2
    cases hs2
  · rw [hs1] at hs2
    cases hs2
  · rw [hs1] at hs2
    cases hs2
    rw [hk1, hk2, chain_unique s cf hc1 hc2]

theorem keyIs_mono (s : CellCoordinates) (cf : CameFrom)
    (e : CellCoordinates × Option CellCoordinates)
    (hfresh : alistHas cf e.1 = false) (m : Move ℕ) (k : Nat)
    (h : KeyIs s cf m k) : KeyIs s (e :: cf) m k := by
  rcases h with h | ⟨u, j, hs, hc, hk⟩
  · exact Or.inl h
  · exact Or.inr ⟨u, j, hs, chain_mono s e cf hfresh hc, hk⟩

theorem forall₂_mem_left {α β : Type} {R : α → β → Prop} :
    ∀ {l : List α} {l2 : List β}, List.Forall₂ R l l2 →
      ∀ a ∈ l, ∃ b ∈ l2, R a b := by
  intro l l2 h
  induction h with
  | nil =>
    intro a ha
    cases ha
  | cons hR hrest ih =>
    intro a ha
    rcases List.mem_cons.1 ha with rfl | ha
    · exact ⟨_, List.mem_cons_self _ _, hR⟩
    · obtain ⟨b, hb, hRb⟩ := ih a ha
      exact ⟨b, List.mem_cons_of_mem _ hb, hRb⟩

theorem forall₂_imp {α β : Type} {R S : α → β → Prop}
    (H : ∀ a b, R a b → S a b) :
    ∀ {l : List α} {l2 : List β}, List.Forall₂ R l l2 →
      List.Forall₂ S l l2 := by
  intro l l2 h
  induction h with
  | nil => exact List.Forall₂.nil
  | cons hR hrest ih => exact List.Forall₂.cons (H _ _ hR) ih

theorem forall₂_append {α β : Type} {R : α → β → Prop} :
    ∀ {l1 l3 : List α} {l2 l4 : List β}, List.Forall₂ R l1 l2 →
      List.Forall₂ R l3 l4 → List.Forall₂ R (l1 ++ l3) (l2 ++ l4) := by
  intro l1 l3 l2 l4 h1 h2
  induction h1 with
  | nil => exact h2
  | cons hR hrest ih => exact List.Forall₂.cons hR ih

theorem forall₂_replicate {α β : Type} {R : α → β → Prop} (c : β) :
    ∀ (l : List α), (∀ a ∈ l, R a c) →
      List.Forall₂ R l (List.replicate l.length c) := by
  intro l
  induction l with
  | nil =>
    intro _
    exact List.Forall₂.nil
  | cons a rest ih =>
    intro h
    exact List.Forall₂.cons (h a (List.mem_cons_self _ _))
      (ih fun a2 ha2 => h a2 (List.mem_cons_of_mem _ ha2))

theorem pairwise_le_replicate (c : Nat) :
    ∀ n, List.Pairwise (· ≤ ·) (List.replicate n c) := by
  intro n
  induction n with
  | zero => exact List.Pairwise.nil
  | succ n ih =>
    rw [List.replicate_succ]
    exact List.Pairwise.cons
      (fun b hb => by rw [List.eq_of_mem_replicate hb]) ih

theorem mem_replicate_eq {α : Type} {c a : α} {n : Nat}
    (h : a ∈ List.replicate n c) : a = c :=
  List.eq_of_mem_replicate h

theorem alistHas_cons_iff {α : Type} (e : CellCoordinates × α)
    (l : List (CellCoordinates × α)) (v : CellCoordinates) :
    alistHas (e :: l) v = true ↔ v = e.1 ∨ alistHas l v = true := by
  obtain ⟨e1, e2⟩ := e
  by_cases h : v = e1 <;> simp [alistHas, alistGet, h]

theorem alistHas_cons_of (e : CellCoordinates × Option CellCoordinates)
    (l : CameFrom) (v : CellCoordinates) (h : alistHas l v = true) :
    alistHas (e :: l) v = true :=
  (alistHas_cons_iff e l v).mpr (Or.inr h)

theorem bfsInv_head (g : Grid) (s : CellCoordinates) (m : Move ℕ)
    (rest : List (Move ℕ)) (cf : CameFrom) (K : Nat)
    (hinv : BfsInv g s (m :: rest) cf K) :
    ∃ k0 ks2, KeyIs s cf m k0 ∧ List.Forall₂ (KeyIs s cf) rest ks2 ∧
      (∀ k ∈ ks2, k0 ≤ k) ∧ List.Pairwise (· ≤ ·) ks2 ∧
      K ≤ k0 ∧ k0 ≤ K + 1 ∧ (∀ k ∈ ks2, K ≤ k ∧ k ≤ K + 1) := by
  obtain ⟨ks, hf, hpw, hrange⟩ := hinv.keys
  cases hf with
  | cons hk hf2 =>
    rename_i k0 ks2
    obtain ⟨hhead, hpw2⟩ := List.pairwise_cons.mp hpw
    refine ⟨k0, ks2, hk, hf2, hhead, hpw2,
      (hrange k0 (List.mem_cons_self _ _)).1,
      (hrange k0 (List.mem_cons_self _ _)).2, ?_⟩
    intro k hkmem
    exact hrange k (List.mem_cons_of_mem _ hkmem)

theorem bfs_head_min (g : Grid) (s : CellCoordinates) (m : Move ℕ)
    (rest : List (Move ℕ)) (cf : CameFrom) (K : Nat)
    (hinv : BfsInv g s (m :: rest) cf K) (k0 : Nat) (ks2 : List Nat)
    (hk0 : KeyIs s cf m k0) (hf2 : List.Forall₂ (KeyIs s cf) rest ks2)
    (hhead : ∀ k ∈ ks2, k0 ≤ k) :
    ∀ m' ∈ m :: rest, ∀ k', KeyIs s cf m' k' → k0 ≤ k' := by
  intro m' hm' k' hk'
  rcases List.mem_cons.1 hm' with rfl | hm'
  · rw [keyIs_unique s cf m' k0 k' hk0 hk']
  · obtain ⟨b, hb, hRb⟩ := forall₂_mem_left hf2 m' hm'
    rw [keyIs_unique s cf m' k' b hk' hRb]
    exact hhead b hb

theorem rest_entry_key (s : CellCoordinates) (cf : CameFrom)
    (rest : List (Move ℕ)) (ks2 : List Nat)
    (hf2 : List.Forall₂ (KeyIs s cf) rest ks2) (m3 : Move ℕ)
    (hm3 : m3 ∈ rest) : ∃ k3 ∈ ks2, KeyIs s cf m3 k3 :=
  forall₂_mem_left hf2 m3 hm3

theorem bfs_pop_dist (g : Grid) (s : CellCoordinates) (m : Move ℕ)
    (rest : List (Move ℕ)) (cf : CameFrom) (K : Nat)
    (hinv : BfsInv g s (m :: rest) cf K) (k0 : Nat)
    (hk0 : KeyIs s cf m k0) (hK0 : K ≤ k0) (hK1 : k0 ≤ K + 1)
    (hmin0 : ∀ m' ∈ m :: rest, ∀ k', KeyIs s cf m' k' → k0 ≤ k')
    (hunv : alistHas cf m.destination = false) :
    MinDist g s m.destination k0 := by
  have hreach : Reachable g s m.destination := by
    rcases hinv.moves_ok m (List.mem_cons_self _ _) with ⟨_, hds⟩ |
      ⟨u, hu, huvis, hadj⟩
    · rw [hds]
      exact ⟨0, ReachIn.refl⟩
    · obtain ⟨nu, _, hmind⟩ := hinv.depth_dist u huvis
      exact ⟨nu + 1, hmind.1.step hadj⟩
  obtain ⟨dv, hdv⟩ := exists_minDist g s m.destination hreach
  obtain ⟨n, hn, hnle⟩ :=
    hinv.entry_le m (List.mem_cons_self _ _) k0 hk0
  have hdvn : dv = n := minDist_unique g s m.destination hdv hn
  have hge : k0 ≤ dv := by
    by_contra hlt
    push_neg at hlt
    by_cases hnear : dv < K
    · rw [hinv.near m.destination dv hdv hnear] at hunv
      cases hunv
    · push_neg at hnear
      have hdvK : dv = K := by omega
      have hk0K : k0 = K + 1 := by omega
      rcases hinv.at_K m.destination (hdvK ▸ hdv) with hvis | ⟨m3, hm3, _, hkey3⟩
      · rw [hvis] at hunv
        cases hunv
      · have := hmin0 m3 hm3 K hkey3
        omega
  have : dv = k0 := by omega
  exact this ▸ hdv

theorem bfs_goal_layer (g : Grid) (s : CellCoordinates) (d : Nat)
    (hd : ∃ γ, cellAt g γ = CellType.Goal ∧ ReachIn g s γ d)
    (hmin : ∀ d2 γ, cellAt g γ = CellType.Goal → ReachIn g s γ d2 → d ≤ d2)
    (m : Move ℕ) (rest : List (Move ℕ)) (cf : CameFrom) (K : Nat)
    (hinv : BfsInv g s (m :: rest) cf K) (k0 : Nat)
    (hk0 : KeyIs s cf m k0) (hK0 : K ≤ k0) (hK1 : k0 ≤ K + 1)
    (hmin0 : ∀ m' ∈ m :: rest, ∀ k', KeyIs s cf m' k' → k0 ≤ k')
    (hpopdist : MinDist g s m.destination k0)
    (hgoal : cellAt g m.destination = CellType.Goal) : k0 = d := by
  obtain ⟨γ, hγgoal, hγreach⟩ := hd
  have hdk0 : d ≤ k0 := hmin k0 m.destination hgoal hpopdist.1
  have hk0d : k0 ≤ d := by
    obtain ⟨dγ, hdγ⟩ := exists_minDist g s γ ⟨d, hγreach⟩
    have hdγd : dγ ≤ d := hdγ.2 d hγreach
    have hγunv : alistHas cf γ = false := by
      cases hv : alistHas cf γ with
      | false => rfl
      | true => exact absurd hγgoal (hinv.no_goal γ hv)
    by_contra hgt
    push_neg at hgt
    by_cases hnear : dγ < K
    · rw [hinv.near γ dγ hdγ hnear] at hγunv
      cases hγunv
    · push_neg at hnear
      have hdγK : dγ = K := by omega
      have hk0K : k0 = K + 1 := by omega
      rcases hinv.at_K γ (hdγK ▸ hdγ) with hvis | ⟨m3, hm3, _, hkey3⟩
      · rw [hvis] at hγunv
        cases hγunv
      · have := hmin0 m3 hm3 K hkey3
        omega
  omega

theorem bfsInv_skip (g : Grid) (s : CellCoordinates) (m : Move ℕ)
    (rest : List (Move ℕ)) (cf : CameFrom) (K : Nat)
    (hinv : BfsInv g s (m :: rest) cf K)
    (hvis : alistHas cf m.destination = true) :
    BfsInv g s rest cf K := by
  obtain ⟨k0, ks2, hk0, hf2, hhead, hpw2, hK0, hK1, hrange2⟩ :=
    bfsInv_head g s m rest cf K hinv
  refine ⟨hinv.cfinv, ?_, hinv.depth_dist, ⟨ks2, hf2, hpw2, hrange2⟩,
    ?_, hinv.near, ?_, ?_, hinv.no_goal, ?_⟩
  · intro m' hm'
    exact hinv.moves_ok m' (List.mem_cons_of_mem _ hm')
  · intro m' hm' k hk
    exact hinv.entry_le m' (List.mem_cons_of_mem _ hm') k hk
  · intro v hv
    rcases hinv.at_K v hv with h | ⟨m3, hm3, hd3, hkey3⟩
    · exact Or.inl h
    · rcases List.mem_cons.1 hm3 with rfl | hm3
      · exact Or.inl (hd3 ▸ hvis)
      · exact Or.inr ⟨m3, hm3, hd3, hkey3⟩
  · intro v hv
    rcases hinv.at_K1 v hv with h | ⟨m3, hm3, hd3, hkey3⟩ |
      ⟨u, m2, hadj, hu, hm2, hd2, hkey2⟩
    · exact Or.inl h
    · rcases List.mem_cons.1 hm3 with rfl | hm3
      · exact Or.inl (hd3 ▸ hvis)
      · exact Or.inr (Or.inl ⟨m3, hm3, hd3, hkey3⟩)
    · rcases List.mem_cons.1 hm2 with rfl | hm2
      · -- the queued optimal predecessor was the popped (already visited)
        -- entry: fall back on frontier closure
        have huvis : alistHas cf u = true := hd2 ▸ hvis
        rcases hinv.closed u huvis v hadj with h | ⟨m3, hm3, hd3⟩
        · exact Or.inl h
        · rcases List.mem_cons.1 hm3 with rfl | hm3
          · exact Or.inl (hd3 ▸ hvis)
          · obtain ⟨k3, hk3mem, hk3⟩ := rest_entry_key s cf rest ks2 hf2 m3 hm3
            obtain ⟨n, hn, hnle⟩ :=
              hinv.entry_le m3 (List.mem_cons_of_mem _ hm3) k3 hk3
            have hnv : MinDist g s v n := by
              rw [hd3] at hn
              exact hn
            have hneq : n = K + 1 := minDist_unique g s v hnv hv
            have hk3eq : k3 = K + 1 := by
              have := (hrange2 k3 hk3mem).2
              omega
            rw [← hk3eq]
            exact Or.inr (Or.inl ⟨m3, hm3, hd3, hk3⟩)
      · exact Or.inr (Or.inr ⟨u, m2, hadj, hu, hm2, hd2, hkey2⟩)
  · intro u hu v hadj
    rcases hinv.closed u hu v hadj with h | ⟨m3, hm3, hd3⟩
    · exact Or.inl h
    · rcases List.mem_cons.1 hm3 with rfl | hm3
      · exact Or.inl (hd3 ▸ hvis)
      · exact Or.inr ⟨m3, hm3, hd3⟩

theorem bfsInv_step (g : Grid) (s : CellCoordinates) (m : Move ℕ)
    (rest : List (Move ℕ)) (cf : CameFrom) (K : Nat)
    (hinv : BfsInv g s (m :: rest) cf K) (k0 : Nat) (ks2 : List Nat)
    (hk0 : KeyIs s cf m k0) (hf2 : List.Forall₂ (KeyIs s cf) rest ks2)
    (hhead : ∀ k ∈ ks2, k0 ≤ k) (hpw2 : List.Pairwise (· ≤ ·) ks2)
    (hK0 : K ≤ k0) (hK1 : k0 ≤ K + 1)
    (hrange2 : ∀ k ∈ ks2, K ≤ k ∧ k ≤ K + 1)
    (hmin0 : ∀ m' ∈ m :: rest, ∀ k', KeyIs s cf m' k' → k0 ≤ k')
    (hunv : alistHas cf m.destination = false)
    (hnotgoal : cellAt g m.destination ≠ CellType.Goal) :
    BfsInv g s (rest ++ getValidMoves ℕ m.destination g
        ((m.destination, m.source) :: cf))
      ((m.destination, m.source) :: cf) k0 := by
  have hpd : MinDist g s m.destination k0 :=
    bfs_pop_dist g s m rest cf K hinv k0 hk0 hK0 hK1 hmin0 hunv
  have hchain0 : Chain s ((m.destination, m.source) :: cf) m.destination
      k0 := by
    rcases hk0 with ⟨hsrc, hzk⟩ | ⟨u, j, hsrc, hc, hkj⟩
    · rcases hinv.moves_ok m (List.mem_cons_self _ _) with ⟨_, hds⟩ |
        ⟨u, hu, _, _⟩
      · rw [hzk, hds]
        exact Chain.refl
      · rw [hsrc] at hu
        cases hu
    · have hvs : m.destination ≠ s := by
        intro he
        have h0 : MinDist g s m.destination 0 := by
          rw [he]
          exact minDist_self g s
        have := minDist_unique g s m.destination hpd h0
        omega
      rw [hkj]
      refine Chain.step hvs ?_ (chain_mono s _ cf hunv hc)
      show alistGet ((m.destination, m.source) :: cf) m.destination =
        some (some u)
      simp [alistGet, hsrc]
  have hcf2 : CFInv g s ((m.destination, m.source) :: cf) :=
    ⟨hinv.moves_ok m (List.mem_cons_self _ _), hunv, hinv.cfinv⟩
  have hheadvis : alistHas ((m.destination, m.source) :: cf)
      m.destination = true :=
    (alistHas_cons_iff _ cf m.destination).mpr (Or.inl rfl)
  have hdd2 : ∀ u, alistHas ((m.destination, m.source) :: cf) u = true →
      ∃ n, Chain s ((m.destination, m.source) :: cf) u n ∧
        MinDist g s u n := by
    intro u hu
    rcases (alistHas_cons_iff _ cf u).mp hu with heq | hold
    · rw [heq]
      exact ⟨k0, hchain0, hpd⟩
    · obtain ⟨n, hc, hmd⟩ := hinv.depth_dist u hold
      exact ⟨n, chain_mono s _ cf hunv hc, hmd⟩
  have hgvmkey : ∀ mv ∈ getValidMoves ℕ m.destination g
      ((m.destination, m.source) :: cf),
      KeyIs s ((m.destination, m.source) :: cf) mv (k0 + 1) := by
    intro mv hmv
    obtain ⟨hsrc, _, _, hadj, hfr⟩ :=
      getValidMoves_mem ℕ m.destination g _ mv hmv
    exact Or.inr ⟨m.destination, k0, hsrc, hchain0, rfl⟩
  have hback : ∀ m' ∈ rest, ∀ k,
      KeyIs s ((m.destination, m.source) :: cf) m' k →
        KeyIs s cf m' k := by
    intro m' hm' k hk
    rcases hk with ⟨h1, h2⟩ | ⟨u, j, hsrc, hc2, hkj⟩
    · exact Or.inl ⟨h1, h2⟩
    · rcases hinv.moves_ok m' (List.mem_cons_of_mem _ hm') with ⟨hn, _⟩ |
        ⟨u2, hsrc2, hvis2, _⟩
      · rw [hsrc] at hn
        cases hn
      · rw [hsrc] at hsrc2
        cases hsrc2
        obtain ⟨j1, hc1, _⟩ := hinv.depth_dist u hvis2
        have hc1b := chain_mono s (m.destination, m.source) cf hunv hc1
        have hj : j = j1 := chain_unique s _ hc2 hc1b
        subst hj
        exact Or.inr ⟨u, j, hsrc, hc1, hkj⟩
  have hkeys2 : ∀ m3 ∈ rest, ∃ k3 ∈ ks2, KeyIs s cf m3 k3 :=
    fun m3 hm3 => forall₂_mem_left hf2 m3 hm3
  refine ⟨hcf2, ?_, hdd2, ?_, ?_, ?_, ?_, ?_, ?_, ?_⟩
  · -- moves_ok
    intro m' hm'
    rcases List.mem_append.1 hm' with hm' | hm'
    · exact moveOK_mono ℕ g s cf _ m'
        (hinv.moves_ok m' (List.mem_cons_of_mem _ hm'))
    · obtain ⟨hsrc, _, _, hadj, _⟩ :=
        getValidMoves_mem ℕ m.destination g _ m' hm'
      exact Or.inr ⟨m.destination, hsrc, hheadvis, hadj⟩
  · -- keys
    refine ⟨ks2 ++ List.replicate (getValidMoves ℕ m.destination g
        ((m.destination, m.source) :: cf)).length (k0 + 1), ?_, ?_, ?_⟩
    · refine forall₂_append ?_ ?_
      · exact forall₂_imp
          (fun m2 k2 h => keyIs_mono s cf (m.destination, m.source) hunv m2 k2 h)
          hf2
      · exact forall₂_replicate (k0 + 1) _ hgvmkey
    · rw [List.pairwise_append]
      refine ⟨hpw2, pairwise_le_replicate _ _, ?_⟩
      intro a ha b hb
      rw [mem_replicate_eq hb]
      have := (hrange2 a ha).2
      omega
    · intro k hk
      rcases List.mem_append.1 hk with hk | hk
      · exact ⟨hhead k hk, by have := (hrange2 k hk).2; omega⟩
      · rw [mem_replicate_eq hk]
        omega
  · -- entry_le
    intro m' hm' k hk
    rcases List.mem_append.1 hm' with hm' | hm'
    · exact hinv.entry_le m' (List.mem_cons_of_mem _ hm') k
        (hback m' hm' k hk)
    · have hkval : k = k0 + 1 :=
        keyIs_unique s _ m' k (k0 + 1) hk (hgvmkey m' hm')
      obtain ⟨_, _, _, hadj, _⟩ :=
        getValidMoves_mem ℕ m.destination g _ m' hm'
      have hreach : ReachIn g s m'.destination (k0 + 1) := hpd.1.step hadj
      obtain ⟨n, hn⟩ := exists_minDist g s m'.destination ⟨k0 + 1, hreach⟩
      exact ⟨n, hn, by have := hn.2 (k0 + 1) hreach; omega⟩
  · -- near
    intro v n hmd hlt
    by_cases hnK : n < K
    · exact alistHas_cons_of _ cf v (hinv.near v n hmd hnK)
    · have hnn : n = K := by omega
      have hkk : k0 = K + 1 := by omega
      rcases hinv.at_K v (by rw [← hnn]; exact hmd) with hvis |
        ⟨m3, hm3, _, hkey3⟩
      · exact alistHas_cons_of _ cf v hvis
      · have := hmin0 m3 hm3 K hkey3
        omega
  · -- at_K (layer k0)
    intro v hmd
    by_cases hveq : v = m.destination
    · rw [hveq]
      exact Or.inl hheadvis
    · by_cases hkk : k0 = K
      · subst hkk
        rcases hinv.at_K v hmd with hvis | ⟨m3, hm3, hd3, hkey3⟩
        · exact Or.inl (alistHas_cons_of _ cf v hvis)
        · rcases List.mem_cons.1 hm3 with rfl | hm3
          · exact absurd hd3.symm hveq
          · exact Or.inr ⟨m3, List.mem_append_left _ hm3, hd3,
              keyIs_mono s cf _ hunv _ _ hkey3⟩
      · have hkk1 : k0 = K + 1 := by omega
        rcases hinv.at_K1 v (hkk1 ▸ hmd) with hvis | ⟨m3, hm3, hd3, hkey3⟩ |
          ⟨u, m2, hadj, hu, hm2, hd2, hkey2⟩
        · exact Or.inl (alistHas_cons_of _ cf v hvis)
        · rcases List.mem_cons.1 hm3 with rfl | hm3
          · exact absurd hd3.symm hveq
          · refine Or.inr ⟨m3, List.mem_append_left _ hm3, hd3, ?_⟩
            rw [hkk1]
            exact keyIs_mono s cf _ hunv _ _ hkey3
        · rcases List.mem_cons.1 hm2 with rfl | hm2
          · have := keyIs_unique s cf m2 k0 K hk0 hkey2
            omega
          · have := hmin0 m2 (List.mem_cons_of_mem _ hm2) K hkey2
            omega
  · -- at_K1 (layer k0 + 1)
    intro v hmd
    have hvne : v ≠ m.destination := by
      intro he
      rw [he] at hmd
      have := minDist_unique g s m.destination hmd hpd
      omega
    obtain ⟨us, hadjs, hus⟩ := minDist_pred g s v k0 hmd
    by_cases hueq : us = m.destination
    · by_cases hvvis : alistHas ((m.destination, m.source) :: cf) v = true
      · exact Or.inl hvvis
      · rw [Bool.not_eq_true] at hvvis
        obtain ⟨mv, hmv, hdest⟩ := getValidMoves_complete ℕ m.destination g
          _ v (hueq ▸ hadjs) hvvis
        exact Or.inr (Or.inl ⟨mv, List.mem_append_right _ hmv, hdest,
          hgvmkey mv hmv⟩)
    · by_cases hkk : k0 = K
      · subst hkk
        rcases hinv.at_K us hus with hvisu | ⟨m4, hm4, hd4, hkey4⟩
        · rcases hinv.closed us hvisu v hadjs with hvis | ⟨m3, hm3, hd3⟩
          · exact Or.inl (alistHas_cons_of _ cf v hvis)
          · rcases List.mem_cons.1 hm3 with rfl | hm3
            · exact absurd hd3 hvne.symm
            · obtain ⟨k3, hk3mem, hk3⟩ := hkeys2 m3 hm3
              obtain ⟨n, hn, hnle⟩ :=
                hinv.entry_le m3 (List.mem_cons_of_mem _ hm3) k3 hk3
              have hnv : MinDist g s v n := by
                rw [hd3] at hn
                exact hn
              have hneq : n = k0 + 1 := minDist_unique g s v hnv hmd
              have hk3eq : k3 = k0 + 1 := by
                have := (hrange2 k3 hk3mem).2
                omega
              refine Or.inr (Or.inl ⟨m3, List.mem_append_left _ hm3, hd3, ?_⟩)
              rw [← hk3eq]
              exact keyIs_mono s cf _ hunv _ _ hk3
        · rcases List.mem_cons.1 hm4 with rfl | hm4
          · exact absurd hd4.symm hueq
          · exact Or.inr (Or.inr ⟨us, m4, hadjs, hus,
              List.mem_append_left _ hm4, hd4,
              keyIs_mono s cf _ hunv _ _ hkey4⟩)
      · have hkk1 : k0 = K + 1 := by omega
        rcases hinv.at_K1 us (hkk1 ▸ hus) with hvisu |
          ⟨m4, hm4, hd4, hkey4⟩ | ⟨u2, m5, hadj5, hu5, hm5, hd5, hkey5⟩
        · rcases hinv.closed us hvisu v hadjs with hvis | ⟨m3, hm3, hd3⟩
          · exact Or.inl (alistHas_cons_of _ cf v hvis)
          · rcases List.mem_cons.1 hm3 with rfl | hm3
            · exact absurd hd3 hvne.symm
            · obtain ⟨k3, hk3mem, hk3⟩ := hkeys2 m3 hm3
              obtain ⟨n, hn, hnle⟩ :=
                hinv.entry_le m3 (List.mem_cons_of_mem _ hm3) k3 hk3
              have hnv : MinDist g s v n := by
                rw [hd3] at hn
                exact hn
              have hneq : n = k0 + 1 := minDist_unique g s v hnv hmd
              have := (hrange2 k3 hk3mem).2
              omega
        · rcases List.mem_cons.1 hm4 with rfl | hm4
          · exact absurd hd4.symm hueq
          · refine Or.inr (Or.inr ⟨us, m4, hadjs, hus,
              List.mem_append_left _ hm4, hd4, ?_⟩)
            rw [hkk1]
            exact keyIs_mono s cf _ hunv _ _ hkey4
        · rcases List.mem_cons.1 hm5 with rfl | hm5
          · have := keyIs_unique s cf m5 k0 K hk0 hkey5
            omega
          · have := hmin0 m5 (List.mem_cons_of_mem _ hm5) K hkey5
            omega
  · -- no_goal
    intro u hu
    rcases (alistHas_cons_iff _ cf u).mp hu with heq | hold
    · rw [heq]
      exact hnotgoal
    · exact hinv.no_goal u hold
  · -- closed
    intro u hu v hadj
    rcases (alistHas_cons_iff _ cf u).mp hu with heq | hold
    · have heq2 : u = m.destination := heq
      by_cases hvvis : alistHas ((m.destination, m.source) :: cf) v = true
      · exact Or.inl hvvis
      · rw [Bool.not_eq_true] at hvvis
        obtain ⟨mv, hmv, hdest⟩ := getValidMoves_complete ℕ m.destination g
          _ v (heq2 ▸ hadj) hvvis
        exact Or.inr ⟨mv, List.mem_append_right _ hmv, hdest⟩
    · rcases hinv.closed u hold v hadj with hvis | ⟨m3, hm3, hd3⟩
      · exact Or.inl (alistHas_cons_of _ cf v hvis)
      · rcases List.mem_cons.1 hm3 with rfl | hm3
        · rw [← hd3]
          exact Or.inl hheadvis
        · exact Or.inr ⟨m3, List.mem_append_left _ hm3, hd3⟩

theorem bfs_head_chain (g : Grid) (s : CellCoordinates) (m : Move ℕ)
    (cf : CameFrom) (k0 : Nat) (hk0 : KeyIs s cf m k0)
    (hok : MoveOK ℕ g s cf m) (hpd : MinDist g s m.destination k0)
    (hunv : alistHas cf m.destination = false) :
    Chain s ((m.destination, m.source) :: cf) m.destination k0 := by
  rcases hk0 with ⟨hsrc, hzk⟩ | ⟨u, j, hsrc, hc, hkj⟩
  · rcases hok with ⟨_, hds⟩ | ⟨u, hu, _, _⟩
    · rw [hzk, hds]
      exact Chain.refl
    · rw [hsrc] at hu
      cases hu
  · have hvs : m.destination ≠ s := by
      intro he
      have h0 : MinDist g s m.destination 0 := by
        rw [he]
        exact minDist_self g s
      have := minDist_unique g s m.destination hpd h0
      omega
    rw [hkj]
    refine Chain.step hvs ?_ (chain_mono s _ cf hunv hc)
    show alistGet ((m.destination, m.source) :: cf) m.destination =
      some (some u)
    simp [alistGet, hsrc]

theorem bfsInv_init (g : Grid) (s : CellCoordinates) :
    BfsInv g s [initMove ℕ s] [] 0 := by
  refine ⟨trivial, ?_, ?_, ?_, ?_, ?_, ?_, ?_, ?_, ?_⟩
  · intro m hm
    rw [List.mem_singleton] at hm
    subst hm
    exact Or.inl ⟨rfl, rfl⟩
  · intro u hu
    simp [alistHas, alistGet] at hu
  · refine ⟨[0], List.Forall₂.cons (Or.inl ⟨rfl, rfl⟩) List.Forall₂.nil,
      List.pairwise_singleton _ _, ?_⟩
    intro k hk
    rw [List.mem_singleton] at hk
    omega
  · intro m hm k hk
    rw [List.mem_singleton] at hm
    subst hm
    have hk0 : k = 0 := by
      rcases hk with ⟨_, h⟩ | ⟨u, j, hsrc, _, _⟩
      · exact h
      · cases hsrc
    exact ⟨0, minDist_self g s, by omega⟩
  · intro v n _ h
    omega
  · intro v hv
    have hvs := minDist_zero_start g s v hv
    refine Or.inr ⟨initMove ℕ s, List.mem_singleton_self _, ?_,
      Or.inl ⟨rfl, rfl⟩⟩
    rw [hvs]
    rfl
  · intro v hv
    obtain ⟨u, hadj, hu⟩ := minDist_pred g s v 0 hv
    have hus := minDist_zero_start g s u hu
    refine Or.inr (Or.inr ⟨u, initMove ℕ s, hadj, hu,
      List.mem_singleton_self _, ?_, Or.inl ⟨rfl, rfl⟩⟩)
    rw [hus]
    rfl
  · intro u hu
    simp [alistHas, alistGet] at hu
  · intro u hu v _
    simp [alistHas, alistGet] at hu

theorem bfs_loop_shortest (g : Grid) (s : CellCoordinates) (d : Nat)
    (hd : ∃ γ, cellAt g γ = CellType.Goal ∧ ReachIn g s γ d)
    (hmin : ∀ d2 γ, cellAt g γ = CellType.Goal → ReachIn g s γ d2 →
      d ≤ d2) :
    ∀ (fuel : Nat) (container : List (Move ℕ)) (cf : CameFrom) (K : Nat)
      (aux : Aux), BfsInv g s container cf K →
      ∀ p, (runLoop ℕ g bfsStrategy s fuel container cf aux).2 =
        Outcome.path p → p.length = d + 1 := by
  intro fuel
  induction fuel with
  | zero =>
    intro container cf K aux _ p hp
    cases hp
  | succ fuel ih =>
    intro container cf K aux hinv p hp
    cases container with
    | nil =>
      replace hp : Outcome.failure = Outcome.path p := hp
      cases hp
    | cons m rest =>
      obtain ⟨k0, ks2, hk0, hf2, hhead, hpw2, hK0, hK1, hrange2⟩ :=
        bfsInv_head g s m rest cf K hinv
      have hmin0 := bfs_head_min g s m rest cf K hinv k0 ks2 hk0 hf2 hhead
      have hpop : bfsStrategy.pop (m :: rest) = some (m, rest) := rfl
      simp only [runLoop, hpop] at hp
      by_cases hvis : alistHas cf m.destination = true
      · simp only [hvis, if_true] at hp
        exact ih rest cf K aux (bfsInv_skip g s m rest cf K hinv hvis) p hp
      · rw [Bool.not_eq_true] at hvis
        simp only [hvis, Bool.false_eq_true, if_false] at hp
        by_cases hgoal : cellAt g m.destination = CellType.Goal
        · simp only [hgoal, if_true] at hp
          have hpd := bfs_pop_dist g s m rest cf K hinv k0 hk0 hK0 hK1
            hmin0 hvis
          have hlayer := bfs_goal_layer g s d hd hmin m rest cf K hinv k0
            hk0 hK0 hK1 hmin0 hpd hgoal
          have hchain0 := bfs_head_chain g s m cf k0 hk0
            (hinv.moves_ok m (List.mem_cons_self _ _)) hpd hvis
          have hcf2 : CFInv g s ((m.destination, m.source) :: cf) :=
            ⟨hinv.moves_ok m (List.mem_cons_self _ _), hvis, hinv.cfinv⟩
          obtain ⟨p0, hp0, hlen, _⟩ :=
            reconstructPath_spec g s _ hcf2 hchain0
          simp only [hp0] at hp
          replace hp : Outcome.path p0 = Outcome.path p := hp
          cases hp
          omega
        · simp only [hgoal, if_false] at hp
          replace hp : (runLoop ℕ g bfsStrategy s fuel
              (rest ++ getValidMoves ℕ m.destination g
                ((m.destination, m.source) :: cf))
              ((m.destination, m.source) :: cf) aux).2 =
            Outcome.path p := hp
          exact ih _ _ k0 aux
            (bfsInv_step g s m rest cf K hinv k0 ks2 hk0 hf2 hhead hpw2
              hK0 hK1 hrange2 hmin0 hvis hgoal) p hp

theorem bfs_shortest (g : Grid) (s : CellCoordinates)
    (goals : List CellCoordinates) (d : Nat)
    (hok : findStartAndGoals g = .ok (s, goals))
    (hd : ∃ γ, cellAt g γ = CellType.Goal ∧ ReachIn g s γ d)
    (hmin : ∀ d2 γ, cellAt g γ = CellType.Goal → ReachIn g s γ d2 →
      d ≤ d2) :
    ∃ p, (breadthFirstSearch g).2 = Outcome.path p ∧ p.length = d + 1 := by
  have hbfs : breadthFirstSearch g = runSearch ℕ bfsStrategy g s ⟨[], 0⟩ := by
    rw [breadthFirstSearch, hok]
  obtain ⟨hin, hstart, _⟩ := findStartAndGoals_ok_props g s goals hok
  rw [hbfs]
  cases hout : (runSearch ℕ bfsStrategy g s ⟨[], 0⟩).2 with
  | path p =>
    exact ⟨p, rfl, bfs_loop_shortest g s d hd hmin (searchFuel g)
      [initMove ℕ s] [] 0 ⟨[], 0⟩ (bfsInv_init g s) p hout⟩
  | failure =>
    exfalso
    obtain ⟨γ, hγg, hγr⟩ := hd
    have hsg : cellAt g s ≠ CellType.Goal := by
      rw [hstart]
      intro h
      cases h
    have hexp := runSearch_failure_reachable ℕ g bfsStrategy s ⟨[], 0⟩
      bfsStrategy_laws hsg (aux_empty_only s) hout γ ⟨d, hγr⟩
    have hnog := runLoop_failure_no_goal ℕ g bfsStrategy s (searchFuel g)
      [initMove ℕ s] [] ⟨[], 0⟩ hout γ hexp
    exact hnog hγg
  | invalid =>
    exact absurd hout (runLoop_not_invalid ℕ g bfsStrategy s (searchFuel g)
      [initMove ℕ s] [] ⟨[], 0⟩)
  | stuck =>
    exact absurd hout
      (runSearch_not_stuck ℕ g bfsStrategy s ⟨[], 0⟩ bfsStrategy_laws hin)

/-! #### A* finds a shortest path: heap and gate groundwork -/

theorem moveLt_true_le {π : Type} [LinearOrder π] (a b : Move π)
    (h : moveLt a b = true) {pa pb : π} (ha : a.priority = some pa)
    (hb : b.priority = some pb) : pa ≤ pb := by
  rw [moveLt, ha, hb] at h
  replace h : (if pa < pb then true
      else if pb < pa then false
      else
        match a.index, b.index with
        | some ia, some ib => decide (ia < ib)
        | _, _ => false) = true := h
  by_cases h1 : pa < pb
  · exact le_of_lt h1
  · by_cases h2 : pb < pa
    · rw [if_neg h1, if_pos h2] at h
      cases h
    · exact not_lt.mp h2

theorem moveLt_false_le {π : Type} [LinearOrder π] (a b : Move π)
    (h : moveLt a b = false) {pa pb : π} (ha : a.priority = some pa)
    (hb : b.priority = some pb) : pb ≤ pa := by
  rw [moveLt, ha, hb] at h
  replace h : (if pa < pb then true
      else if pb < pa then false
      else
        match a.index, b.index with
        | some ia, some ib => decide (ia < ib)
        | _, _ => false) = false := h
  by_cases h1 : pa < pb
  · rw [if_pos h1] at h
    cases h
  · exact not_lt.mp h1

theorem heapPoll_cons_ne_none {π : Type} [LinearOrder π] (m0 : Move π)
    (ms : List (Move π)) : heapPoll (m0 :: ms) ≠ none := by
  rw [heapPoll]
  cases heapPoll ms with
  | none => simp
  | some p =>
    obtain ⟨m1, rest1⟩ := p
    show (if moveLt m1 m0 = true then some (m1, m0 :: rest1)
      else some (m0, ms)) ≠ none
    by_cases h : moveLt m1 m0 = true
    · rw [if_pos h]
      simp
    · rw [if_neg h]
      simp

theorem heapPoll_priority_min {π : Type} [LinearOrder π] :
    ∀ (l : List (Move π)) (m : Move π) (rest : List (Move π)),
      heapPoll l = some (m, rest) →
      (∀ m2 ∈ l, ∃ p, m2.priority = some p) →
      ∀ m' ∈ l, ∀ pm pm', m.priority = some pm → m'.priority = some pm' →
        pm ≤ pm' := by
  intro l
  induction l with
  | nil =>
    intro m rest h
    cases h
  | cons m0 ms ih =>
    intro m rest h hprio m' hm' pm pm' hpm hpm'
    rw [heapPoll] at h
    cases hrec : heapPoll ms with
    | none =>
      have hmsnil : ms = [] := heapPoll_none π ms hrec
      rw [hrec] at h
      replace h : some (m0, ([] : List (Move π))) = some (m, rest) := h
      cases h
      subst hmsnil
      rw [List.mem_singleton] at hm'
      subst hm'
      rw [hpm] at hpm'
      cases hpm'
      exact le_refl _
    | some p =>
      obtain ⟨m1, rest1⟩ := p
      rw [hrec] at h
      replace h : (if moveLt m1 m0 = true then some (m1, m0 :: rest1)
        else some (m0, ms)) = some (m, rest) := h
      have hm1mem : m1 ∈ ms :=
        (heapPoll_perm π ms m1 rest1 hrec).symm.subset
          (List.mem_cons_self _ _)
      obtain ⟨pm1, hpm1⟩ := hprio m1 (List.mem_cons_of_mem _ hm1mem)
      have hprioms : ∀ m2 ∈ ms, ∃ p2, m2.priority = some p2 :=
        fun m2 hm2 => hprio m2 (List.mem_cons_of_mem _ hm2)
      by_cases hlt : moveLt m1 m0 = true
      · rw [if_pos hlt] at h
        injection h with h1
        have h1a : m1 = m := congrArg Prod.fst h1
        rw [← h1a] at hpm
        rcases List.mem_cons.1 hm' with rfl | hm'
        · exact moveLt_true_le m1 m' hlt hpm hpm'
        · exact ih m1 rest1 hrec hprioms m' hm' pm pm' hpm hpm'
      · rw [Bool.not_eq_true] at hlt
        rw [if_neg (by rw [hlt]; exact Bool.false_ne_true)] at h
        injection h with h1
        have h1a : m0 = m := congrArg Prod.fst h1
        rw [← h1a] at hpm
        rcases List.mem_cons.1 hm' with rfl | hm'
        · rw [hpm] at hpm'
          cases hpm'
          exact le_refl _
        · have hle1 : pm ≤ pm1 := moveLt_false_le m1 m0 hlt hpm1 hpm
          have hle2 : pm1 ≤ pm' :=
            ih m1 rest1 hrec hprioms m' hm' pm1 pm' hpm1 hpm'
          exact le_trans hle1 hle2

theorem validMoveFor_dest (π : Type) (src : CellCoordinates) (g : Grid)
    (cf : CameFrom) (off : Int × Int) (m : Move π)
    (h : validMoveFor π src g cf off = some m) :
    m.destination = ⟨src.row + off.1, src.col + off.2⟩ := by
  rw [validMoveFor] at h
  by_cases hc : isInsideGrid
      (⟨src.row + off.1, src.col + off.2⟩ : CellCoordinates) g = true ∧
      cellAt g (⟨src.row + off.1, src.col + off.2⟩ : CellCoordinates) ≠
        CellType.Wall ∧
      ¬ alistHas cf (⟨src.row + off.1, src.col + off.2⟩ :
        CellCoordinates) = true
  · rw [if_pos hc] at h
    cases h
    rfl
  · rw [if_neg hc] at h
    cases h

theorem filterMap_valid_dests_nodup (π : Type) (src : CellCoordinates)
    (g : Grid) (cf : CameFrom) :
    ∀ (offs : List (Int × Int)), offs.Nodup →
      ((offs.filterMap (validMoveFor π src g cf)).map
        (·.destination)).Nodup := by
  intro offs
  induction offs with
  | nil =>
    intro _
    simp
  | cons off rest ih =>
    intro hnd
    obtain ⟨hnotin, hnd2⟩ := List.nodup_cons.mp hnd
    rw [List.filterMap_cons]
    cases hv : validMoveFor π src g cf off with
    | none => exact ih hnd2
    | some m =>
      rw [List.map_cons, List.nodup_cons]
      refine ⟨?_, ih hnd2⟩
      intro hmem
      rw [List.mem_map] at hmem
      obtain ⟨m2, hm2, hd2⟩ := hmem
      rw [List.mem_filterMap] at hm2
      obtain ⟨off2, hoff2, hv2⟩ := hm2
      have hd1 := validMoveFor_dest π src g cf off m hv
      have hd2b := validMoveFor_dest π src g cf off2 m2 hv2
      have : off2 = off := by
        rw [hd1, hd2b] at hd2
        have hr : src.row + off2.1 = src.row + off.1 :=
          congrArg CellCoordinates.row hd2
        have hc : src.col + off2.2 = src.col + off.2 :=
          congrArg CellCoordinates.col hd2
        have h1 : off2.1 = off.1 := by omega
        have h2 : off2.2 = off.2 := by omega
        obtain ⟨a1, a2⟩ := off2
        obtain ⟨b1, b2⟩ := off
        simp only at h1 h2
        rw [h1, h2]
      rw [this] at hoff2
      exact hnotin hoff2

theorem getValidMoves_dests_nodup (π : Type) (src : CellCoordinates)
    (g : Grid) (cf : CameFrom) :
    ((getValidMoves π src g cf).map (·.destination)).Nodup := by
  rw [getValidMoves]
  exact filterMap_valid_dests_nodup π src g cf offsetList (by decide)

theorem gatedGo_precise (π : Type) [LinearOrder π]
    (prio : Nat → CellCoordinates → π) (v0 : CellCoordinates) :
    ∀ (ms : List (Move π)) (aux : Aux) (nv : Nat),
      alistGet aux.numSteps v0 = some nv →
      (∀ m ∈ ms, m.destination ≠ v0) →
      (ms.map (·.destination)).Nodup →
      alistGet (gatedGo π prio v0 ms aux).2.numSteps v0 = some nv ∧
      (∀ c, (∀ m ∈ ms, m.destination ≠ c) →
        alistGet (gatedGo π prio v0 ms aux).2.numSteps c =
          alistGet aux.numSteps c) ∧
      (∀ m' ∈ (gatedGo π prio v0 ms aux).1, ∃ m ∈ ms,
        m'.destination = m.destination ∧ m'.source = m.source ∧
        m'.priority = some (prio (nv + 1) m.destination)) ∧
      (∀ m ∈ ms,
        (∃ old, alistGet aux.numSteps m.destination = some old ∧
          old ≤ nv + 1 ∧
          alistGet (gatedGo π prio v0 ms aux).2.numSteps m.destination =
            some old ∧
          ∀ m' ∈ (gatedGo π prio v0 ms aux).1,
            m'.destination ≠ m.destination) ∨
        (alistGet (gatedGo π prio v0 ms aux).2.numSteps m.destination =
            some (nv + 1) ∧
          (∀ old2, alistGet aux.numSteps m.destination = some old2 →
            nv + 1 < old2) ∧
          ∃ m' ∈ (gatedGo π prio v0 ms aux).1,
            m'.destination = m.destination ∧ m'.source = m.source ∧
            m'.priority = some (prio (nv + 1) m.destination))) := by
  intro ms
  induction ms with
  | nil =>
    intro aux nv hv0 _ _
    refine ⟨hv0, fun c _ => rfl, ?_, ?_⟩
    · intro m' hm'
      exact absurd hm' (List.not_mem_nil m')
    · intro m hm
      exact absurd hm (List.not_mem_nil m)
  | cons m ms ih =>
    intro aux nv hv0 hne hnd
    have hhne : m.destination ≠ v0 := hne m (List.mem_cons_self _ _)
    have hne2 : ∀ m2 ∈ ms, m2.destination ≠ v0 :=
      fun m2 hm2 => hne m2 (List.mem_cons_of_mem _ hm2)
    have hndc : m.destination ∉ ms.map (·.destination) ∧
        (ms.map (·.destination)).Nodup := by
      rw [List.map_cons, List.nodup_cons] at hnd
      exact hnd
    obtain ⟨hndhead, hnd2⟩ := hndc
    rcases relaxMove_spec π prio ((alistGet aux.numSteps v0).getD 0 + 1) m
      aux with ⟨old, hget, hle, heq⟩ | ⟨h1, h2⟩
    · simp only [gatedGo, heq]
      obtain ⟨ih0, ihframe, ihent, ihper⟩ := ih aux nv hv0 hne2 hnd2
      refine ⟨ih0, ?_, ?_, ?_⟩
      · intro c hc
        exact ihframe c (fun m2 hm2 => hc m2 (List.mem_cons_of_mem _ hm2))
      · intro m' hm'
        obtain ⟨m2, hm2, h⟩ := ihent m' hm'
        exact ⟨m2, List.mem_cons_of_mem _ hm2, h⟩
      · intro m2 hm2
        rcases List.mem_cons.1 hm2 with rfl | hm2
        · left
          have hle2 : old ≤ nv + 1 := by
            rw [hv0] at hle
            exact hle
          refine ⟨old, hget, hle2, ?_, ?_⟩
          · rw [ihframe m2.destination (fun m3 hm3 h3 =>
              hndhead (h3 ▸ List.mem_map_of_mem (·.destination) hm3))]
            exact hget
          · intro m' hm'
            obtain ⟨m3, hm3, hd3, _, _⟩ := ihent m' hm'
            rw [hd3]
            intro h3
            exact hndhead (h3 ▸ List.mem_map_of_mem (·.destination) hm3)
        · exact ihper m2 hm2
    · have heq2 :
        relaxMove π prio ((alistGet aux.numSteps v0).getD 0 + 1) m aux =
          (some { m with
            priority := some (prio ((alistGet aux.numSteps v0).getD 0 + 1)
              m.destination),
            index := some aux.index },
          ⟨alistSet aux.numSteps m.destination
            ((alistGet aux.numSteps v0).getD 0 + 1), aux.index + 1⟩) := by
        rw [← h1, ← h2]
      simp only [gatedGo, heq2]
      set aux2 : Aux := ⟨alistSet aux.numSteps m.destination
        ((alistGet aux.numSteps v0).getD 0 + 1), aux.index + 1⟩ with haux2
      have hv02 : alistGet aux2.numSteps v0 = some nv := by
        rw [haux2]
        show alistGet (alistSet aux.numSteps m.destination _) v0 = some nv
        rw [alistGet_set_ne _ _ _ _ (Ne.symm hhne)]
        exact hv0
      obtain ⟨ih0, ihframe, ihent, ihper⟩ := ih aux2 nv hv02 hne2 hnd2
      refine ⟨ih0, ?_, ?_, ?_⟩
      · intro c hc
        rw [ihframe c (fun m2 hm2 => hc m2 (List.mem_cons_of_mem _ hm2))]
        rw [haux2]
        show alistGet (alistSet aux.numSteps m.destination _) c =
          alistGet aux.numSteps c
        exact alistGet_set_ne _ _ _ _
          (fun h3 => hc m (List.mem_cons_self _ _) h3.symm)
      · intro m' hm'
        rcases List.mem_cons.1 hm' with rfl | hm'
        · refine ⟨m, List.mem_cons_self _ _, rfl, rfl, ?_⟩
          show some (prio ((alistGet aux.numSteps v0).getD 0 + 1)
            m.destination) = some (prio (nv + 1) m.destination)
          rw [hv0]
          rfl
        · obtain ⟨m2, hm2, hd, hs, hp⟩ := ihent m' hm'
          exact ⟨m2, List.mem_cons_of_mem _ hm2, hd, hs, hp⟩
      · intro m2 hm2
        rcases List.mem_cons.1 hm2 with rfl | hm2
        · right
          refine ⟨?_, ?_, ?_⟩
          · rw [ihframe m2.destination (fun m3 hm3 h3 =>
              hndhead (h3 ▸ List.mem_map_of_mem (·.destination) hm3))]
            rw [haux2]
            show alistGet (alistSet aux.numSteps m2.destination _)
              m2.destination = some (nv + 1)
            rw [alistGet_set_self, hv0]
            rfl
          · intro old2 hold2
            by_contra hnlt
            push_neg at hnlt
            have hle2 : old2 ≤ (alistGet aux.numSteps v0).getD 0 + 1 := by
              rw [hv0]
              exact hnlt
            have hskip : relaxMove π prio
                ((alistGet aux.numSteps v0).getD 0 + 1) m2 aux =
                (none, aux) := by
              simp only [relaxMove, hold2, if_pos hle2]
            rw [hskip] at h1
            cases h1
          · refine ⟨_, List.mem_cons_self _ _, rfl, rfl, ?_⟩
            show some (prio ((alistGet aux.numSteps v0).getD 0 + 1)
              m2.destination) = some (prio (nv + 1) m2.destination)
            rw [hv0]
            rfl
        · rcases ihper m2 hm2 with ⟨old2, hget2, hle2, hfin2, hnone2⟩ |
            hfin2_all
          · left
            have hne23 : m2.destination ≠ m.destination := by
              intro h3
              exact hndhead (h3 ▸ List.mem_map_of_mem (·.destination) hm2)
            refine ⟨old2, ?_, hle2, hfin2, ?_⟩
            · rw [haux2] at hget2
              replace hget2 : alistGet (alistSet aux.numSteps m.destination
                ((alistGet aux.numSteps v0).getD 0 + 1)) m2.destination =
                  some old2 := hget2
              rw [alistGet_set_ne _ _ _ _ hne23] at hget2
              exact hget2
            · intro m' hm'
              rcases List.mem_cons.1 hm' with rfl | hm'
              · intro h3
                exact hne23 h3.symm
              · exact hnone2 m' hm'
          · obtain ⟨hfina, hstrict2, hentb⟩ := hfin2_all
            right
            refine ⟨hfina, ?_, ?_⟩
            · intro old2 hold2
              have hne23 : m2.destination ≠ m.destination := by
                intro h3
                exact hndhead (h3 ▸ List.mem_map_of_mem (·.destination) hm2)
              apply hstrict2 old2
              rw [haux2]
              show alistGet (alistSet aux.numSteps m.destination
                ((alistGet aux.numSteps v0).getD 0 + 1)) m2.destination =
                some old2
              rw [alistGet_set_ne _ _ _ _ hne23]
              exact hold2
            · obtain ⟨m', hm', hprops⟩ := hentb
              exact ⟨m', List.mem_cons_of_mem _ hm', hprops⟩

/-! #### A* finds a shortest path: the frontier invariant -/

theorem aStarPrio_eval (goals : List CellCoordinates) (gn : Nat)
    (c : CellCoordinates) :
    aStarPrio goals gn c = gn + nearestGoalDistance goals c := rfl

theorem reachIn_inside (g : Grid) (s v : CellCoordinates) (n : Nat)
    (hin : isInsideGrid s g = true) (h : ReachIn g s v n) :
    isInsideGrid v g = true := by
  induction h with
  | refl => exact hin
  | step hr hadj ih =>
    obtain ⟨off, _, _, hiv, _⟩ := hadj
    exact hiv

theorem astarInv_init (g : Grid) (s : CellCoordinates)
    (goals : List CellCoordinates) :
    AStarInv g s goals [initMove ℕ s] [] [(s, 0)] := by
  refine ⟨trivial, ?_, ?_, ?_, ?_, ?_, ?_, ?_, ?_, ?_, ?_, ?_⟩
  · intro m hm
    rw [List.mem_singleton] at hm
    subst hm
    exact Or.inl ⟨rfl, rfl⟩
  · intro u hu
    simp [alistHas, alistGet] at hu
  · intro u hu
    simp [alistHas, alistGet] at hu
  · intro c n hc
    replace hc : (if c = s then some 0 else none) = some n := hc
    by_cases hcs : c = s
    · rw [if_pos hcs] at hc
      injection hc with h6
      subst hcs
      rw [← h6]
      exact ReachIn.refl
    · rw [if_neg hcs] at hc
      cases hc
  · exact Or.inr ⟨rfl, rfl, rfl⟩
  · intro hs
    simp [alistHas, alistGet] at hs
  · intro m hm pr hpr
    rw [List.mem_singleton] at hm
    subst hm
    replace hpr : (none : Option ℕ) = some pr := hpr
    cases hpr
  · intro m hm pr hpr _
    rw [List.mem_singleton] at hm
    subst hm
    replace hpr : (none : Option ℕ) = some pr := hpr
    cases hpr
  · intro hs
    simp [alistHas, alistGet] at hs
  · intro v k _ hpred _
    obtain ⟨u, hu, _⟩ := hpred
    simp [alistHas, alistGet] at hu
  · intro u hu
    simp [alistHas, alistGet] at hu

theorem astar_skip (g : Grid) (s : CellCoordinates)
    (goals : List CellCoordinates) (container : List (Move ℕ))
    (m : Move ℕ) (rest : List (Move ℕ)) (cf : CameFrom)
    (ns : List (CellCoordinates × Nat))
    (hinv : AStarInv g s goals container cf ns)
    (hpop : heapPoll container = some (m, rest))
    (hvis : alistHas cf m.destination = true) :
    AStarInv g s goals rest cf ns := by
  have hsub : ∀ m' ∈ rest, m' ∈ container := fun m' hm' =>
    (heapPoll_perm ℕ container m rest hpop).symm.subset
      (List.mem_cons_of_mem _ hm')
  have hsvis : alistHas cf s = true := by
    rcases hinv.start_vis with h | ⟨_, hcf, _⟩
    · exact h
    · exfalso
      rw [hcf] at hvis
      simp [alistHas, alistGet] at hvis
  refine ⟨hinv.cfinv, ?_, hinv.depth_dist, hinv.visited_ns,
    hinv.ns_sound, Or.inl hsvis, ?_, ?_, ?_, ?_, hinv.opt_pred_ns,
    hinv.no_goal⟩
  · exact fun m' hm' => hinv.moves_ok m' (hsub m' hm')
  · exact fun _ m' hm' => hinv.prio_some hsvis m' (hsub m' hm')
  · exact fun m' hm' pr hpr => hinv.entry_val m' (hsub m' hm') pr hpr
  · exact fun m' hm' pr hpr h2 =>
      hinv.entry_ns m' (hsub m' hm') pr hpr h2
  · intro _ v nv hvunv hvget
    obtain ⟨m2, hm2, hd2, hp2⟩ := hinv.live_best hsvis v nv hvunv hvget
    have hm2r := (heapPoll_perm ℕ container m rest hpop).subset hm2
    rcases List.mem_cons.1 hm2r with rfl | hm2r
    · exfalso
      rw [hd2] at hvis
      rw [hvis] at hvunv
      cases hvunv
    · exact ⟨m2, hm2r, hd2, hp2⟩

theorem astar_pop (g : Grid) (s : CellCoordinates)
    (goals : List CellCoordinates) (hne : goals ≠ [])
    (container : List (Move ℕ)) (m : Move ℕ) (rest : List (Move ℕ))
    (cf : CameFrom) (ns : List (CellCoordinates × Nat))
    (hinv : AStarInv g s goals container cf ns)
    (hpop : heapPoll container = some (m, rest))
    (hsvis : alistHas cf s = true)
    (hunv : alistHas cf m.destination = false) :
    ∃ u nu, m.source = some u ∧ alistHas cf u = true ∧
      adjacent g u m.destination ∧ MinDist g s u nu ∧
      m.priority = some ((nu + 1) +
        nearestGoalDistance goals m.destination) ∧
      MinDist g s m.destination (nu + 1) ∧
      alistGet ns m.destination = some (nu + 1) := by
  have hmem : m ∈ container :=
    (heapPoll_perm ℕ container m rest hpop).symm.subset
      (List.mem_cons_self _ _)
  obtain ⟨pr, hpr⟩ := hinv.prio_some hsvis m hmem
  obtain ⟨u, nu, hsrc, huvis, hadj, hmdu, hpreq⟩ :=
    hinv.entry_val m hmem pr hpr
  have hreach : Reachable g s m.destination := ⟨nu + 1, hmdu.1.step hadj⟩
  obtain ⟨dv, hdv⟩ := exists_minDist g s m.destination hreach
  have hdvle : dv ≤ nu + 1 := hdv.2 _ (hmdu.1.step hadj)
  have hge : nu + 1 ≤ dv := by
    obtain ⟨i, wi, hile, hwi, hwiunv, hcase, hbound⟩ :=
      frontier_cut g s cf goals hne dv m.destination hdv hunv
    rcases hcase with ⟨hwis, _⟩ | ⟨u2, k, hu2vis, hadj2, hu2, hieq⟩
    · rw [hwis, hsvis] at hwiunv
      cases hwiunv
    · have hnswi : alistGet ns wi = some i := by
        rw [hieq]
        exact hinv.opt_pred_ns wi k hwiunv ⟨u2, hu2vis, hadj2, hu2⟩
          (by rw [← hieq]; exact hwi)
      obtain ⟨m2, hm2, hm2d, hm2p⟩ :=
        hinv.live_best hsvis wi i hwiunv hnswi
      have hple := heapPoll_priority_min container m rest hpop
        (hinv.prio_some hsvis) m2 hm2 _ _ hpr hm2p
      rw [hpreq] at hple
      omega
  have hdveq : dv = nu + 1 := le_antisymm hdvle hge
  rw [hdveq] at hdv
  have hns : alistGet ns m.destination = some (nu + 1) := by
    obtain ⟨nv2, hnv2, hnv2le⟩ := hinv.entry_ns m hmem pr hpr hunv
    have hr2 := hinv.ns_sound m.destination nv2 hnv2
    have hge2 : nu + 1 ≤ nv2 := hdv.2 nv2 hr2
    have heq2 : nv2 = nu + 1 := by
      rw [hpreq] at hnv2le
      omega
    rw [← heq2]
    exact hnv2
  rw [hpreq] at hpr
  exact ⟨u, nu, hsrc, huvis, hadj, hmdu, hpr, hdv, hns⟩

theorem astar_goal (g : Grid) (s : CellCoordinates)
    (goals : List CellCoordinates) (hne : goals ≠ [])
    (hgoalmem : ∀ γ, Reachable g s γ → cellAt g γ = CellType.Goal →
      γ ∈ goals)
    (d : Nat)
    (hd : ∃ γ, cellAt g γ = CellType.Goal ∧ ReachIn g s γ d)
    (hmin : ∀ d2 γ, cellAt g γ = CellType.Goal → ReachIn g s γ d2 →
      d ≤ d2)
    (container : List (Move ℕ)) (m : Move ℕ) (rest : List (Move ℕ))
    (cf : CameFrom) (ns : List (CellCoordinates × Nat))
    (hinv : AStarInv g s goals container cf ns)
    (hpop : heapPoll container = some (m, rest))
    (hsvis : alistHas cf s = true)
    (hgoal : cellAt g m.destination = CellType.Goal)
    (gv : Nat)
    (hprv : m.priority = some (gv +
      nearestGoalDistance goals m.destination))
    (hmdd : MinDist g s m.destination gv) : gv = d := by
  have hdle : d ≤ gv := hmin gv m.destination hgoal hmdd.1
  have hgvle : gv ≤ d := by
    obtain ⟨γ, hγg, hγr⟩ := hd
    obtain ⟨dγ, hdγ⟩ := exists_minDist g s γ ⟨d, hγr⟩
    have h1 : dγ ≤ d := hdγ.2 d hγr
    have h2 : d ≤ dγ := hmin dγ γ hγg hdγ.1
    have hdγd : dγ = d := by omega
    have hγ0 : nearestGoalDistance goals γ = 0 :=
      nearestGoalDistance_zero goals γ (hgoalmem γ ⟨d, hγr⟩ hγg)
    have hd0 : nearestGoalDistance goals m.destination = 0 :=
      nearestGoalDistance_zero goals m.destination
        (hgoalmem m.destination ⟨gv, hmdd.1⟩ hgoal)
    have hγunv : alistHas cf γ = false := by
      cases hb : alistHas cf γ with
      | false => rfl
      | true => exact absurd hγg (hinv.no_goal γ hb)
    rw [← hdγd]
    obtain ⟨i, wi, hile, hwi, hwiunv, hcase, hbound⟩ :=
      frontier_cut g s cf goals hne dγ γ hdγ hγunv
    rcases hcase with ⟨hwis, _⟩ | ⟨u2, k, hu2vis, hadj2, hu2, hieq⟩
    · rw [hwis, hsvis] at hwiunv
      cases hwiunv
    · have hnswi : alistGet ns wi = some i := by
        rw [hieq]
        exact hinv.opt_pred_ns wi k hwiunv ⟨u2, hu2vis, hadj2, hu2⟩
          (by rw [← hieq]; exact hwi)
      obtain ⟨m2, hm2, hm2d, hm2p⟩ :=
        hinv.live_best hsvis wi i hwiunv hnswi
      have hple := heapPoll_priority_min container m rest hpop
        (hinv.prio_some hsvis) m2 hm2 _ _ hprv hm2p
      omega
  omega

theorem astar_step (g : Grid) (s : CellCoordinates)
    (goals : List CellCoordinates)
    (container : List (Move ℕ)) (m : Move ℕ) (rest : List (Move ℕ))
    (cf : CameFrom) (aux : Aux)
    (hinv : AStarInv g s goals container cf aux.numSteps)
    (hsub : ∀ m' ∈ rest, m' ∈ container)
    (hmok : MoveOK ℕ g s cf m)
    (hunv : alistHas cf m.destination = false)
    (hnotgoal : cellAt g m.destination ≠ CellType.Goal)
    (gv : Nat) (hgv : MinDist g s m.destination gv)
    (hns0 : alistGet aux.numSteps m.destination = some gv)
    (hchain2 : Chain s ((m.destination, m.source) :: cf) m.destination gv)
    (hs2 : alistHas ((m.destination, m.source) :: cf) s = true)
    (hps : ∀ m' ∈ rest, ∃ pr, m'.priority = some pr)
    (hlive : ∀ v nv1, v ≠ m.destination → alistHas cf v = false →
      alistGet aux.numSteps v = some nv1 →
      ∃ m' ∈ rest, m'.destination = v ∧
        m'.priority = some (nv1 + nearestGoalDistance goals v)) :
    AStarInv g s goals
      (rest ++ (gatedGo ℕ (aStarPrio goals) m.destination
        (getValidMoves ℕ m.destination g ((m.destination, m.source) :: cf))
        aux).1)
      ((m.destination, m.source) :: cf)
      (gatedGo ℕ (aStarPrio goals) m.destination
        (getValidMoves ℕ m.destination g ((m.destination, m.source) :: cf))
        aux).2.numSteps := by
  have hvis2 : alistHas ((m.destination, m.source) :: cf) m.destination
      = true := by
    simp [alistHas, alistGet]
  have hdest_props : ∀ mv ∈ getValidMoves ℕ m.destination g
      ((m.destination, m.source) :: cf),
      mv.source = some m.destination ∧
      adjacent g m.destination mv.destination ∧
      alistHas ((m.destination, m.source) :: cf) mv.destination = false :=
    fun mv hmv => by
      have h5 := getValidMoves_mem ℕ m.destination g _ mv hmv
      exact ⟨h5.1, h5.2.2.2.1, h5.2.2.2.2⟩
  have hdest_ne : ∀ mv ∈ getValidMoves ℕ m.destination g
      ((m.destination, m.source) :: cf), mv.destination ≠ m.destination := by
    intro mv hmv heq
    have h5 := (hdest_props mv hmv).2.2
    rw [heq, hvis2] at h5
    cases h5
  have hnd := getValidMoves_dests_nodup ℕ m.destination g
    ((m.destination, m.source) :: cf)
  obtain ⟨hG0, hG1, hG2, hG3⟩ := gatedGo_precise ℕ (aStarPrio goals)
    m.destination
    (getValidMoves ℕ m.destination g ((m.destination, m.source) :: cf))
    aux gv hns0 hdest_ne hnd
  have hvis_not_dest : ∀ u, alistHas ((m.destination, m.source) :: cf) u
      = true → ∀ mv ∈ getValidMoves ℕ m.destination g
        ((m.destination, m.source) :: cf), mv.destination ≠ u := by
    intro u hu mv hmv heq
    have h5 := (hdest_props mv hmv).2.2
    rw [heq, hu] at h5
    cases h5
  refine ⟨⟨hmok, hunv, hinv.cfinv⟩, ?_, ?_, ?_, ?_, Or.inl hs2, ?_, ?_,
    ?_, ?_, ?_, ?_⟩
  · -- moves_ok
    intro m' hm'
    rcases List.mem_append.1 hm' with hm' | hm'
    · exact moveOK_mono ℕ g s cf _ m' (hinv.moves_ok m' (hsub m' hm'))
    · obtain ⟨mv, hmv, hdeq, hseq, _⟩ := hG2 m' hm'
      refine Or.inr ⟨m.destination, ?_, hvis2, ?_⟩
      · rw [hseq, (hdest_props mv hmv).1]
      · rw [hdeq]
        exact (hdest_props mv hmv).2.1
  · -- depth_dist
    intro u hu
    rcases (alistHas_cons_iff _ cf u).1 hu with heq | hu
    · have heq2 : u = m.destination := heq
      subst heq2
      exact ⟨gv, hchain2, hgv⟩
    · obtain ⟨n, hc, hmd⟩ := hinv.depth_dist u hu
      exact ⟨n, chain_mono s _ cf hunv hc, hmd⟩
  · -- visited_ns
    intro u hu
    rcases (alistHas_cons_iff _ cf u).1 hu with heq | hu
    · have heq2 : u = m.destination := heq
      subst heq2
      exact ⟨gv, hG0, hgv⟩
    · obtain ⟨n, hget, hmd⟩ := hinv.visited_ns u hu
      refine ⟨n, ?_, hmd⟩
      have hframe := hG1 u (fun mv hmv =>
        hvis_not_dest u (alistHas_cons_of _ cf u hu) mv hmv)
      rw [hframe]
      exact hget
  · -- ns_sound
    intro c n hget
    by_cases hd : ∃ mv ∈ getValidMoves ℕ m.destination g
        ((m.destination, m.source) :: cf), mv.destination = c
    · obtain ⟨mv, hmv, hdeq⟩ := hd
      rcases hG3 mv hmv with ⟨old, hold, _, hfin, _⟩ | ⟨hfin, _, _⟩
      · rw [hdeq] at hold hfin
        rw [hfin] at hget
        injection hget with h6
        exact h6 ▸ hinv.ns_sound c old hold
      · rw [hdeq] at hfin
        rw [hfin] at hget
        injection hget with h6
        have hadj := (hdest_props mv hmv).2.1
        rw [hdeq] at hadj
        exact h6 ▸ (hgv.1.step hadj)
    · push_neg at hd
      have hframe := hG1 c hd
      rw [hframe] at hget
      exact hinv.ns_sound c n hget
  · -- prio_some
    intro _ m' hm'
    rcases List.mem_append.1 hm' with hm' | hm'
    · exact hps m' hm'
    · obtain ⟨mv, hmv, _, _, hpeq⟩ := hG2 m' hm'
      exact ⟨_, hpeq⟩
  · -- entry_val
    intro m' hm' pr hpr
    rcases List.mem_append.1 hm' with hm' | hm'
    · obtain ⟨u, nu, hsrc, hu, hadj, hmd, hpreq⟩ :=
        hinv.entry_val m' (hsub m' hm') pr hpr
      exact ⟨u, nu, hsrc, alistHas_cons_of _ cf u hu, hadj, hmd, hpreq⟩
    · obtain ⟨mv, hmv, hdeq, hseq, hpeq⟩ := hG2 m' hm'
      refine ⟨m.destination, gv, ?_, hvis2, ?_, hgv, ?_⟩
      · rw [hseq, (hdest_props mv hmv).1]
      · rw [hdeq]
        exact (hdest_props mv hmv).2.1
      · rw [hpr] at hpeq
        injection hpeq with h6
        rw [h6, hdeq, aStarPrio_eval]
  · -- entry_ns
    intro m' hm' pr hpr hunv2
    rcases List.mem_append.1 hm' with hm' | hm'
    · have hunvcf : alistHas cf m'.destination = false := by
        cases hb : alistHas cf m'.destination with
        | false => rfl
        | true =>
          rw [alistHas_cons_of _ cf _ hb] at hunv2
          cases hunv2
      obtain ⟨nv1, hnv1, hle1⟩ :=
        hinv.entry_ns m' (hsub m' hm') pr hpr hunvcf
      by_cases hd : ∃ mv ∈ getValidMoves ℕ m.destination g
          ((m.destination, m.source) :: cf),
          mv.destination = m'.destination
      · obtain ⟨mv, hmv, hdeq⟩ := hd
        rcases hG3 mv hmv with ⟨old, hold, _, hfin, _⟩ |
          ⟨hfin, hstrict, _⟩
        · rw [hdeq] at hold hfin
          rw [hnv1] at hold
          injection hold with h6
          refine ⟨nv1, ?_, hle1⟩
          rw [hfin, ← h6]
        · rw [hdeq] at hfin hstrict
          have h7 := hstrict nv1 hnv1
          refine ⟨gv + 1, hfin, ?_⟩
          omega
      · push_neg at hd
        have hframe := hG1 m'.destination hd
        rw [hframe]
        exact ⟨nv1, hnv1, hle1⟩
    · obtain ⟨mv, hmv, hdeq, hseq, hpeq⟩ := hG2 m' hm'
      rcases hG3 mv hmv with ⟨_, _, _, _, hnone⟩ | ⟨hfin, _, _⟩
      · exact absurd hdeq (hnone m' hm')
      · rw [hpr] at hpeq
        injection hpeq with h6
        refine ⟨gv + 1, ?_, ?_⟩
        · rw [hdeq]
          exact hfin
        · rw [h6, hdeq, aStarPrio_eval]
  · -- live_best
    intro _ v nv1 hvunv hvget
    have hvne : v ≠ m.destination := by
      intro heq
      rw [heq, hvis2] at hvunv
      cases hvunv
    have hvunvcf : alistHas cf v = false := by
      cases hb : alistHas cf v with
      | false => rfl
      | true =>
        rw [alistHas_cons_of _ cf _ hb] at hvunv
        cases hvunv
    by_cases hd : ∃ mv ∈ getValidMoves ℕ m.destination g
        ((m.destination, m.source) :: cf), mv.destination = v
    · obtain ⟨mv, hmv, hdeq⟩ := hd
      rcases hG3 mv hmv with ⟨old, hold, _, hfin, _⟩ | ⟨hfin, _, hent⟩
      · rw [hdeq] at hold hfin
        rw [hfin] at hvget
        injection hvget with h6
        obtain ⟨m3, hm3, hd3, hp3⟩ := hlive v old hvne hvunvcf hold
        refine ⟨m3, List.mem_append_left _ hm3, hd3, ?_⟩
        rw [h6] at hp3
        exact hp3
      · rw [hdeq] at hfin
        rw [hfin] at hvget
        injection hvget with h6
        obtain ⟨m3, hm3, hd3, _, hp3⟩ := hent
        refine ⟨m3, List.mem_append_right _ hm3, ?_, ?_⟩
        · rw [hd3, hdeq]
        · rw [hp3, aStarPrio_eval, ← h6, ← hdeq]
    · push_neg at hd
      have hframe := hG1 v hd
      rw [hframe] at hvget
      obtain ⟨m3, hm3, hd3, hp3⟩ := hlive v nv1 hvne hvunvcf hvget
      exact ⟨m3, List.mem_append_left _ hm3, hd3, hp3⟩
  · -- opt_pred_ns
    intro v k hvunv hpred hmdv
    obtain ⟨u, hu2, hadj2, hmdu2⟩ := hpred
    have hvunvcf : alistHas cf v = false := by
      cases hb : alistHas cf v with
      | false => rfl
      | true =>
        rw [alistHas_cons_of _ cf _ hb] at hvunv
        cases hvunv
    rcases (alistHas_cons_iff _ cf u).1 hu2 with hueq | hu2
    · have hueq2 : u = m.destination := hueq
      subst hueq2
      have hkgv : k = gv := minDist_unique g s m.destination hmdu2 hgv
      subst hkgv
      obtain ⟨mv, hmv, hdeq⟩ := getValidMoves_complete ℕ m.destination g
        ((m.destination, m.source) :: cf) v hadj2 hvunv
      rcases hG3 mv hmv with ⟨old, hold, holdle, hfin, _⟩ | ⟨hfin, _, _⟩
      · rw [hdeq] at hold hfin
        have hrold := hinv.ns_sound v old hold
        have h8 : k + 1 ≤ old := hmdv.2 old hrold
        have h9 : old = k + 1 := by omega
        rw [hfin, h9]
      · rw [hdeq] at hfin
        exact hfin
    · have hnsv : alistGet aux.numSteps v = some (k + 1) :=
        hinv.opt_pred_ns v k hvunvcf ⟨u, hu2, hadj2, hmdu2⟩ hmdv
      by_cases hd : ∃ mv ∈ getValidMoves ℕ m.destination g
          ((m.destination, m.source) :: cf), mv.destination = v
      · obtain ⟨mv, hmv, hdeq⟩ := hd
        rcases hG3 mv hmv with ⟨old, hold, _, hfin, _⟩ |
          ⟨hfin, hstrict, _⟩
        · rw [hdeq] at hold hfin
          rw [hnsv] at hold
          injection hold with h6
          rw [hfin, ← h6]
        · exfalso
          rw [hdeq] at hstrict
          have h7 := hstrict (k + 1) hnsv
          have hadj3 := (hdest_props mv hmv).2.1
          rw [hdeq] at hadj3
          have h8 : ReachIn g s v (gv + 1) := hgv.1.step hadj3
          have h9 := hmdv.2 (gv + 1) h8
          omega
      · push_neg at hd
        have hframe := hG1 v hd
        rw [hframe]
        exact hnsv
  · -- no_goal
    intro u hu
    rcases (alistHas_cons_iff _ cf u).1 hu with hueq | hu
    · have hueq2 : u = m.destination := hueq
      rw [hueq2]
      exact hnotgoal
    · exact hinv.no_goal u hu

theorem astar_loop_shortest (g : Grid) (s : CellCoordinates)
    (goals : List CellCoordinates) (hne : goals ≠ [])
    (hgoalmem : ∀ γ, Reachable g s γ → cellAt g γ = CellType.Goal →
      γ ∈ goals)
    (d : Nat)
    (hd : ∃ γ, cellAt g γ = CellType.Goal ∧ ReachIn g s γ d)
    (hmin : ∀ d2 γ, cellAt g γ = CellType.Goal → ReachIn g s γ d2 →
      d ≤ d2) :
    ∀ (fuel : Nat) (container : List (Move ℕ)) (cf : CameFrom)
      (aux : Aux), AStarInv g s goals container cf aux.numSteps →
      ∀ p, (runLoop ℕ g (aStarStrategy goals) s fuel container cf aux).2 =
        Outcome.path p → p.length = d + 1 := by
  intro fuel
  induction fuel with
  | zero =>
    intro container cf aux _ p hp
    cases hp
  | succ fuel ih =>
    intro container cf aux hinv p hp
    cases hpoll : heapPoll container with
    | none =>
      have hpop : (aStarStrategy goals).pop container = none := hpoll
      simp only [runLoop, hpop] at hp
      cases hp
    | some popped =>
      obtain ⟨m, rest⟩ := popped
      have hpop : (aStarStrategy goals).pop container = some (m, rest) :=
        hpoll
      simp only [runLoop, hpop] at hp
      have hsub : ∀ m' ∈ rest, m' ∈ container := fun m' hm' =>
        (heapPoll_perm ℕ container m rest hpoll).symm.subset
          (List.mem_cons_of_mem _ hm')
      have hmem : m ∈ container :=
        (heapPoll_perm ℕ container m rest hpoll).symm.subset
          (List.mem_cons_self _ _)
      by_cases hvis : alistHas cf m.destination = true
      · simp only [hvis, if_true] at hp
        exact ih rest cf aux
          (astar_skip g s goals container m rest cf aux.numSteps hinv
            hpoll hvis) p hp
      · rw [Bool.not_eq_true] at hvis
        simp only [hvis, Bool.false_eq_true, if_false] at hp
        rcases hsv : hinv.start_vis with hsvis | ⟨hcont, hcf, hns⟩
        · -- a generic state: the start is already visited
          obtain ⟨u, nu, hsrc, huvis, hadj, hmdu, hprv, hmdd, hnsd⟩ :=
            astar_pop g s goals hne container m rest cf aux.numSteps hinv
              hpoll hsvis hvis
          have hchain2 : Chain s ((m.destination, m.source) :: cf)
              m.destination (nu + 1) := by
            have hdnes : m.destination ≠ s := by
              intro heq
              rw [heq, hsvis] at hvis
              cases hvis
            obtain ⟨n2, hc2, hmd2⟩ := hinv.depth_dist u huvis
            have hn2 : n2 = nu := minDist_unique g s u hmd2 hmdu
            have hchainu : Chain s ((m.destination, m.source) :: cf) u
                nu := by
              rw [← hn2]
              exact chain_mono s _ cf hvis hc2
            refine Chain.step hdnes ?_ hchainu
            show alistGet ((m.destination, m.source) :: cf)
              m.destination = some (some u)
            simp [alistGet, hsrc]
          by_cases hgoal : cellAt g m.destination = CellType.Goal
          · simp only [hgoal, if_true] at hp
            have hlayer : nu + 1 = d :=
              astar_goal g s goals hne hgoalmem d hd hmin container m
                rest cf aux.numSteps hinv hpoll hsvis hgoal (nu + 1) hprv
                hmdd
            have hcf2 : CFInv g s ((m.destination, m.source) :: cf) :=
              ⟨hinv.moves_ok m hmem, hvis, hinv.cfinv⟩
            obtain ⟨p0, hp0, hlen, _⟩ :=
              reconstructPath_spec g s _ hcf2 hchain2
            simp only [hp0] at hp
            replace hp : Outcome.path p0 = Outcome.path p := hp
            cases hp
            omega
          · simp only [hgoal, if_false] at hp
            replace hp : (runLoop ℕ g (aStarStrategy goals) s fuel
                (rest ++ (gatedGo ℕ (aStarPrio goals) m.destination
                  (getValidMoves ℕ m.destination g
                    ((m.destination, m.source) :: cf)) aux).1)
                ((m.destination, m.source) :: cf)
                (gatedGo ℕ (aStarPrio goals) m.destination
                  (getValidMoves ℕ m.destination g
                    ((m.destination, m.source) :: cf)) aux).2).2 =
              Outcome.path p := hp
            have hs2 : alistHas ((m.destination, m.source) :: cf) s =
                true := alistHas_cons_of _ cf s hsvis
            have hps : ∀ m' ∈ rest, ∃ pr2, m'.priority = some pr2 :=
              fun m' hm' => hinv.prio_some hsvis m' (hsub m' hm')
            have hlive : ∀ v nv1, v ≠ m.destination →
                alistHas cf v = false →
                alistGet aux.numSteps v = some nv1 →
                ∃ m' ∈ rest, m'.destination = v ∧
                  m'.priority = some (nv1 +
                    nearestGoalDistance goals v) := by
              intro v nv1 hvne hvunv hvget
              obtain ⟨m3, hm3, hd3, hp3⟩ :=
                hinv.live_best hsvis v nv1 hvunv hvget
              have hm3r : m3 ∈ m :: rest :=
                (heapPoll_perm ℕ container m rest hpoll).subset hm3
              rcases List.mem_cons.1 hm3r with rfl | hm3r
              · exact absurd hd3.symm hvne
              · exact ⟨m3, hm3r, hd3, hp3⟩
            exact ih _ _ _
              (astar_step g s goals container m rest cf aux hinv hsub
                (hinv.moves_ok m hmem) hvis hgoal (nu + 1) hmdd hnsd
                hchain2 hs2 hps hlive) p hp
        · -- the initial state: the container holds only the start entry
          subst hcont
          subst hcf
          have hpoll2 : some (initMove ℕ s, ([] : List (Move ℕ))) =
              some (m, rest) := hpoll
          injection hpoll2 with h1
          have hr1 : ([] : List (Move ℕ)) = rest := congrArg Prod.snd h1
          have hm1 : initMove ℕ s = m := congrArg Prod.fst h1
          subst hr1
          have hmd : m.destination = s := by
            rw [← hm1]
            rfl
          have hmsrc : m.source = none := by
            rw [← hm1]
            rfl
          by_cases hgoal : cellAt g m.destination = CellType.Goal
          · simp only [hgoal, if_true] at hp
            have hgoals : cellAt g s = CellType.Goal := by
              rw [← hmd]
              exact hgoal
            have hd0 : d = 0 := by
              have := hmin 0 s hgoals ReachIn.refl
              omega
            have hchain2 : Chain s ((m.destination, m.source) ::
                ([] : CameFrom)) m.destination 0 := by
              rw [hmd]
              exact Chain.refl
            have hcf2 : CFInv g s ((m.destination, m.source) ::
                ([] : CameFrom)) := ⟨Or.inl ⟨hmsrc, hmd⟩, rfl, trivial⟩
            obtain ⟨p0, hp0, hlen, _⟩ :=
              reconstructPath_spec g s _ hcf2 hchain2
            simp only [hp0] at hp
            replace hp : Outcome.path p0 = Outcome.path p := hp
            cases hp
            omega
          · simp only [hgoal, if_false] at hp
            replace hp : (runLoop ℕ g (aStarStrategy goals) s fuel
                (([] : List (Move ℕ)) ++ (gatedGo ℕ (aStarPrio goals)
                  m.destination
                  (getValidMoves ℕ m.destination g
                    ((m.destination, m.source) :: ([] : CameFrom)))
                  aux).1)
                ((m.destination, m.source) :: ([] : CameFrom))
                (gatedGo ℕ (aStarPrio goals) m.destination
                  (getValidMoves ℕ m.destination g
                    ((m.destination, m.source) :: ([] : CameFrom)))
                  aux).2).2 =
              Outcome.path p := hp
            have hmdd : MinDist g s m.destination 0 := by
              rw [hmd]
              exact minDist_self g s
            have hnsd : alistGet aux.numSteps m.destination = some 0 := by
              rw [hns, hmd]
              simp [alistGet]
            have hchain2 : Chain s ((m.destination, m.source) ::
                ([] : CameFrom)) m.destination 0 := by
              rw [hmd]
              exact Chain.refl
            have hs2 : alistHas ((m.destination, m.source) ::
                ([] : CameFrom)) s = true := by
              rw [hmd]
              simp [alistHas, alistGet]
            have hps : ∀ m' ∈ ([] : List (Move ℕ)),
                ∃ pr2, m'.priority = some pr2 :=
              fun m' hm' => absurd hm' (List.not_mem_nil m')
            have hlive : ∀ v nv1, v ≠ m.destination →
                alistHas ([] : CameFrom) v = false →
                alistGet aux.numSteps v = some nv1 →
                ∃ m' ∈ ([] : List (Move ℕ)), m'.destination = v ∧
                  m'.priority = some (nv1 +
                    nearestGoalDistance goals v) := by
              intro v nv1 hvne _ hvget
              exfalso
              have hvs : v ≠ s := by
                rw [← hmd]
                exact hvne
              rw [hns] at hvget
              replace hvget : (if v = s then some 0 else none) =
                  some nv1 := hvget
              rw [if_neg hvs] at hvget
              cases hvget
            exact ih _ _ _
              (astar_step g s goals [initMove ℕ s] m
                ([] : List (Move ℕ)) ([] : CameFrom) aux hinv
                (fun m' hm' => absurd hm' (List.not_mem_nil m'))
                (Or.inl ⟨hmsrc, hmd⟩) hvis hgoal 0 hmdd hnsd
                hchain2 hs2 hps hlive) p hp

theorem astar_shortest (g : Grid) (s : CellCoordinates)
    (goals : List CellCoordinates) (d : Nat)
    (hok : findStartAndGoals g = .ok (s, goals))
    (hd : ∃ γ, cellAt g γ = CellType.Goal ∧ ReachIn g s γ d)
    (hmin : ∀ d2 γ, cellAt g γ = CellType.Goal → ReachIn g s γ d2 →
      d ≤ d2) :
    ∃ p, (aStar g).2 = Outcome.path p ∧ p.length = d + 1 := by
  have hastar : aStar g = runSearch ℕ (aStarStrategy goals) g s
      ⟨[(s, 0)], 0⟩ := by
    rw [aStar, hok]
  obtain ⟨hin, hstart, hgprops⟩ := findStartAndGoals_ok_props g s goals hok
  have hne : goals ≠ [] := findStartAndGoals_goals_ne_nil g s goals hok
  have hgoalmem : ∀ γ, Reachable g s γ → cellAt g γ = CellType.Goal →
      γ ∈ goals := by
    intro γ hreach hγ
    obtain ⟨n, hn⟩ := hreach
    exact (hgprops γ).mpr ⟨reachIn_inside g s γ n hin hn, hγ⟩
  have haux : ∀ c, alistHas ([(s, 0)] :
      List (CellCoordinates × Nat)) c = true → c = s := by
    intro c hc
    by_cases hcs : c = s
    · exact hcs
    · exfalso
      replace hc : ((if c = s then some 0 else none) :
          Option Nat).isSome = true := hc
      rw [if_neg hcs] at hc
      cases hc
  rw [hastar]
  cases hout : (runSearch ℕ (aStarStrategy goals) g s ⟨[(s, 0)], 0⟩).2 with
  | path p =>
    refine ⟨p, rfl, ?_⟩
    exact astar_loop_shortest g s goals hne hgoalmem d hd hmin
      (searchFuel g) [initMove ℕ s] [] ⟨[(s, 0)], 0⟩
      (astarInv_init g s goals) p hout
  | failure =>
    exfalso
    obtain ⟨γ, hγg, hγr⟩ := hd
    have hsg : cellAt g s ≠ CellType.Goal := by
      rw [hstart]
      intro h
      cases h
    have hexp := runSearch_failure_reachable ℕ g (aStarStrategy goals) s
      ⟨[(s, 0)], 0⟩ (aStarStrategy_laws goals) hsg haux hout γ ⟨d, hγr⟩
    have hnog := runLoop_failure_no_goal ℕ g (aStarStrategy goals) s
      (searchFuel g) [initMove ℕ s] [] ⟨[(s, 0)], 0⟩ hout γ hexp
    exact hnog hγg
  | invalid =>
    exact absurd hout (runLoop_not_invalid ℕ g (aStarStrategy goals) s
      (searchFuel g) [initMove ℕ s] [] ⟨[(s, 0)], 0⟩)
  | stuck =>
    exact absurd hout (runSearch_not_stuck ℕ g (aStarStrategy goals) s
      ⟨[(s, 0)], 0⟩ (aStarStrategy_laws goals) hin)

/-- C1: on every grid that passes validation (a Start cell and at least
one Goal cell) and on which some Goal cell is reachable from the Start
cell, breadth-first search and A* each terminate with a `path` outcome
whose edge count (`length - 1`) equals the true shortest-path distance
`d` from the Start cell to a Goal cell, `d` being characterised exactly as
a reference breadth-first search over the same grid would compute it: some
goal is reachable in `d` moves and none is reachable in fewer. -/
theorem bfs_astar_shortest_path (g : Grid) (s : CellCoordinates)
    (goals : List CellCoordinates) (d : Nat)
    (hok : findStartAndGoals g = .ok (s, goals))
    (hd : ∃ γ, cellAt g γ = CellType.Goal ∧ ReachIn g s γ d)
    (hmin : ∀ d2 γ, cellAt g γ = CellType.Goal → ReachIn g s γ d2 →
      d ≤ d2) :
    (∃ p, (breadthFirstSearch g).2 = Outcome.path p ∧
      p.length = d + 1) ∧
    (∃ p, (aStar g).2 = Outcome.path p ∧ p.length = d + 1) :=
  ⟨bfs_shortest g s goals d hok hd hmin,
    astar_shortest g s goals d hok hd hmin⟩

theorem bfs_astar_shortest_path_witness :
    (∃ p, (breadthFirstSearch [[CellType.Start, CellType.Goal]]).2 =
      Outcome.path p ∧ p.length = 1 + 1) ∧
    (∃ p, (aStar [[CellType.Start, CellType.Goal]]).2 =
      Outcome.path p ∧ p.length = 1 + 1) := by
  have hadj : adjacent [[CellType.Start, CellType.Goal]] ⟨0, 0⟩ ⟨0, 1⟩ :=
    ⟨(0, 1), by decide, by decide, by decide, by decide⟩
  have hd : ∃ γ, cellAt [[CellType.Start, CellType.Goal]] γ =
      CellType.Goal ∧
      ReachIn [[CellType.Start, CellType.Goal]] ⟨0, 0⟩ γ 1 :=
    ⟨⟨0, 1⟩, by decide, ReachIn.step ReachIn.refl hadj⟩
  have hmin : ∀ d2 γ, cellAt [[CellType.Start, CellType.Goal]] γ =
      CellType.Goal →
      ReachIn [[CellType.Start, CellType.Goal]] ⟨0, 0⟩ γ d2 → 1 ≤ d2 := by
    intro d2 γ hγ hr
    cases d2 with
    | zero =>
      exfalso
      have hγs := reachIn_zero _ _ _ hr
      rw [hγs] at hγ
      exact absurd hγ (by decide)
    | succ k => omega
  exact bfs_astar_shortest_path [[CellType.Start, CellType.Goal]]
    ⟨0, 0⟩ [⟨0, 1⟩] 1 (by decide) hd hmin

end Pathfinder
